import Mathlib

/-!
Shallow embedding of the rlox bytecode compiler and virtual machine
(a Rust implementation of the clox variant of Lox), together with proofs
about the embedded definitions.

Modelling conventions:
* Rust `f64` is modelled as `Rat`.  Every numeric literal exercised by the
  concrete claims is a small integer, on which `f64` arithmetic and
  comparison are exact, so the rational model agrees with the source there.
  (`f64` rounding, NaN and infinities are not modelled.)
* `Rc<InternString>` is modelled as an allocation identity (`Nat`) paired
  with the string contents; `Rc::ptr_eq` becomes equality of identities.
* Rust panics (index out of bounds, `unwrap`/`expect`, integer underflow)
  are modelled by `Option`: a `none` result means the source panics.
* `HashMap<String, Value>` is modelled as an association list with unique
  keys; `insert` replaces in place or appends, `remove` deletes the key,
  matching a hash map observationally.
* Loops are given explicit fuel; exhausting fuel yields `none`, never a
  wrong result.
-/

set_option maxRecDepth 10000

namespace RLox

/-! ## Values (src/src/value.rs) -/

/-- Rust `f64` is modelled as an unreduced fraction with exact rational
arithmetic.  Every numeric literal in the embedded programs is a small
integer, for which `f64` arithmetic and comparison agree exactly with the
rational semantics.  IEEE rounding, NaN and infinities are not modelled
(dividing by zero yields a zero denominator here). -/
structure RNum where
  num : Int
  den : Nat
  deriving Repr, DecidableEq

instance (n : Nat) : OfNat RNum n := ⟨⟨n, 1⟩⟩

def RNum.add (a b : RNum) : RNum := ⟨a.num * b.den + b.num * a.den, a.den * b.den⟩

def RNum.sub (a b : RNum) : RNum := ⟨a.num * b.den - b.num * a.den, a.den * b.den⟩

def RNum.mul (a b : RNum) : RNum := ⟨a.num * b.num, a.den * b.den⟩

def RNum.div (a b : RNum) : RNum :=
  ⟨a.num * b.den * (if b.num < 0 then -1 else 1), a.den * b.num.natAbs⟩

def RNum.neg (a : RNum) : RNum := ⟨-a.num, a.den⟩

/-- `f64` equality, exact on rationals (cross-multiplication). -/
def RNum.beq (a b : RNum) : Bool := a.num * b.den == b.num * a.den

/-- `f64` strict order, exact on rationals. -/
def RNum.blt (a b : RNum) : Bool := a.num * (b.den : Int) < b.num * (a.den : Int)

/-- Rust's `Display for f64` prints integral doubles without a decimal
point ("3", "-2"); only the integral case is exercised by the embedded
programs. -/
def RNum.display (a : RNum) : String :=
  if a.den ≠ 0 ∧ a.num % (a.den : Int) = 0 then toString (a.num / (a.den : Int))
  else toString a.num ++ "/" ++ toString a.den

/-- Runtime values.  `string` carries the allocation identity of the
`Rc<InternString>` plus its text contents. -/
inductive Value where
  | number (x : RNum)
  | bool (b : Bool)
  | string (id : Nat) (text : String)
  | nil
  deriving Repr, DecidableEq

/-- The `PartialEq for Value` impl: numbers by numeric equality, bools by
value, strings by `Rc::ptr_eq` (identity), otherwise by discriminant
(so `Nil == Nil`, and any cross-tag comparison is false). -/
def Value.beq : Value → Value → Bool
  | .number a, .number b => a.beq b
  | .bool a, .bool b => a == b
  | .string i _, .string j _ => i == j
  | .nil, .nil => true
  | _, _ => false

/-- The `Display for Value` impl. -/
def Value.display : Value → String
  | .nil => "nil"
  | .bool b => if b then "true" else "false"
  | .number x => x.display
  | .string _ s => s

/-- Modelled from the spec: `is_falsey` is called by vm.rs but its
definition is not among the provided source files.  Spec section 3: a value
is falsey iff it is `Nil` or `Bool(false)`; all other values are truthy. -/
def Value.isFalsey : Value → Bool
  | .nil => true
  | .bool b => !b
  | _ => false

/-! ## String interner as used by one `interpret` call
(src/src/value/string_intern.rs)

During a single `interpret` call every interned string reached by the
compiler or the VM is kept alive by the chunk's constant pool, the value
stack or the globals table, hence within a run we model the table as a map
from text to allocation identity whose weak references always upgrade.
(The claim about weak references and liveness across drops is treated by
the separate trace model `Interning` further below.) -/

/-- Association list lookup, first match wins (`HashMap::get`). -/
def lookupA {α : Type} (m : List (String × α)) (k : String) : Option α :=
  match m with
  | [] => none
  | (k', v) :: rest => if k' = k then some v else lookupA rest k

structure StringInterns where
  map : List (String × Nat)
  nextId : Nat
  deriving Repr, DecidableEq

def StringInterns.new : StringInterns := ⟨[], 0⟩

/-- `get_or_intern`: return the existing shared reference for this text if
still live (always, within one run), else allocate a fresh one and record
it. -/
def StringInterns.getOrIntern (st : StringInterns) (s : String) : Nat × StringInterns :=
  match lookupA st.map s with
  | some id => (id, st)
  | none => (st.nextId, ⟨(s, st.nextId) :: st.map, st.nextId + 1⟩)

/-- `build_string_value`. -/
def StringInterns.buildStringValue (st : StringInterns) (s : String) : Value × StringInterns :=
  let r := st.getOrIntern s
  (Value.string r.1 s, r.2)

/-! ## Chunks (src/src/chunk.rs) -/

structure Chunk where
  code : List Nat
  constants : List Value
  lines : List Nat
  deriving Repr, DecidableEq

def Chunk.new : Chunk := ⟨[], [], []⟩

/-- `Chunk::write_code`: push one byte and its source line. -/
def Chunk.writeCode (c : Chunk) (b : Nat) (line : Nat) : Chunk :=
  { c with code := c.code ++ [b], lines := c.lines ++ [line] }

/-- `Chunk::write_u16`: big-endian byte order. -/
def Chunk.writeU16 (c : Chunk) (v : Nat) (line : Nat) : Chunk :=
  (c.writeCode (v / 256 % 256) line).writeCode (v % 256) line

/-- `Chunk::add_constant`: the value is pushed first, then the new index is
converted to `u8`; the conversion fails (returning `None`) when the index
exceeds 255, but the push has already happened. -/
def Chunk.addConstant (c : Chunk) (v : Value) : Option Nat × Chunk :=
  let cs := c.constants ++ [v]
  (if cs.length - 1 ≤ 255 then some (cs.length - 1) else none, { c with constants := cs })

/-- `Chunk::get_constant_unwrap`; `none` is the panic on an invalid index. -/
def Chunk.getConstant (c : Chunk) (idx : Nat) : Option Value :=
  c.constants.get? idx

/-! ## Instruction set (src/src/instructions.rs)

The `Loop` opcode is handled by vm.rs but absent from the provided
instructions.rs; it is modelled from the spec as the next opcode after
`Divide`.  Numbering follows the source: `Return = 1`, subsequent variants
dense. -/

inductive Opcode where
  | ret | jump | jumpIfFalse | print | pop
  | constant | defineGlobal | getGlobal | setGlobal | getLocal | setLocal
  | nil' | true' | false'
  | not | negate | equal | greater | less
  | add | subtract | multiply | divide
  | loop
  deriving Repr, DecidableEq

def Opcode.toByte : Opcode → Nat
  | .ret => 1
  | .jump => 2
  | .jumpIfFalse => 3
  | .print => 4
  | .pop => 5
  | .constant => 6
  | .defineGlobal => 7
  | .getGlobal => 8
  | .setGlobal => 9
  | .getLocal => 10
  | .setLocal => 11
  | .nil' => 12
  | .true' => 13
  | .false' => 14
  | .not => 15
  | .negate => 16
  | .equal => 17
  | .greater => 18
  | .less => 19
  | .add => 20
  | .subtract => 21
  | .multiply => 22
  | .divide => 23
  | .loop => 24

/-- `TryFrom<u8> for Opcode`: a bounds check followed by a transmute of the
dense range; modelled as the inverse of `toByte`. -/
def Opcode.tryFrom : Nat → Option Opcode
  | 1 => some .ret
  | 2 => some .jump
  | 3 => some .jumpIfFalse
  | 4 => some .print
  | 5 => some .pop
  | 6 => some .constant
  | 7 => some .defineGlobal
  | 8 => some .getGlobal
  | 9 => some .setGlobal
  | 10 => some .getLocal
  | 11 => some .setLocal
  | 12 => some .nil'
  | 13 => some .true'
  | 14 => some .false'
  | 15 => some .not
  | 16 => some .negate
  | 17 => some .equal
  | 18 => some .greater
  | 19 => some .less
  | 20 => some .add
  | 21 => some .subtract
  | 22 => some .multiply
  | 23 => some .divide
  | 24 => some .loop
  | _ => none

/-- The `Op` enum: opcode plus inline operand. `loop` is modelled from the
spec (the emitter for it is exercised by the repository's tests and its
interpreter case is in vm.rs). -/
inductive Op where
  | ret
  | jump (v : Nat)
  | jumpIfFalse (v : Nat)
  | loop (v : Nat)
  | print
  | pop
  | constant (idx : Nat)
  | defineGlobal (idx : Nat)
  | getGlobal (idx : Nat)
  | setGlobal (idx : Nat)
  | getLocal (idx : Nat)
  | setLocal (idx : Nat)
  | nil'
  | true'
  | false'
  | not | negate | equal | greater | less | add | subtract | multiply | divide
  deriving Repr, DecidableEq

/-- `Chunk::write`: serialize one instruction into the byte stream.
Single-byte operands are `u8` (the emitter only ever produces values
≤ 255; the reduction mirrors the `as u8` representation), 16-bit operands
are written big-endian. -/
def Chunk.write (c : Chunk) (op : Op) (line : Nat) : Chunk :=
  match op with
  | .ret => c.writeCode (Opcode.ret.toByte) line
  | .jump v => (c.writeCode (Opcode.jump.toByte) line).writeU16 v line
  | .jumpIfFalse v => (c.writeCode (Opcode.jumpIfFalse.toByte) line).writeU16 v line
  | .loop v => (c.writeCode (Opcode.loop.toByte) line).writeU16 v line
  | .print => c.writeCode (Opcode.print.toByte) line
  | .pop => c.writeCode (Opcode.pop.toByte) line
  | .constant i => (c.writeCode (Opcode.constant.toByte) line).writeCode (i % 256) line
  | .defineGlobal i => (c.writeCode (Opcode.defineGlobal.toByte) line).writeCode (i % 256) line
  | .getGlobal i => (c.writeCode (Opcode.getGlobal.toByte) line).writeCode (i % 256) line
  | .setGlobal i => (c.writeCode (Opcode.setGlobal.toByte) line).writeCode (i % 256) line
  | .getLocal i => (c.writeCode (Opcode.getLocal.toByte) line).writeCode (i % 256) line
  | .setLocal i => (c.writeCode (Opcode.setLocal.toByte) line).writeCode (i % 256) line
  | .nil' => c.writeCode (Opcode.nil'.toByte) line
  | .true' => c.writeCode (Opcode.true'.toByte) line
  | .false' => c.writeCode (Opcode.false'.toByte) line
  | .not => c.writeCode (Opcode.not.toByte) line
  | .negate => c.writeCode (Opcode.negate.toByte) line
  | .equal => c.writeCode (Opcode.equal.toByte) line
  | .greater => c.writeCode (Opcode.greater.toByte) line
  | .less => c.writeCode (Opcode.less.toByte) line
  | .add => c.writeCode (Opcode.add.toByte) line
  | .subtract => c.writeCode (Opcode.subtract.toByte) line
  | .multiply => c.writeCode (Opcode.multiply.toByte) line
  | .divide => c.writeCode (Opcode.divide.toByte) line

/-! ## The value stack (src/src/vm.rs, `ValueStack`)

A fixed array of 256 `Option<Value>` slots plus a cursor.  `none` results
model the panics (out-of-bounds indexing, cursor underflow, `expect` on an
empty slot). -/

def STACK_MAX : Nat := 256

structure ValueStack where
  values : List (Option Value)
  stackTop : Nat
  deriving Repr, DecidableEq

def ValueStack.new : ValueStack := ⟨List.replicate STACK_MAX none, 0⟩

/-- `push`: writes `values[stack_top]` (panics when the stack is full),
then increments the cursor. -/
def ValueStack.push (s : ValueStack) (v : Value) : Option ValueStack :=
  if s.stackTop < s.values.length then
    some ⟨s.values.set s.stackTop (some v), s.stackTop + 1⟩
  else none

/-- `pop`: decrements the cursor (underflow panics) and takes the slot
(an empty slot panics via `expect`). -/
def ValueStack.pop (s : ValueStack) : Option (Value × ValueStack) :=
  match s.stackTop with
  | 0 => none
  | t + 1 =>
    match s.values.get? t with
    | some (some v) => some (v, ⟨s.values.set t none, t⟩)
    | _ => none

/-- `peek`: reads `values[stack_top - 1]` without moving the cursor. -/
def ValueStack.peek (s : ValueStack) : Option Value :=
  match s.stackTop with
  | 0 => none
  | t + 1 => (s.values.get? t).bind id

/-- `peek_at(from_top)`: reads `values[stack_top - from_top - 1]`, counting
from the **top** of the stack; panics ("Peeked too deep") when
`from_top >= stack_top`. -/
def ValueStack.peekAt (s : ValueStack) (fromTop : Nat) : Option Value :=
  if s.stackTop ≤ fromTop then none
  else (s.values.get? (s.stackTop - fromTop - 1)).bind id

/-- A write through the mutable reference returned by `peek_at`. -/
def ValueStack.setAt (s : ValueStack) (fromTop : Nat) (v : Value) : Option ValueStack :=
  if s.stackTop ≤ fromTop then none
  else
    match s.values.get? (s.stackTop - fromTop - 1) with
    | some (some _) => some ⟨s.values.set (s.stackTop - fromTop - 1) (some v), s.stackTop⟩
    | _ => none

/-! ## Globals table (`HashMap<String, Value>`) -/

/-- `HashMap::insert`: returns the previous value (if any) and the updated
map; an existing key is overwritten in place, a new key is appended. -/
def insertA (m : List (String × Value)) (k : String) (v : Value) :
    Option Value × List (String × Value) :=
  match m with
  | [] => (none, [(k, v)])
  | (k', v') :: rest =>
    if k' = k then (some v', (k, v) :: rest)
    else
      let r := insertA rest k v
      (r.1, (k', v') :: r.2)

/-- `HashMap::remove` (the returned old value is unused by the VM). -/
def removeA (m : List (String × Value)) (k : String) : List (String × Value) :=
  m.filter (fun p => p.1 ≠ k)

/-! ## VM dispatch (src/src/vm.rs) -/

inductive InterpretError where
  | compileError
  | runtimeError
  deriving Repr, DecidableEq

structure VMState where
  ip : Nat
  values : ValueStack
  strings : StringInterns
  globals : List (String × Value)
  deriving Repr, DecidableEq

/-- Output channels accumulated during a run. -/
structure OutState where
  out : String
  err : String
  deriving Repr, DecidableEq

/-- `runtime_err`: print the message and `[line N] in script` to stderr,
where `N = lines[ip]` (`ip` already points past the failing instruction);
an out-of-range `ip` would panic. -/
def runtimeErr (chunk : Chunk) (st : VMState) (os : OutState) (msg : String) :
    Option (OutState) :=
  match chunk.lines.get? st.ip with
  | some line =>
      some { os with err := os.err ++ msg ++ "\n[line " ++ toString line ++ "] in script\n" }
  | none => none

/-- Result of executing a single instruction. -/
inductive StepOut where
  | next (st : VMState) (os : OutState)
  | done (r : Except InterpretError Unit) (st : VMState) (os : OutState)
  deriving Repr

/-- `read_byte`. -/
def VMState.readByte (st : VMState) (chunk : Chunk) : Option (Nat × VMState) :=
  match chunk.code.get? st.ip with
  | some b => some (b, { st with ip := st.ip + 1 })
  | none => none

/-- One iteration of the `VM::run` dispatch loop. -/
def vmStep (chunk : Chunk) (st : VMState) (os : OutState) : Option StepOut :=
  match st.readByte chunk with
  | none => none
  | some (b, st) =>
    match Opcode.tryFrom b with
    | none =>
      -- `println!("Invalid opcode {code}")` writes to stdout
      some (.done (.error .compileError) st
        { os with out := os.out ++ "Invalid opcode " ++ toString b ++ "\n" })
    | some oc =>
      match oc with
      | .ret => some (.done (.ok ()) st os)
      | .jump =>
        match st.readByte chunk with
        | none => none
        | some (b1, st) =>
          match st.readByte chunk with
          | none => none
          | some (b2, st) =>
            some (.next { st with ip := st.ip + (b1 * 256 + b2) } os)
      | .jumpIfFalse =>
        match st.readByte chunk with
        | none => none
        | some (b1, st) =>
          match st.readByte chunk with
          | none => none
          | some (b2, st) =>
            match st.values.peek with
            | none => none
            | some v =>
              if v.isFalsey then some (.next { st with ip := st.ip + (b1 * 256 + b2) } os)
              else some (.next st os)
      | .loop =>
        match st.readByte chunk with
        | none => none
        | some (b1, st) =>
          match st.readByte chunk with
          | none => none
          | some (b2, st) =>
            -- `self.ip -= go_back + 3`; underflow panics
            if b1 * 256 + b2 + 3 ≤ st.ip then
              some (.next { st with ip := st.ip - (b1 * 256 + b2 + 3) } os)
            else none
      | .constant =>
        match st.readByte chunk with
        | none => none
        | some (idx, st) =>
          match chunk.getConstant idx with
          | none => none
          | some v =>
            match st.values.push v with
            | none => none
            | some vs => some (.next { st with values := vs } os)
      | .defineGlobal =>
        match st.readByte chunk with
        | none => none
        | some (idx, st) =>
          match chunk.getConstant idx with
          | some (.string _ name) =>
            match st.values.pop with
            | none => none
            | some (v, vs) =>
              some (.next { st with values := vs, globals := (insertA st.globals name v).2 } os)
          | _ => none
      | .getGlobal =>
        match st.readByte chunk with
        | none => none
        | some (idx, st) =>
          match chunk.getConstant idx with
          | some (.string _ name) =>
            match lookupA st.globals name with
            | some v =>
              match st.values.push v with
              | none => none
              | some vs => some (.next { st with values := vs } os)
            | none =>
              match runtimeErr chunk st os ("Undefined variable '" ++ name ++ "'.") with
              | none => none
              | some os => some (.done (.error .runtimeError) st os)
          | _ => none
      | .setGlobal =>
        match st.readByte chunk with
        | none => none
        | some (idx, st) =>
          match chunk.getConstant idx with
          | some (.string _ name) =>
            match st.values.peek with
            | none => none
            | some v =>
              let r := insertA st.globals name v
              if r.1.isNone then
                let st := { st with globals := removeA r.2 name }
                match runtimeErr chunk st os ("Undefined variable '" ++ name ++ "'.") with
                | none => none
                | some os => some (.done (.error .runtimeError) st os)
              else
                some (.next { st with globals := r.2 } os)
          | _ => none
      | .getLocal =>
        match st.readByte chunk with
        | none => none
        | some (idx, st) =>
          match st.values.peekAt idx with
          | none => none
          | some v =>
            match st.values.push v with
            | none => none
            | some vs => some (.next { st with values := vs } os)
      | .setLocal =>
        match st.readByte chunk with
        | none => none
        | some (idx, st) =>
          match st.values.peek with
          | none => none
          | some v =>
            -- +1 to account for the peeked value still being on the stack
            match st.values.setAt (idx + 1) v with
            | none => none
            | some vs => some (.next { st with values := vs } os)
      | .pop =>
        match st.values.pop with
        | none => none
        | some (_, vs) => some (.next { st with values := vs } os)
      | .print =>
        match st.values.pop with
        | none => none
        | some (v, vs) =>
          some (.next { st with values := vs } { os with out := os.out ++ v.display ++ "\n" })
      | .true' =>
        match st.values.push (Value.bool true) with
        | none => none
        | some vs => some (.next { st with values := vs } os)
      | .false' =>
        match st.values.push (Value.bool false) with
        | none => none
        | some vs => some (.next { st with values := vs } os)
      | .nil' =>
        match st.values.push Value.nil with
        | none => none
        | some vs => some (.next { st with values := vs } os)
      | .negate =>
        match st.values.pop with
        | none => none
        | some (v, vs) =>
          match v with
          | .number x =>
            match vs.push (Value.number x.neg) with
            | none => none
            | some vs => some (.next { st with values := vs } os)
          | _ =>
            match runtimeErr chunk { st with values := vs } os ("Operand must be a number.") with
            | none => none
            | some os => some (.done (.error .runtimeError) { st with values := vs } os)
      | .not =>
        match st.values.pop with
        | none => none
        | some (v, vs) =>
          match vs.push (Value.bool v.isFalsey) with
          | none => none
          | some vs => some (.next { st with values := vs } os)
      | .equal =>
        match st.values.pop with
        | none => none
        | some (v2, vs) =>
          match vs.pop with
          | none => none
          | some (v1, vs) =>
            match vs.push (Value.bool (v1.beq v2)) with
            | none => none
            | some vs => some (.next { st with values := vs } os)
      | .greater =>
        match st.values.pop with
        | none => none
        | some (bv, vs) =>
          match vs.pop with
          | none => none
          | some (av, vs) =>
            match av, bv with
            | .number a, .number b =>
              match vs.push (Value.bool (RNum.blt b a)) with
              | none => none
              | some vs => some (.next { st with values := vs } os)
            | _, _ =>
              match runtimeErr chunk { st with values := vs } os ("Operands must be numbers.") with
              | none => none
              | some os => some (.done (.error .runtimeError) { st with values := vs } os)
      | .less =>
        match st.values.pop with
        | none => none
        | some (bv, vs) =>
          match vs.pop with
          | none => none
          | some (av, vs) =>
            match av, bv with
            | .number a, .number b =>
              match vs.push (Value.bool (RNum.blt a b)) with
              | none => none
              | some vs => some (.next { st with values := vs } os)
            | _, _ =>
              match runtimeErr chunk { st with values := vs } os ("Operands must be numbers.") with
              | none => none
              | some os => some (.done (.error .runtimeError) { st with values := vs } os)
      | .add =>
        match st.values.pop with
        | none => none
        | some (v2, vs) =>
          match vs.pop with
          | none => none
          | some (v1, vs) =>
            match v1, v2 with
            | .number a, .number b =>
              match vs.push (Value.number (RNum.add b a)) with
              | none => none
              | some vs => some (.next { st with values := vs } os)
            | .string _ s1, .string _ s2 =>
              let r := st.strings.buildStringValue (s1 ++ s2)
              match vs.push r.1 with
              | none => none
              | some vs => some (.next { st with values := vs, strings := r.2 } os)
            | _, _ =>
              match runtimeErr chunk { st with values := vs } os
                  ("Operands must be two numbers or two strings.") with
              | none => none
              | some os => some (.done (.error .runtimeError) { st with values := vs } os)
      | .subtract =>
        match st.values.pop with
        | none => none
        | some (bv, vs) =>
          match vs.pop with
          | none => none
          | some (av, vs) =>
            match av, bv with
            | .number a, .number b =>
              match vs.push (Value.number (RNum.sub a b)) with
              | none => none
              | some vs => some (.next { st with values := vs } os)
            | _, _ =>
              match runtimeErr chunk { st with values := vs } os ("Operands must be numbers.") with
              | none => none
              | some os => some (.done (.error .runtimeError) { st with values := vs } os)
      | .multiply =>
        match st.values.pop with
        | none => none
        | some (bv, vs) =>
          match vs.pop with
          | none => none
          | some (av, vs) =>
            match av, bv with
            | .number a, .number b =>
              match vs.push (Value.number (RNum.mul a b)) with
              | none => none
              | some vs => some (.next { st with values := vs } os)
            | _, _ =>
              match runtimeErr chunk { st with values := vs } os ("Operands must be numbers.") with
              | none => none
              | some os => some (.done (.error .runtimeError) { st with values := vs } os)
      | .divide =>
        match st.values.pop with
        | none => none
        | some (bv, vs) =>
          match vs.pop with
          | none => none
          | some (av, vs) =>
            match av, bv with
            | .number a, .number b =>
              match vs.push (Value.number (RNum.div a b)) with
              | none => none
              | some vs => some (.next { st with values := vs } os)
            | _, _ =>
              match runtimeErr chunk { st with values := vs } os ("Operands must be numbers.") with
              | none => none
              | some os => some (.done (.error .runtimeError) { st with values := vs } os)

/-- The `VM::run` loop: iterate `vmStep` until an instruction finishes the
run.  `none` covers panics and fuel exhaustion. -/
def vmRun (fuel : Nat) (chunk : Chunk) (st : VMState) (os : OutState) :
    Option (Except InterpretError Unit × VMState × OutState) :=
  match fuel with
  | 0 => none
  | fuel + 1 =>
    match vmStep chunk st os with
    | none => none
    | some (.done r st os) => some (r, st, os)
    | some (.next st os) => vmRun fuel chunk st os

/-! ## Tokens (src/src/scanner.rs, src/src/scanner/token_kind.rs) -/

inductive TokenKind where
  | leftParen | rightParen | leftBrace | rightBrace
  | comma | dot | minus | plus | semicolon | slash | star
  | bang | bangEqual | equal | equalEqual
  | greater | greaterEqual | less | lessEqual
  | identifier | string | number
  | and | class' | else' | false' | for' | fun' | if' | nil' | or'
  | print | return' | super' | this' | true' | var | while'
  | eof
  deriving Repr, DecidableEq

structure Token where
  kind : TokenKind
  lexeme : String
  line : Nat
  deriving Repr, DecidableEq

structure ScanErr where
  line : Nat
  msg : String
  deriving Repr, DecidableEq

/-! ## Keyword dispatch (src/src/scanner/identifier_identifier.rs)

Identifier lexemes are all ASCII (the scanner starts them on an ASCII
letter and extends them with ASCII alphanumerics), so Rust's byte indexing
coincides with character indexing here. -/

/-- `match_rest(expected, actual, skip, if_match)`. -/
def matchRest (expected : List Char) (actual : List Char) (skip : Nat)
    (ifMatch : TokenKind) : TokenKind :=
  if actual.length - skip = expected.length && expected.isSuffixOf actual then ifMatch
  else TokenKind.identifier

/-- `Scanner::identifier_type`: trie-like first-letter dispatch.  A `none`
result models a panic: for a one-character word starting with `f` or `t`
the slice `&word[1..2]` indexes past the end of the lexeme.  (An empty
word would likewise panic at `&word[0..1]`, but `identifier` always passes
a non-empty word.) -/
def identifierType (word : List Char) : Option TokenKind :=
  match word with
  | [] => none
  | c0 :: rest =>
    if c0 = 'a' then some (matchRest (String.toList "nd") word 1 .and)
    else if c0 = 'c' then some (matchRest (String.toList "lass") word 1 .class')
    else if c0 = 'e' then some (matchRest (String.toList "lse") word 1 .else')
    else if c0 = 'f' then
      match rest with
      | [] => none
      | c1 :: _ =>
        if c1 = 'a' then some (matchRest (String.toList "lse") word 2 .false')
        else if c1 = 'o' then some (matchRest (String.toList "r") word 2 .for')
        else if c1 = 'u' then some (matchRest (String.toList "n") word 2 .fun')
        else some .identifier
    else if c0 = 'i' then some (matchRest (String.toList "f") word 1 .if')
    else if c0 = 'n' then some (matchRest (String.toList "il") word 1 .nil')
    else if c0 = 'o' then some (matchRest (String.toList "r") word 1 .or')
    else if c0 = 'p' then some (matchRest (String.toList "rint") word 1 .print)
    else if c0 = 'r' then some (matchRest (String.toList "eturn") word 1 .return')
    else if c0 = 't' then
      match rest with
      | [] => none
      | c1 :: _ =>
        if c1 = 'h' then some (matchRest (String.toList "is") word 2 .this')
        else if c1 = 'r' then some (matchRest (String.toList "ue") word 2 .true')
        else some .identifier
    else if c0 = 'v' then some (matchRest (String.toList "ar") word 1 .var)
    else if c0 = 'w' then some (matchRest (String.toList "hile") word 1 .while')
    else some .identifier

/-! ## Scanner (src/src/scanner.rs) -/

structure Scanner where
  source : List Char
  line : Nat
  start : Nat
  current : Nat
  deriving Repr, DecidableEq

def Scanner.mk' (source : String) : Scanner := ⟨source.toList, 1, 0, 0⟩

/-- `self.source.chars().nth(self.current)`. -/
def Scanner.peekC (s : Scanner) : Option Char := s.source.get? s.current

def Scanner.peekNext (s : Scanner) : Option Char := s.source.get? (s.current + 1)

/-- `advance`: returns the peeked character, bumping the cursor only when
one is present. -/
def Scanner.advanceC (s : Scanner) : Option Char × Scanner :=
  match s.peekC with
  | some c => (some c, { s with current := s.current + 1 })
  | none => (none, s)

def Scanner.tryMatch (s : Scanner) (expected : Char) : Bool × Scanner :=
  if s.source.get? s.current = some expected then (true, { s with current := s.current + 1 })
  else (false, s)

/-- `slice`: the char-aware text of `source[a..b]`. -/
def Scanner.sliceChars (s : Scanner) (a b : Nat) : List Char :=
  (s.source.drop a).take (b - a)

def Scanner.makeToken (s : Scanner) (kind : TokenKind) : Token :=
  ⟨kind, String.mk (s.sliceChars s.start s.current), s.line⟩

def Scanner.makeError (s : Scanner) (msg : String) : ScanErr := ⟨s.line, msg⟩

/-- The inner loop of the `//`-comment arm of `skip_whitespace`: consume
to end of line (the newline itself is left for the outer loop). -/
def Scanner.skipComment (fuel : Nat) (s : Scanner) : Scanner :=
  match fuel with
  | 0 => s
  | fuel + 1 =>
    match s.peekC with
    | none => s
    | some c => if c = '\n' then s else Scanner.skipComment fuel (s.advanceC).2

/-- `skip_whitespace`. -/
def Scanner.skipWhitespaceGo (fuel : Nat) (s : Scanner) : Scanner :=
  match fuel with
  | 0 => s
  | fuel + 1 =>
    match s.peekC, s.peekNext with
    | some ' ', _ => Scanner.skipWhitespaceGo fuel (s.advanceC).2
    | some '\r', _ => Scanner.skipWhitespaceGo fuel (s.advanceC).2
    | some '\t', _ => Scanner.skipWhitespaceGo fuel (s.advanceC).2
    | some '\n', _ =>
      Scanner.skipWhitespaceGo fuel { (s.advanceC).2 with line := s.line + 1 }
    | some '/', some '/' =>
      Scanner.skipWhitespaceGo fuel (Scanner.skipComment (s.source.length + 1) s)
    | _, _ => s

def Scanner.skipWhitespace (s : Scanner) : Scanner :=
  Scanner.skipWhitespaceGo (s.source.length + 1) s

/-- The string-literal loop of `Scanner::string`. -/
def Scanner.stringGo (fuel : Nat) (s : Scanner) : Option (Except ScanErr Token × Scanner) :=
  match fuel with
  | 0 => none
  | fuel + 1 =>
    match s.advanceC with
    | (none, s) => some (.error (s.makeError ("Unterminated string.")), s)
    | (some c, s) =>
      if c = '"' then some (.ok (s.makeToken .string), s)
      else if c = '\n' then Scanner.stringGo fuel { s with line := s.line + 1 }
      else Scanner.stringGo fuel s

def isDigitC (c : Char) : Bool := '0' ≤ c && c ≤ '9'

def isAlphaC (c : Char) : Bool := ('a' ≤ c && c ≤ 'z') || ('A' ≤ c && c ≤ 'Z')

/-- A run of digits (the `while is_digit(peek)` loops in `number`). -/
def Scanner.digitsGo (fuel : Nat) (s : Scanner) : Scanner :=
  match fuel with
  | 0 => s
  | fuel + 1 =>
    match s.peekC with
    | some c => if isDigitC c then Scanner.digitsGo fuel (s.advanceC).2 else s
    | none => s

/-- `Scanner::number`. -/
def Scanner.number (s : Scanner) : Token :=
  let s := Scanner.digitsGo (s.source.length + 1) s
  let s :=
    match s.peekC, s.peekNext with
    | some '.', some c =>
      if isDigitC c then Scanner.digitsGo (s.source.length + 1) (s.advanceC).2 else s
    | _, _ => s
  s.makeToken .number

/-- The alphanumeric loop of `Scanner::identifier`. -/
def Scanner.identGo (fuel : Nat) (s : Scanner) : Scanner :=
  match fuel with
  | 0 => s
  | fuel + 1 =>
    match s.peekC with
    | some c =>
      if isAlphaC c || isDigitC c then Scanner.identGo fuel (s.advanceC).2 else s
    | none => s

/-- `Scanner::identifier`; `none` is the keyword-dispatch panic. -/
def Scanner.identifier (s : Scanner) : Option (Token × Scanner) :=
  let s := Scanner.identGo (s.source.length + 1) s
  match identifierType (s.sliceChars s.start s.current) with
  | some kind => some (s.makeToken kind, s)
  | none => none

/-- One- or two-character operator tokens. -/
def Scanner.twoChar (s : Scanner) (expected : Char) (two one : TokenKind) :
    Except ScanErr Token × Scanner :=
  let r := s.tryMatch expected
  if r.1 then (.ok (r.2.makeToken two), r.2) else (.ok (r.2.makeToken one), r.2)

/-- `Scanner::scan_token`; `none` models a panic inside scanning. -/
def Scanner.scanToken (s : Scanner) : Option (Except ScanErr Token × Scanner) :=
  let s := s.skipWhitespace
  let s := { s with start := s.current }
  match s.advanceC with
  | (none, s) => some (.ok (s.makeToken .eof), s)
  | (some c, s) =>
    if c = '(' then some (.ok (s.makeToken .leftParen), s)
    else if c = ')' then some (.ok (s.makeToken .rightParen), s)
    else if c = '{' then some (.ok (s.makeToken .leftBrace), s)
    else if c = '}' then some (.ok (s.makeToken .rightBrace), s)
    else if c = ';' then some (.ok (s.makeToken .semicolon), s)
    else if c = ',' then some (.ok (s.makeToken .comma), s)
    else if c = '.' then some (.ok (s.makeToken .dot), s)
    else if c = '-' then some (.ok (s.makeToken .minus), s)
    else if c = '+' then some (.ok (s.makeToken .plus), s)
    else if c = '/' then some (.ok (s.makeToken .slash), s)
    else if c = '*' then some (.ok (s.makeToken .star), s)
    else if c = '!' then some (s.twoChar '=' .bangEqual .bang)
    else if c = '=' then some (s.twoChar '=' .equalEqual .equal)
    else if c = '<' then some (s.twoChar '=' .lessEqual .less)
    else if c = '>' then some (s.twoChar '=' .greaterEqual .greater)
    else if c = '"' then Scanner.stringGo (s.source.length + 1) s
    else if isDigitC c then some (.ok s.number, s)
    else if isAlphaC c then (s.identifier).map (fun r => (.ok r.1, r.2))
    else some (.error (s.makeError ("Unexpected character.")), s)

/-! ## Compiler state: scopes and locals (src/src/compiler.rs) -/

def UINT8_COUNT : Nat := 256

structure Local where
  depth : Option Nat
  name : Token
  deriving Repr, DecidableEq

structure Compiler where
  scopeDepth : Nat
  localCount : Nat
  locals : List (Option Local)
  deriving Repr, DecidableEq

def Compiler.mk' : Compiler := ⟨0, 0, List.replicate UINT8_COUNT none⟩

/-- `safe_decr`. -/
def safeDecr (val : Nat) : Option Nat :=
  if val = 0 then none else some (val - 1)

/-- `peek_local`: the topmost occupied slot, if any. -/
def Compiler.peekLocal (c : Compiler) : Option Local :=
  match safeDecr c.localCount with
  | none => none
  | some i => (c.locals.get? i).bind id

/-- `pop_local`.  (The source decrements `local_count` first; on an empty
table that underflow would panic, but `pop_local` is only reached after a
local was peeked.) -/
def Compiler.popLocal (c : Compiler) : Compiler :=
  match c.localCount with
  | 0 => c
  | n + 1 => { c with localCount := n, locals := c.locals.set n none }

def Compiler.beginScope (c : Compiler) : Compiler :=
  { c with scopeDepth := c.scopeDepth + 1 }

/-- The pop loop of `end_scope`; `none` is the "Ended scope with
uninitialized local" panic. -/
def Compiler.endScopeGo (fuel : Nat) (c : Compiler) (count : Nat) :
    Option (Compiler × Nat) :=
  match fuel with
  | 0 => none
  | fuel + 1 =>
    match c.peekLocal with
    | none => some (c, count)
    | some l =>
      match l.depth with
      | none => none
      | some d =>
        if d ≤ c.scopeDepth then some (c, count)
        else Compiler.endScopeGo fuel c.popLocal (count + 1)

/-- `end_scope`: decrement the depth, then pop trailing locals deeper than
the new depth, returning how many were popped.  (Each iteration pops one
local, so `localCount + 1` fuel always suffices.) -/
def Compiler.endScope (c : Compiler) : Option (Compiler × Nat) :=
  match c.scopeDepth with
  | 0 => none
  | d + 1 => Compiler.endScopeGo (c.localCount + 1) { c with scopeDepth := d } 0

/-- The walk performed by `LocalWalker`, starting at slot `idx` and moving
down.  `depthFilter = some target` reproduces `iter_same_depth_locals`,
bailing out at an initialized local whose depth is below the target. -/
def walkFrom (locals : List (Option Local)) (depthFilter : Option Nat) :
    Nat → List Local
  | 0 =>
    match locals.get? 0 with
    | some (some l) =>
      (match l.depth, depthFilter with
       | some ld, some td => if ld < td then [] else [l]
       | _, _ => [l])
    | _ => []
  | i + 1 =>
    match locals.get? (i + 1) with
    | some (some l) =>
      (match l.depth, depthFilter with
       | some ld, some td => if ld < td then [] else l :: walkFrom locals depthFilter i
       | _, _ => l :: walkFrom locals depthFilter i)
    | _ => []

/-- `iter_locals`: all occupied slots from the top of the table down. -/
def Compiler.iterLocals (c : Compiler) : List Local :=
  match safeDecr c.localCount with
  | none => []
  | some i => walkFrom c.locals none i

/-- `iter_same_depth_locals`. -/
def Compiler.iterSameDepthLocals (c : Compiler) : List Local :=
  match safeDecr c.localCount with
  | none => []
  | some i => walkFrom c.locals (some c.scopeDepth) i

/-- `add_local`. -/
def Compiler.addLocal (c : Compiler) (name : Token) : Except String Compiler :=
  if c.localCount = UINT8_COUNT then .error ("Too many local variables in function.")
  else if (c.iterSameDepthLocals).any (fun l => l.name.lexeme = name.lexeme) then
    .error ("Already a variable with this name in this scope.")
  else
    .ok { c with locals := c.locals.set c.localCount (some ⟨none, name⟩),
                 localCount := c.localCount + 1 }

/-- `mark_initialized`; `none` is the "Attempted to mark initialized when
no variable is being defined" panic. -/
def Compiler.markInitialized (c : Compiler) : Option Compiler :=
  match safeDecr c.localCount with
  | none => none
  | some i =>
    match c.locals.get? i with
    | some (some l) =>
      some { c with locals := c.locals.set i (some { l with depth := some c.scopeDepth }) }
    | _ => none

/-- `enumerate().find(..)` over the walked locals. -/
def findWithIndex (pred : Local → Bool) : List Local → Nat → Option (Nat × Local)
  | [], _ => none
  | l :: rest, i => if pred l then some (i, l) else findWithIndex pred rest (i + 1)

/-- `resolve_local`: scan the locals top-down; on the first lexeme match
return its walk index as `u8` (`as u8` truncates, modelled by `% 256`)
together with whether the local is initialized. -/
def Compiler.resolveLocal (c : Compiler) (name : Token) : Option (Nat × Bool) :=
  (findWithIndex (fun l => l.name.lexeme = name.lexeme) c.iterLocals 0).map
    (fun r => (r.1 % 256, r.2.depth.isSome))

/-! ## Parser and emitter (src/src/compiler.rs) -/

def stubToken : Token := ⟨.eof, "", 0⟩

structure Parser where
  scanner : Scanner
  chunk : Chunk
  /-- `previous: Option<Token>` in the source; `Parser::new` runs `advance`
  before returning, which assigns `Some`, so afterwards the field is always
  occupied and is modelled as a plain token (initially the stub the first
  `advance` stores). -/
  previous : Token
  current : Token
  hadError : Bool
  panicMode : Bool
  strings : StringInterns
  compiler : Compiler
  /-- Accumulated stderr from `print_err` (`eprintln!`). -/
  errOut : String
  deriving Repr, DecidableEq

/-- `print_err`: suppressed in panic mode, else report and set the error
flags. -/
def Parser.printErr (p : Parser) (err : String) (line : Nat) (at? : Option String) : Parser :=
  if p.panicMode then p
  else
    { p with
      errOut := p.errOut ++ "[line " ++ toString line ++ "] Error" ++ at?.getD "" ++ ": "
        ++ err ++ "\n"
      hadError := true
      panicMode := true }

/-- `error_at_token` applied to a given token. -/
def Parser.errorAtTok (p : Parser) (err : String) (tok : Token) : Parser :=
  let atStr := if tok.kind = .eof then " at end" else " at '" ++ tok.lexeme ++ "'"
  p.printErr err tok.line (some atStr)

def Parser.errorAtCurrent (p : Parser) (err : String) : Parser :=
  p.errorAtTok err p.current

def Parser.error (p : Parser) (err : String) : Parser :=
  p.errorAtTok err p.previous

/-- The scan loop inside `advance`: scanner errors are reported and
scanning retries; a token shifts `current` into `previous`. -/
def Parser.advanceGo (fuel : Nat) (p : Parser) : Option Parser :=
  match fuel with
  | 0 => none
  | fuel + 1 =>
    match p.scanner.scanToken with
    | none => none
    | some (.ok tok, sc) =>
      some { p with scanner := sc, previous := p.current, current := tok }
    | some (.error e, sc) =>
      Parser.advanceGo fuel (Parser.printErr { p with scanner := sc } e.msg e.line none)

def Parser.advance (p : Parser) : Option Parser :=
  Parser.advanceGo (p.scanner.source.length + 2) p

def Parser.consume (p : Parser) (expected : TokenKind) (err : String) : Option Parser :=
  if p.current.kind = expected then p.advance
  else some (p.errorAtCurrent err)

def Parser.check (p : Parser) (expected : TokenKind) : Bool :=
  p.current.kind = expected

def Parser.matchT (p : Parser) (expected : TokenKind) : Option (Bool × Parser) :=
  if p.check expected then (p.advance).map (fun p => (true, p))
  else some (false, p)

/-- `synchronize`: skip to a statement boundary. -/
def Parser.synchronizeGo (fuel : Nat) (p : Parser) : Option Parser :=
  match fuel with
  | 0 => none
  | fuel + 1 =>
    match p.matchT .eof with
    | none => none
    | some (true, p) => some p
    | some (false, p) =>
      if p.previous.kind = .semicolon then some p
      else
        match p.current.kind with
        | .class' => some p
        | .fun' => some p
        | .var => some p
        | .for' => some p
        | .if' => some p
        | .while' => some p
        | .print => some p
        | .return' => some p
        | _ =>
          match p.advance with
          | none => none
          | some p => Parser.synchronizeGo fuel p

def Parser.synchronize (p : Parser) : Option Parser :=
  Parser.synchronizeGo (p.scanner.source.length + 2) { p with panicMode := false }

/-- `emit_ins`: write the instruction at the previous token's line. -/
def Parser.emitIns (p : Parser) (op : Op) : Parser :=
  { p with chunk := p.chunk.write op p.previous.line }

def Parser.makeConstant (p : Parser) (v : Value) : Option Nat × Parser :=
  let r := p.chunk.addConstant v
  match r.1 with
  | some i => (some i, { p with chunk := r.2 })
  | none => (none, Parser.error { p with chunk := r.2 } ("Too many constants in one chunk."))

/-- `emit_constant`; on overflow nothing further is emitted. -/
def Parser.emitConstant (p : Parser) (v : Value) : Parser :=
  let r := p.makeConstant v
  match r.1 with
  | some i => r.2.emitIns (.constant i)
  | none => r.2

/-- `identifier_constant`: intern the previous token's lexeme and add it to
the constant pool. -/
def Parser.identifierConstant (p : Parser) : Option Nat × Parser :=
  let r := p.strings.buildStringValue p.previous.lexeme
  Parser.makeConstant { p with strings := r.2 } r.1

/-- `declare_variable`: globals are not registered; at depth > 0 the name
becomes an (uninitialized) local. -/
def Parser.declareVariable (p : Parser) : Parser :=
  if p.compiler.scopeDepth = 0 then p
  else
    match p.compiler.addLocal p.previous with
    | .ok c => { p with compiler := c }
    | .error msg => p.error msg

/-- `parse_variable`: returns the global-name constant index, or `none`
for a local (or on constant overflow). -/
def Parser.parseVariable (p : Parser) (err : String) : Option (Option Nat × Parser) :=
  match p.consume .identifier err with
  | none => none
  | some p =>
    let p := p.declareVariable
    if p.compiler.scopeDepth > 0 then some (none, p)
    else some p.identifierConstant

/-- `define_variable`. -/
def Parser.defineVariable (p : Parser) (maybeGlobalIdx : Option Nat) : Option Parser :=
  if p.compiler.scopeDepth > 0 then
    match p.compiler.markInitialized with
    | none => none
    | some c => some { p with compiler := c }
  else
    some (p.emitIns (match maybeGlobalIdx with
      | some i => Op.defineGlobal i
      | none => Op.pop))

/-- `emit_ins(Op::Pop)` repeated for each local dropped at scope exit. -/
def emitPops : Nat → Parser → Parser
  | 0, p => p
  | n + 1, p => emitPops n (p.emitIns .pop)

inductive ParsePrecedence where
  | assignment | orP | andP | equality | comparison | term | factor | unary | call | primary
  deriving Repr, DecidableEq

/-- The derived `PartialOrd`/`Ord` compares by declaration order. -/
def ParsePrecedence.toNat : ParsePrecedence → Nat
  | .assignment => 0
  | .orP => 1
  | .andP => 2
  | .equality => 3
  | .comparison => 4
  | .term => 5
  | .factor => 6
  | .unary => 7
  | .call => 8
  | .primary => 9

def ParsePrecedence.next : ParsePrecedence → ParsePrecedence
  | .assignment => .orP
  | .orP => .andP
  | .andP => .equality
  | .equality => .comparison
  | .comparison => .term
  | .term => .factor
  | .factor => .unary
  | .unary => .call
  | .call => .primary
  | .primary => .primary

/-- The parse handlers named by the rule table. -/
inductive HandlerId where
  | grouping | unary | binary | number | stringLit | varRef | literal
  deriving Repr, DecidableEq

structure ParseRule where
  prefixFn : Option HandlerId
  infixFn : Option HandlerId
  prec : Option ParsePrecedence
  deriving Repr, DecidableEq

/-- `Parser::get_rule` as in src/src/compiler.rs (no rules for `and`, `or`,
`while`, `if` or `for` there). -/
def getRule : TokenKind → ParseRule
  | .leftParen => ⟨some .grouping, none, none⟩
  | .minus => ⟨some .unary, some .binary, some .term⟩
  | .plus => ⟨none, some .binary, some .term⟩
  | .slash => ⟨none, some .binary, some .factor⟩
  | .star => ⟨none, some .binary, some .factor⟩
  | .bang => ⟨some .unary, none, none⟩
  | .bangEqual => ⟨none, some .binary, some .equality⟩
  | .equalEqual => ⟨none, some .binary, some .equality⟩
  | .less => ⟨none, some .binary, some .comparison⟩
  | .greater => ⟨none, some .binary, some .comparison⟩
  | .lessEqual => ⟨none, some .binary, some .comparison⟩
  | .greaterEqual => ⟨none, some .binary, some .comparison⟩
  | .true' => ⟨some .literal, none, none⟩
  | .false' => ⟨some .literal, none, none⟩
  | .nil' => ⟨some .literal, none, none⟩
  | .number => ⟨some .number, none, none⟩
  | .string => ⟨some .stringLit, none, none⟩
  | .identifier => ⟨some .varRef, none, none⟩
  | _ => ⟨none, none, none⟩

/-- The opcode emitted by `binary` for each operator; `none` is the
"Unexpected token as binary operator" panic. -/
def binOpFor : TokenKind → Option Op
  | .plus => some .add
  | .minus => some .subtract
  | .star => some .multiply
  | .slash => some .divide
  | .less => some .less
  | .greaterEqual => some .less
  | .greater => some .greater
  | .lessEqual => some .greater
  | .equalEqual => some .equal
  | .bangEqual => some .equal
  | _ => none

def digitsVal (l : List Char) : Nat :=
  l.foldl (fun n c => n * 10 + (c.toNat - 48)) 0

/-- `lexeme.parse::<f64>()` applied to a scanner number lexeme
`[0-9]+(\.[0-9]+)?`, modelled exactly on rationals; `none` is the `expect`
panic on any other shape. -/
def parseNumber (s : String) : Option RNum :=
  let cs := s.toList
  let ip := cs.takeWhile isDigitC
  let rest := cs.dropWhile isDigitC
  if ip.isEmpty then none
  else
    match rest with
    | [] => some ⟨digitsVal ip, 1⟩
    | c :: fs =>
      if c = '.' ∧ !fs.isEmpty ∧ fs.all isDigitC then
        some ⟨digitsVal ip * 10 ^ fs.length + digitsVal fs, 10 ^ fs.length⟩
      else none

/-- The pair `(set_op, get_op)` chosen by `named_variable`, together with
the parser state after name resolution. -/
def Parser.namedVariableOps (p : Parser) : (Op × Op) × Parser :=
  match p.compiler.resolveLocal p.previous with
  | some (idx, initialized) =>
    let p :=
      if !initialized then p.error ("Can't read local variable in its own initializer.")
      else p
    ((Op.setLocal idx, Op.getLocal idx), p)
  | none =>
    let r := p.identifierConstant
    match r.1 with
    | some idx => ((Op.setGlobal idx, Op.getGlobal idx), r.2)
    | none => ((Op.pop, Op.nil'), r.2)

/-- Call tags for the mutually recursive parse functions; the recursion is
a single fuelled function so that concrete runs compute by `rfl`. -/
inductive PTag where
  | declaration
  | statement
  | block
  | variableDeclaration
  | printStatement
  | expressionStatement
  | expression
  | parsePrecedence (prec : ParsePrecedence)
  | infixLoop (prec : ParsePrecedence) (canAssign : Bool)
  | handler (h : HandlerId) (canAssign : Bool)
  deriving Repr, DecidableEq

/-- The parse functions of src/src/compiler.rs.  Every Rust call becomes a
call with one unit less fuel; exhausting fuel yields `none` (as do the
source's panics), never a wrong parse. -/
def parserGo : Nat → PTag → Parser → Option Parser
  | 0, _, _ => none
  | fuel + 1, tag, p =>
    match tag with
    | .declaration =>
      match p.matchT .var with
      | none => none
      | some (matched, p) =>
        match parserGo fuel (if matched then .variableDeclaration else .statement) p with
        | none => none
        | some p => if p.panicMode then p.synchronize else some p
    | .variableDeclaration =>
      match p.parseVariable ("Expect variable name.") with
      | none => none
      | some (variableConstant, p) =>
        match p.matchT .equal with
        | none => none
        | some (matched, p) =>
          match (if matched then parserGo fuel .expression p else some (p.emitIns .nil')) with
          | none => none
          | some p =>
            match p.consume .semicolon ("Expect ';' after assignment.") with
            | none => none
            | some p => p.defineVariable variableConstant
    | .statement =>
      match p.matchT .print with
      | none => none
      | some (true, p) => parserGo fuel .printStatement p
      | some (false, p) =>
        match p.matchT .leftBrace with
        | none => none
        | some (true, p) =>
          match parserGo fuel .block { p with compiler := p.compiler.beginScope } with
          | none => none
          | some p =>
            match p.compiler.endScope with
            | none => none
            | some (c, removed) => some (emitPops removed { p with compiler := c })
        | some (false, p) => parserGo fuel .expressionStatement p
    | .block =>
      if !(p.check .rightBrace) && !(p.check .eof) then
        match parserGo fuel .declaration p with
        | none => none
        | some p => parserGo fuel .block p
      else p.consume .rightBrace ("Expect '\x7d' after block.")
    | .printStatement =>
      match parserGo fuel .expression p with
      | none => none
      | some p =>
        match p.consume .semicolon ("Expect ';' after value.") with
        | none => none
        | some p => some (p.emitIns .print)
    | .expressionStatement =>
      match parserGo fuel .expression p with
      | none => none
      | some p =>
        match p.consume .semicolon ("Expect ';' after expression.") with
        | none => none
        | some p => some (p.emitIns .pop)
    | .expression => parserGo fuel (.parsePrecedence .assignment) p
    | .parsePrecedence prec =>
      match p.advance with
      | none => none
      | some p =>
        match (getRule p.previous.kind).prefixFn with
        | none => some (p.error ("Expect expression."))
        | some h =>
          let canAssign := prec.toNat ≤ ParsePrecedence.assignment.toNat
          match parserGo fuel (.handler h canAssign) p with
          | none => none
          | some p =>
            match parserGo fuel (.infixLoop prec canAssign) p with
            | none => none
            | some p =>
              if canAssign then
                match p.matchT .equal with
                | none => none
                | some (true, p) => some (p.error ("Invalid assignment target."))
                | some (false, p) => some p
              else some p
    | .infixLoop prec canAssign =>
      match (getRule p.current.kind).prec with
      | some rulePrec =>
        if prec.toNat ≤ rulePrec.toNat then
          match p.advance with
          | none => none
          | some p =>
            match (getRule p.previous.kind).infixFn with
            | none => none
            | some h =>
              match parserGo fuel (.handler h canAssign) p with
              | none => none
              | some p => parserGo fuel (.infixLoop prec canAssign) p
        else some p
      | none => some p
    | .handler .number _ =>
      match parseNumber p.previous.lexeme with
      | none => none
      | some v => some (p.emitConstant (Value.number v))
    | .handler .stringLit _ =>
      let raw := p.previous.lexeme.toList
      let inner := String.mk ((raw.drop 1).take (raw.length - 2))
      let r := p.strings.buildStringValue inner
      some (Parser.emitConstant { p with strings := r.2 } r.1)
    | .handler .grouping _ =>
      match parserGo fuel .expression p with
      | none => none
      | some p => p.consume .rightParen ("Expected ')' after expression.")
    | .handler .unary _ =>
      match p.previous.kind with
      | .minus =>
        match parserGo fuel (.parsePrecedence .unary) p with
        | none => none
        | some p => some (p.emitIns .negate)
      | .bang =>
        match parserGo fuel (.parsePrecedence .unary) p with
        | none => none
        | some p => some (p.emitIns .not)
      | _ => some (p.error ("Expected unary operator."))
    | .handler .binary _ =>
      let operator := p.previous.kind
      match (getRule operator).prec with
      | none => none
      | some rulePrec =>
        match parserGo fuel (.parsePrecedence rulePrec.next) p with
        | none => none
        | some p =>
          match binOpFor operator with
          | none => none
          | some op =>
            let p := p.emitIns op
            if operator = .greaterEqual || operator = .lessEqual || operator = .bangEqual then
              some (p.emitIns .not)
            else some p
    | .handler .literal _ =>
      match p.previous.kind with
      | .true' => some (p.emitIns .true')
      | .false' => some (p.emitIns .false')
      | .nil' => some (p.emitIns .nil')
      | _ => none
    | .handler .varRef canAssign =>
      let r := p.namedVariableOps
      match r with
      | ((setOp, getOp), p) =>
        if canAssign then
          match p.matchT .equal with
          | none => none
          | some (true, p) =>
            match parserGo fuel .expression p with
            | none => none
            | some p => some (p.emitIns setOp)
          | some (false, p) => some (p.emitIns getOp)
        else some (p.emitIns getOp)

/-- `Parser::new`: start from the stub token and immediately advance. -/
def Parser.mk' (sc : Scanner) (strings : StringInterns) : Option Parser :=
  Parser.advance
    { scanner := sc
      chunk := Chunk.new
      previous := stubToken
      current := stubToken
      hadError := false
      panicMode := false
      strings := strings
      compiler := Compiler.mk'
      errOut := "" }

/-- The `while !parser.match_t(Eof) { parser.declaration(); }` loop of
`compile`. -/
def compileGo (fuel pfuel : Nat) (p : Parser) : Option Parser :=
  match fuel with
  | 0 => none
  | fuel + 1 =>
    match p.matchT .eof with
    | none => none
    | some (true, p) => some p
    | some (false, p) =>
      match parserGo pfuel .declaration p with
      | none => none
      | some p => compileGo fuel pfuel p

/-- Fuel that is ample for the recursion depth of any actual parse (each
nesting level consumes at least one source character). -/
def compileFuel (src : String) : Nat := 8 * src.length + 64

/-- `compiler::compile`: parse all declarations, emit `Return`, and yield
the chunk unless an error was recorded.  Also returns the final interner
and accumulated stderr. -/
def compile (source : String) (strings : StringInterns) :
    Option (Option Chunk × StringInterns × String) :=
  match Parser.mk' (Scanner.mk' source) strings with
  | none => none
  | some p =>
    match compileGo (source.length + 2) (compileFuel source) p with
    | none => none
    | some p =>
      let p := p.emitIns .ret
      some (if p.hadError then none else some p.chunk, p.strings, p.errOut)

/-- `VM::new_and_run`: fresh interner and globals, compile, then run the
chunk from `ip = 0` on an empty stack.  The first component is the
`InterpretResult`. -/
def interpret (runFuel : Nat) (source : String) :
    Option (Except InterpretError Unit × VMState × OutState) :=
  match compile source StringInterns.new with
  | none => none
  | some (none, strings, eo) =>
    some (.error .compileError, ⟨0, ValueStack.new, strings, []⟩, ⟨"", eo⟩)
  | some (some chunk, strings, eo) =>
    vmRun runFuel chunk ⟨0, ValueStack.new, strings, []⟩ ⟨"", eo⟩

/-! ## Control-flow extension of the parser, modelled from the spec

The repository's VM (vm.rs) interprets `Jump`, `JumpIfFalse` and `Loop`,
and the repository's integration tests exercise `while` loops and
short-circuit `and`/`or`; the provided compiler.rs, however, contains no
parse rules or statement cases for them.  The definitions below model that
missing emitter code from spec §4.4 ("jump patching protocol" and
"control flow lowering"), on top of the faithful embedding above. -/

/-- Modelled from the spec: `emit_jump(op)` writes the op with placeholder
operand `0xFFFF` and returns the byte index just past the operand. -/
def Parser.emitJump (p : Parser) (op : Nat → Op) : Nat × Parser :=
  let p := p.emitIns (op 0xFFFF)
  (p.chunk.code.length, p)

/-- Modelled from the spec: `patch_jump(from)` computes
`offset = current_code_len - from`, fails on 16-bit overflow ("Too much
code to jump over."), and stores the offset big-endian into the two bytes
preceding `from`. -/
def Parser.patchJump (p : Parser) (fromIdx : Nat) : Parser :=
  let offset := p.chunk.code.length - fromIdx
  if offset > 65535 then p.error ("Too much code to jump over.")
  else
    { p with chunk := { p.chunk with
        code := (p.chunk.code.set (fromIdx - 2) (offset / 256 % 256)).set
          (fromIdx - 1) (offset % 256) } }

/-- Modelled from the spec: `emit_loop(target)` emits `Loop` with an
operand chosen so that the interpreter's `ip -= operand + 3` (vm.rs) lands
execution back on `target`; it fails on 16-bit overflow.  (Spec §4.2 and
§4.4 each describe a 3-byte adjustment; composing both literally would
overshoot the target by three bytes, so the operand here follows the Loop
semantics implemented in vm.rs.) -/
def Parser.emitLoop (p : Parser) (target : Nat) : Parser :=
  let offset := p.chunk.code.length - target
  if offset > 65535 then p.error ("Loop body too large.")
  else p.emitIns (.loop offset)

/-- Handlers of the extended rule table: the originals plus the
short-circuit `and`/`or` handlers. -/
inductive HandlerCF where
  | base (h : HandlerId)
  | andH
  | orH
  deriving Repr, DecidableEq

structure ParseRuleCF where
  prefixFn : Option HandlerCF
  infixFn : Option HandlerCF
  prec : Option ParsePrecedence
  deriving Repr, DecidableEq

/-- Modelled from the spec: the rule table extended with infix rules for
`and` (precedence And) and `or` (precedence Or); all other kinds keep
their rules from `getRule`. -/
def getRuleCF (k : TokenKind) : ParseRuleCF :=
  match k with
  | .and => ⟨none, some .andH, some .andP⟩
  | .or' => ⟨none, some .orH, some .orP⟩
  | _ =>
    let r := getRule k
    ⟨r.prefixFn.map .base, r.infixFn.map .base, r.prec⟩

inductive PTagCF where
  | declaration
  | statement
  | block
  | variableDeclaration
  | printStatement
  | expressionStatement
  | whileStatement
  | expression
  | parsePrecedence (prec : ParsePrecedence)
  | infixLoop (prec : ParsePrecedence) (canAssign : Bool)
  | handler (h : HandlerCF) (canAssign : Bool)
  deriving Repr, DecidableEq

/-- The parse functions with the spec-modelled `while` statement and
`and`/`or` expression rules added; all other cases are as in `parserGo`. -/
def parserGoCF : Nat → PTagCF → Parser → Option Parser
  | 0, _, _ => none
  | fuel + 1, tag, p =>
    match tag with
    | .declaration =>
      match p.matchT .var with
      | none => none
      | some (matched, p) =>
        match parserGoCF fuel (if matched then .variableDeclaration else .statement) p with
        | none => none
        | some p => if p.panicMode then p.synchronize else some p
    | .variableDeclaration =>
      match p.parseVariable ("Expect variable name.") with
      | none => none
      | some (variableConstant, p) =>
        match p.matchT .equal with
        | none => none
        | some (matched, p) =>
          match (if matched then parserGoCF fuel .expression p else some (p.emitIns .nil')) with
          | none => none
          | some p =>
            match p.consume .semicolon ("Expect ';' after assignment.") with
            | none => none
            | some p => p.defineVariable variableConstant
    | .statement =>
      match p.matchT .print with
      | none => none
      | some (true, p) => parserGoCF fuel .printStatement p
      | some (false, p) =>
        match p.matchT .while' with
        | none => none
        | some (true, p) => parserGoCF fuel .whileStatement p
        | some (false, p) =>
          match p.matchT .leftBrace with
          | none => none
          | some (true, p) =>
            match parserGoCF fuel .block { p with compiler := p.compiler.beginScope } with
            | none => none
            | some p =>
              match p.compiler.endScope with
              | none => none
              | some (c, removed) => some (emitPops removed { p with compiler := c })
          | some (false, p) => parserGoCF fuel .expressionStatement p
    | .block =>
      if !(p.check .rightBrace) && !(p.check .eof) then
        match parserGoCF fuel .declaration p with
        | none => none
        | some p => parserGoCF fuel .block p
      else p.consume .rightBrace ("Expect '\x7d' after block.")
    | .printStatement =>
      match parserGoCF fuel .expression p with
      | none => none
      | some p =>
        match p.consume .semicolon ("Expect ';' after value.") with
        | none => none
        | some p => some (p.emitIns .print)
    | .expressionStatement =>
      match parserGoCF fuel .expression p with
      | none => none
      | some p =>
        match p.consume .semicolon ("Expect ';' after expression.") with
        | none => none
        | some p => some (p.emitIns .pop)
    | .whileStatement =>
      -- Modelled from the spec: loop_start = pos; cond; JumpIfFalse exit;
      -- Pop; body; Loop back; patch exit; Pop.
      let loopStart := p.chunk.code.length
      match p.consume .leftParen ("Expect '(' after 'while'.") with
      | none => none
      | some p =>
        match parserGoCF fuel .expression p with
        | none => none
        | some p =>
          match p.consume .rightParen ("Expect ')' after condition.") with
          | none => none
          | some p =>
            let r := p.emitJump Op.jumpIfFalse
            let p := r.2.emitIns .pop
            match parserGoCF fuel .statement p with
            | none => none
            | some p =>
              let p := p.emitLoop loopStart
              let p := p.patchJump r.1
              some (p.emitIns .pop)
    | .expression => parserGoCF fuel (.parsePrecedence .assignment) p
    | .parsePrecedence prec =>
      match p.advance with
      | none => none
      | some p =>
        match (getRuleCF p.previous.kind).prefixFn with
        | none => some (p.error ("Expect expression."))
        | some h =>
          let canAssign := prec.toNat ≤ ParsePrecedence.assignment.toNat
          match parserGoCF fuel (.handler h canAssign) p with
          | none => none
          | some p =>
            match parserGoCF fuel (.infixLoop prec canAssign) p with
            | none => none
            | some p =>
              if canAssign then
                match p.matchT .equal with
                | none => none
                | some (true, p) => some (p.error ("Invalid assignment target."))
                | some (false, p) => some p
              else some p
    | .infixLoop prec canAssign =>
      match (getRuleCF p.current.kind).prec with
      | some rulePrec =>
        if prec.toNat ≤ rulePrec.toNat then
          match p.advance with
          | none => none
          | some p =>
            match (getRuleCF p.previous.kind).infixFn with
            | none => none
            | some h =>
              match parserGoCF fuel (.handler h canAssign) p with
              | none => none
              | some p => parserGoCF fuel (.infixLoop prec canAssign) p
        else some p
      | none => some p
    | .handler (.base .number) _ =>
      match parseNumber p.previous.lexeme with
      | none => none
      | some v => some (p.emitConstant (Value.number v))
    | .handler (.base .stringLit) _ =>
      let raw := p.previous.lexeme.toList
      let inner := String.mk ((raw.drop 1).take (raw.length - 2))
      let r := p.strings.buildStringValue inner
      some (Parser.emitConstant { p with strings := r.2 } r.1)
    | .handler (.base .grouping) _ =>
      match parserGoCF fuel .expression p with
      | none => none
      | some p => p.consume .rightParen ("Expected ')' after expression.")
    | .handler (.base .unary) _ =>
      match p.previous.kind with
      | .minus =>
        match parserGoCF fuel (.parsePrecedence .unary) p with
        | none => none
        | some p => some (p.emitIns .negate)
      | .bang =>
        match parserGoCF fuel (.parsePrecedence .unary) p with
        | none => none
        | some p => some (p.emitIns .not)
      | _ => some (p.error ("Expected unary operator."))
    | .handler (.base .binary) _ =>
      let operator := p.previous.kind
      match (getRuleCF operator).prec with
      | none => none
      | some rulePrec =>
        match parserGoCF fuel (.parsePrecedence rulePrec.next) p with
        | none => none
        | some p =>
          match binOpFor operator with
          | none => none
          | some op =>
            let p := p.emitIns op
            if operator = .greaterEqual || operator = .lessEqual || operator = .bangEqual then
              some (p.emitIns .not)
            else some p
    | .handler (.base .literal) _ =>
      match p.previous.kind with
      | .true' => some (p.emitIns .true')
      | .false' => some (p.emitIns .false')
      | .nil' => some (p.emitIns .nil')
      | _ => none
    | .handler (.base .varRef) canAssign =>
      let r := p.namedVariableOps
      match r with
      | ((setOp, getOp), p) =>
        if canAssign then
          match p.matchT .equal with
          | none => none
          | some (true, p) =>
            match parserGoCF fuel .expression p with
            | none => none
            | some p => some (p.emitIns setOp)
          | some (false, p) => some (p.emitIns getOp)
        else some (p.emitIns getOp)
    | .handler .andH _ =>
      -- Modelled from the spec: JumpIfFalse over the RHS, Pop, RHS at And
      -- precedence, patch.
      let r := p.emitJump Op.jumpIfFalse
      let p := r.2.emitIns .pop
      match parserGoCF fuel (.parsePrecedence .andP) p with
      | none => none
      | some p => some (p.patchJump r.1)
    | .handler .orH _ =>
      -- Modelled from the spec: JumpIfFalse to the RHS, Jump over it,
      -- patch the first, Pop, RHS at Or precedence, patch the second.
      let rElse := p.emitJump Op.jumpIfFalse
      let rEnd := rElse.2.emitJump Op.jump
      let p := rEnd.2.patchJump rElse.1
      let p := p.emitIns .pop
      match parserGoCF fuel (.parsePrecedence .orP) p with
      | none => none
      | some p => some (p.patchJump rEnd.1)

/-- The top-level compile loop over the extended parser. -/
def compileGoCF (fuel pfuel : Nat) (p : Parser) : Option Parser :=
  match fuel with
  | 0 => none
  | fuel + 1 =>
    match p.matchT .eof with
    | none => none
    | some (true, p) => some p
    | some (false, p) =>
      match parserGoCF pfuel .declaration p with
      | none => none
      | some p => compileGoCF fuel pfuel p

/-- `compile` over the extended parser. -/
def compileCF (source : String) (strings : StringInterns) :
    Option (Option Chunk × StringInterns × String) :=
  match Parser.mk' (Scanner.mk' source) strings with
  | none => none
  | some p =>
    match compileGoCF (source.length + 2) (compileFuel source) p with
    | none => none
    | some p =>
      let p := p.emitIns .ret
      some (if p.hadError then none else some p.chunk, p.strings, p.errOut)

/-- `VM::new_and_run` over the extended compiler. -/
def interpretCF (runFuel : Nat) (source : String) :
    Option (Except InterpretError Unit × VMState × OutState) :=
  match compileCF source StringInterns.new with
  | none => none
  | some (none, strings, eo) =>
    some (.error .compileError, ⟨0, ValueStack.new, strings, []⟩, ⟨"", eo⟩)
  | some (some chunk, strings, eo) =>
    vmRun runFuel chunk ⟨0, ValueStack.new, strings, []⟩ ⟨"", eo⟩

/-! ## Claim C6: `add_constant` and the 256-constant bound -/

/-- A chunk whose constant pool is exactly full. -/
def c6Chunk : Chunk := ⟨[], List.replicate 256 Value.nil, []⟩

/-- C6 (counterexample): on a full pool `add_constant` fails as claimed,
but the pool is **not** unchanged: the value was already pushed, so the
pool now holds 257 constants, contradicting "on failure the constant pool
is unchanged, so a chunk's constant pool never holds more than 256
constants". -/
theorem C6_counterexample :
    (c6Chunk.addConstant Value.nil).1 = none ∧
    (c6Chunk.addConstant Value.nil).2.constants.length = 257 := by
  constructor <;> rfl

/-- C6 (amended): `add_constant` always appends the value; it returns the
new index (as a `u8`) exactly when the pool previously held at most 255
constants, and fails otherwise — in which case the appended value stays,
so the pool can exceed 256 entries (only indices ≤ 255 are ever
returned). -/
theorem C6_addConstant (c : Chunk) (v : Value) :
    (c.addConstant v).2.constants = c.constants ++ [v] ∧
    (c.addConstant v).1 =
      (if c.constants.length ≤ 255 then some c.constants.length else none) ∧
    (c.addConstant v).2.code = c.code ∧ (c.addConstant v).2.lines = c.lines := by
  unfold Chunk.addConstant
  refine ⟨rfl, ?_, rfl, rfl⟩
  simp only [List.length_append, List.length_singleton, Nat.add_sub_cancel]

/-! ## Claim C8: the keyword dispatch panics on "f" and "t" -/

/-- C8 (code bug): scanning the one-letter identifier "f" panics instead
of producing an `Identifier` token: `identifier_type` reaches the slice
`&word[1..2]`, which indexes past the end of the one-byte lexeme.  The
same happens for "t"; other single letters scan fine (shown for "a" and
"i", which take the `match_rest` path). -/
theorem C8_scanTokenPanics :
    Scanner.scanToken (Scanner.mk' ("f")) = none ∧
    Scanner.scanToken (Scanner.mk' ("t")) = none ∧
    identifierType (String.toList "f") = none ∧
    identifierType (String.toList "t") = none ∧
    (Scanner.scanToken (Scanner.mk' ("a"))).map
      (fun r => Except.map Token.kind r.1) = some (.ok .identifier) ∧
    (Scanner.scanToken (Scanner.mk' ("i"))).map
      (fun r => Except.map Token.kind r.1) = some (.ok .identifier) := by
  refine ⟨rfl, rfl, rfl, rfl, rfl, rfl⟩

/-! ## Claim C2: `resolve_local` and slot numbering -/

def c2Tok (s : String) : Token := ⟨.identifier, s, 0⟩

/-- The compiler state after `begin_scope; add_local x; mark_initialized;
add_local y; mark_initialized` (as in the repository's own unit test). -/
def c2State : Compiler :=
  let c := Compiler.mk'.beginScope
  let c := match c.addLocal (c2Tok "x") with | .ok c => c | .error _ => c
  let c := (c.markInitialized).getD c
  let c := match c.addLocal (c2Tok "y") with | .ok c => c | .error _ => c
  (c.markInitialized).getD c

/-- C2 (counterexample): `x` was pushed at table position 0 (and is
initialized at depth 1), yet `resolve_local` returns slot 1 for it — the
walk index from the **top** of the table, not the position at which it was
pushed. -/
theorem C2_counterexample :
    Compiler.resolveLocal c2State (c2Tok "x") = some (1, true) ∧
    (c2State.locals.get? 0).bind id = some ⟨some 1, c2Tok "x"⟩ ∧
    (1 : Nat) ≠ 0 := by
  refine ⟨rfl, rfl, by decide⟩

theorem walkFrom_zero (locals : List (Option Local)) (l : Local)
    (hg : locals.get? 0 = some (some l)) :
    walkFrom locals none 0 = [l] := by
  have hg' : locals[0]? = some (some l) := by simpa using hg
  cases hd : l.depth <;> simp [walkFrom, hg', hd]

theorem walkFrom_succ (locals : List (Option Local)) (i : Nat) (l : Local)
    (hg : locals.get? (i + 1) = some (some l)) :
    walkFrom locals none (i + 1) = l :: walkFrom locals none i := by
  have hg' : locals[i + 1]? = some (some l) := by simpa using hg
  cases hd : l.depth <;> simp [walkFrom, hg', hd]

/-- On a fully occupied prefix, the unfiltered local walk lists slots `i`
down to `0`. -/
theorem walkFrom_none_spec (locals : List (Option Local)) (i : Nat)
    (hocc : ∀ j, j ≤ i → ((locals.get? j).bind id).isSome) :
    (walkFrom locals none i).length = i + 1 ∧
    ∀ k, k ≤ i → (walkFrom locals none i).get? k = (locals.get? (i - k)).bind id := by
  induction i with
  | zero =>
    have h0 := hocc 0 le_rfl
    cases hg : locals.get? 0 with
    | none => rw [hg] at h0; simp at h0
    | some o =>
      cases o with
      | none => rw [hg] at h0; simp at h0
      | some l =>
        have hg' : locals[0]? = some (some l) := by simpa using hg
        rw [walkFrom_zero locals l hg]
        refine ⟨rfl, ?_⟩
        intro k hk
        interval_cases k
        simp [hg']
  | succ i ih =>
    have h0 := hocc (i + 1) le_rfl
    cases hg : locals.get? (i + 1) with
    | none => rw [hg] at h0; simp at h0
    | some o =>
      cases o with
      | none => rw [hg] at h0; simp at h0
      | some l =>
        obtain ⟨hlen, hget⟩ := ih (fun j hj => hocc j (Nat.le_succ_of_le hj))
        have hg' : locals[i + 1]? = some (some l) := by simpa using hg
        rw [walkFrom_succ locals i l hg]
        refine ⟨by simp [hlen], ?_⟩
        intro k hk
        cases k with
        | zero => simp [hg']
        | succ k =>
          simp only [List.get?_cons_succ]
          rw [hget k (Nat.le_of_succ_le_succ hk)]
          have hik : i + 1 - (k + 1) = i - k := by omega
          rw [hik]

/-- Characterization of the `enumerate().find(..)` modelled by
`findWithIndex`. -/
theorem findWithIndex_spec (pred : Local → Bool) :
    ∀ (l : List Local) (off i : Nat) (x : Local),
      findWithIndex pred l off = some (i, x) →
      off ≤ i ∧ i - off < l.length ∧ l.get? (i - off) = some x ∧ pred x = true ∧
      ∀ k, k < i - off → ∀ y, l.get? k = some y → pred y = false := by
  intro l
  induction l with
  | nil => intro off i x h; simp [findWithIndex] at h
  | cons a rest ih =>
    intro off i x h
    by_cases hp : pred a
    · rw [findWithIndex, if_pos hp] at h
      obtain ⟨hi, hx⟩ := Prod.mk.injEq .. ▸ Option.some.injEq .. ▸ h
      subst hi; subst hx
      refine ⟨le_rfl, by simp, by simp, hp, ?_⟩
      intro k hk; omega
    · rw [findWithIndex, if_neg hp] at h
      obtain ⟨hoff, hlt, hget, hpx, hprev⟩ := ih (off + 1) i x h
      have hio : off < i := Nat.lt_of_succ_le hoff
      refine ⟨Nat.le_of_lt hio, ?_, ?_, hpx, ?_⟩
      · simp only [List.length_cons]; omega
      · have : i - off = (i - (off + 1)) + 1 := by omega
        rw [this, List.get?_cons_succ]; exact hget
      · intro k hk y hy
        cases k with
        | zero =>
          simp only [List.get?_cons_zero, Option.some.injEq] at hy
          subst hy; exact Bool.eq_false_iff.mpr hp
        | succ k =>
          have : i - off = (i - (off + 1)) + 1 := by omega
          rw [this] at hk
          simp only [List.get?_cons_succ] at hy
          exact hprev k (Nat.lt_of_succ_lt_succ hk) y hy

/-- C2 (amended): for any compiler state whose occupied prefix really is
occupied (as the source maintains), a successful `resolve_local` returns
the matched local's distance from the **top** of the local table — the
matched local sits at table index `local_count - 1 - slot`, so the most
recently declared local gets slot 0 — together with its initialized flag;
the match is the topmost local with that lexeme. -/
theorem C2_resolveLocal (c : Compiler) (name : Token)
    (hcount : c.localCount ≤ 256)
    (hocc : ∀ j, j < c.localCount → ((c.locals.get? j).bind id).isSome)
    (slot : Nat) (init : Bool)
    (h : c.resolveLocal name = some (slot, init)) :
    slot < c.localCount ∧
    ∃ l, (c.locals.get? (c.localCount - 1 - slot)).bind id = some l ∧
      l.name.lexeme = name.lexeme ∧ init = l.depth.isSome ∧
      ∀ j, c.localCount - 1 - slot < j → j < c.localCount →
        ∀ l', (c.locals.get? j).bind id = some l' → l'.name.lexeme ≠ name.lexeme := by
  unfold Compiler.resolveLocal Compiler.iterLocals at h
  cases hc : c.localCount with
  | zero =>
    rw [hc] at h
    simp [safeDecr, findWithIndex] at h
  | succ n =>
    rw [hc] at h
    have hsd : safeDecr (n + 1) = some n := by simp [safeDecr]
    rw [hsd] at h
    obtain ⟨⟨i, x⟩, hfind, hix⟩ := Option.map_eq_some'.mp h
    obtain ⟨hslot, hinit⟩ := Prod.mk.injEq .. ▸ hix
    obtain ⟨hwlen, hwget⟩ := walkFrom_none_spec c.locals n
      (fun j hj => hocc j (by omega))
    obtain ⟨-, hlt, hget, hpx, hprev⟩ := findWithIndex_spec _ _ 0 i x hfind
    rw [Nat.sub_zero] at hlt hget
    rw [hwlen] at hlt
    have hi256 : i < 256 := by omega
    have hslot' : slot = i := by rw [← hslot, Nat.mod_eq_of_lt hi256]
    subst hslot'
    refine ⟨by omega, x, ?_, ?_, hinit.symm, ?_⟩
    · rw [hwget slot (by omega)] at hget
      have : n + 1 - 1 - slot = n - slot := by omega
      rw [this]; exact hget.symm ▸ hget
    · exact of_decide_eq_true hpx
    · intro j hj1 hj2 l' hl'
      have hkj : n - j < slot := by omega
      have := hprev (n - j) (by omega) l'
      rw [hwget (n - j) (by omega)] at this
      have hjn : n - (n - j) = j := by omega
      rw [hjn] at this
      exact of_decide_eq_false (this hl')

/-- Witness for `C2_resolveLocal`, at the two-local state `c2State` and
the name `x` (which resolves to slot 1, table index 0). -/
theorem C2_resolveLocal_witness :
    1 < c2State.localCount ∧
    ∃ l, (c2State.locals.get? (c2State.localCount - 1 - 1)).bind id = some l ∧
      l.name.lexeme = (c2Tok "x").lexeme ∧ true = l.depth.isSome ∧
      ∀ j, c2State.localCount - 1 - 1 < j → j < c2State.localCount →
        ∀ l', (c2State.locals.get? j).bind id = some l' →
          l'.name.lexeme ≠ (c2Tok "x").lexeme :=
  C2_resolveLocal c2State (c2Tok "x") (by decide)
    (by
      intro j hj
      have h2 : c2State.localCount = 2 := rfl
      rw [h2] at hj
      interval_cases j <;> decide)
    1 true rfl

/-! ## Claim C1: `GetLocal` / `SetLocal` slot addressing -/

def emptyOut : OutState := ⟨"", ""⟩

/-- A stack holding 10 below 20 (bottom to top). -/
def c1Stack : ValueStack :=
  ⟨some (Value.number 10) :: some (Value.number 20) :: List.replicate 254 none, 2⟩

def c1Chunk : Chunk := ⟨[Opcode.getLocal.toByte, 0], [], [1, 1]⟩

def c1State : VMState := ⟨0, c1Stack, StringInterns.new, []⟩

/-- A stack holding 10, 20, 30 (bottom to top). -/
def c1StackB : ValueStack :=
  ⟨some (Value.number 10) :: some (Value.number 20) :: some (Value.number 30) ::
    List.replicate 253 none, 3⟩

def c1ChunkB : Chunk := ⟨[Opcode.setLocal.toByte, 0], [], [1, 1]⟩

def c1StateB : VMState := ⟨0, c1StackB, StringInterns.new, []⟩

/-- C1 (counterexample): with stack `[10, 20]` (bottom to top),
`GetLocal 0` pushes 20 — the value at index `stack_top - 1`, counting from
the **top** — not the value 10 at absolute bottom index 0 as claimed.
Likewise, with stack `[10, 20, 30]`, `SetLocal 0` overwrites index 1
(which held 20) with the top value 30, leaving the value at absolute
index 0 untouched. -/
theorem C1_counterexample :
    vmStep c1Chunk c1State emptyOut =
      some (.next ⟨2,
        ⟨some (Value.number 10) :: some (Value.number 20) :: some (Value.number 20) ::
          List.replicate 253 none, 3⟩,
        StringInterns.new, []⟩ emptyOut) ∧
    c1Stack.values.get? 0 = some (some (Value.number 10)) ∧
    Value.number 20 ≠ Value.number 10 ∧
    vmStep c1ChunkB c1StateB emptyOut =
      some (.next ⟨2,
        ⟨some (Value.number 10) :: some (Value.number 30) :: some (Value.number 30) ::
          List.replicate 253 none, 3⟩,
        StringInterns.new, []⟩ emptyOut) ∧
    (⟨some (Value.number 10) :: some (Value.number 30) :: some (Value.number 30) ::
        List.replicate 253 none, 3⟩ : ValueStack).values.get? 0 =
      some (some (Value.number 10)) := by
  refine ⟨rfl, rfl, by decide, rfl, rfl⟩

/-- C1 (amended): `GetLocal slot` pushes a copy of the value at stack
index `stack_top - slot - 1` — the slot operand counts down from the top
of the stack (`peek_at`), not up from the bottom.  `SetLocal slot`
overwrites the value at stack index `stack_top - slot - 2` (one deeper,
because the peeked top still sits on the stack) with the current top,
without popping it. -/
theorem C1_localSlots :
    (∀ (chunk : Chunk) (st : VMState) (os : OutState) (b : Nat) (v : Value),
      chunk.code.get? st.ip = some Opcode.getLocal.toByte →
      chunk.code.get? (st.ip + 1) = some b →
      b < st.values.stackTop →
      st.values.values.get? (st.values.stackTop - b - 1) = some (some v) →
      st.values.stackTop < st.values.values.length →
      vmStep chunk st os = some (.next { st with
        ip := st.ip + 1 + 1
        values := ⟨st.values.values.set st.values.stackTop (some v),
                   st.values.stackTop + 1⟩ } os)) ∧
    (∀ (chunk : Chunk) (st : VMState) (os : OutState) (b : Nat) (vtop w : Value),
      chunk.code.get? st.ip = some Opcode.setLocal.toByte →
      chunk.code.get? (st.ip + 1) = some b →
      st.values.peek = some vtop →
      b + 2 ≤ st.values.stackTop →
      st.values.values.get? (st.values.stackTop - b - 2) = some (some w) →
      vmStep chunk st os = some (.next { st with
        ip := st.ip + 1 + 1
        values := ⟨st.values.values.set (st.values.stackTop - b - 2) (some vtop),
                   st.values.stackTop⟩ } os)) := by
  constructor
  · intro chunk st os b v hcode hop hb hslot hlen
    have hcode' : chunk.code.get? st.ip = some 10 := hcode
    have hnb : ¬ st.values.stackTop ≤ b := by omega
    simp only [List.get?_eq_getElem?] at hcode' hop hslot
    simp [vmStep, VMState.readByte, hcode', hop, Opcode.tryFrom, ValueStack.peekAt,
      ValueStack.push, hnb, hslot, hlen]
  · intro chunk st os b vtop w hcode hop hpeek hb hslot
    have hcode' : chunk.code.get? st.ip = some 11 := hcode
    have hnb : ¬ st.values.stackTop ≤ b + 1 := by omega
    have hidx : st.values.stackTop - (b + 1) - 1 = st.values.stackTop - b - 2 := by omega
    simp only [List.get?_eq_getElem?] at hcode' hop hslot
    simp [vmStep, VMState.readByte, hcode', hop, Opcode.tryFrom, hpeek,
      ValueStack.setAt, hnb, hidx, hslot]

/-- Witness for `C1_localSlots`, at the concrete states of
`C1_counterexample`. -/
theorem C1_localSlots_witness :
    vmStep c1Chunk c1State emptyOut = some (.next { c1State with
      ip := 0 + 1 + 1
      values := ⟨c1State.values.values.set c1State.values.stackTop (some (Value.number 20)),
                 c1State.values.stackTop + 1⟩ } emptyOut) ∧
    vmStep c1ChunkB c1StateB emptyOut = some (.next { c1StateB with
      ip := 0 + 1 + 1
      values := ⟨c1StateB.values.values.set (c1StateB.values.stackTop - 0 - 2)
                   (some (Value.number 30)),
                 c1StateB.values.stackTop⟩ } emptyOut) :=
  ⟨C1_localSlots.1 c1Chunk c1State emptyOut 0 (Value.number 20) rfl rfl
      (by decide) rfl (by decide),
   C1_localSlots.2 c1ChunkB c1StateB emptyOut 0 (Value.number 30) (Value.number 20) rfl rfl
      rfl (by decide) rfl⟩

/-! ## Claim C5: `SetGlobal` and the insert-then-remove trick -/

theorem insertA_lookup_none (g : List (String × Value)) (k : String) (v : Value)
    (h : lookupA g k = none) :
    (insertA g k v).1 = none ∧ (insertA g k v).2 = g ++ [(k, v)] := by
  induction g with
  | nil => simp [insertA]
  | cons p rest ih =>
    obtain ⟨k', v'⟩ := p
    by_cases hk : k' = k
    · rw [lookupA, if_pos hk] at h; cases h
    · rw [lookupA, if_neg hk] at h
      obtain ⟨h1, h2⟩ := ih h
      simp [insertA, hk, h1, h2]

theorem removeA_append_single (g : List (String × Value)) (k : String) (v : Value)
    (h : lookupA g k = none) : removeA (g ++ [(k, v)]) k = g := by
  induction g with
  | nil => simp [removeA]
  | cons p rest ih =>
    obtain ⟨k', v'⟩ := p
    by_cases hk : k' = k
    · rw [lookupA, if_pos hk] at h; cases h
    · rw [lookupA, if_neg hk] at h
      have hrest : removeA (rest ++ [(k, v)]) k = rest := ih h
      show List.filter (fun p => decide (p.1 ≠ k)) (((k', v') :: rest) ++ [(k, v)])
          = (k', v') :: rest
      rw [List.cons_append, List.filter_cons]
      have hd : (decide (((k', v') : String × Value).1 ≠ k)) = true := by
        simp [hk]
      rw [hd]
      simp only [if_true]
      exact congrArg (List.cons (k', v')) hrest

theorem insertA_lookup_some (g : List (String × Value)) (k : String) (v w : Value)
    (h : lookupA g k = some w) :
    (insertA g k v).1 = some w ∧ lookupA (insertA g k v).2 k = some v := by
  induction g with
  | nil => simp [lookupA] at h
  | cons p rest ih =>
    obtain ⟨k', v'⟩ := p
    by_cases hk : k' = k
    · rw [lookupA, if_pos hk] at h
      cases h
      simp [insertA, lookupA, hk]
    · rw [lookupA, if_neg hk] at h
      obtain ⟨h1, h2⟩ := ih h
      simp [insertA, lookupA, hk, h1, h2]

/-- C5 (confirmed): executing `SetGlobal` for a name with no entry in the
globals map raises the runtime error, leaves the value on the stack
(nothing is popped — the whole VM state except `ip` is unchanged), and in
particular leaves the globals map exactly as it was, with no entry for the
name: the insert is undone by the remove.  For a present name, the stored
value is replaced by the stack top and execution continues, again without
popping. -/
theorem C5_setGlobal :
    (∀ (chunk : Chunk) (st : VMState) (os : OutState) (idx sid line : Nat)
      (name : String) (v : Value),
      chunk.code.get? st.ip = some Opcode.setGlobal.toByte →
      chunk.code.get? (st.ip + 1) = some idx →
      chunk.getConstant idx = some (Value.string sid name) →
      st.values.peek = some v →
      lookupA st.globals name = none →
      chunk.lines.get? (st.ip + 1 + 1) = some line →
      vmStep chunk st os = some (.done (.error .runtimeError)
        { st with ip := st.ip + 1 + 1 }
        { os with err := os.err ++ ("Undefined variable '" ++ name ++ "'.") ++
            "\n[line " ++ toString line ++ "] in script\n" })) ∧
    (∀ (chunk : Chunk) (st : VMState) (os : OutState) (idx sid : Nat)
      (name : String) (v w : Value),
      chunk.code.get? st.ip = some Opcode.setGlobal.toByte →
      chunk.code.get? (st.ip + 1) = some idx →
      chunk.getConstant idx = some (Value.string sid name) →
      st.values.peek = some v →
      lookupA st.globals name = some w →
      vmStep chunk st os = some (.next { st with
        ip := st.ip + 1 + 1
        globals := (insertA st.globals name v).2 } os) ∧
      lookupA (insertA st.globals name v).2 name = some v) := by
  constructor
  · intro chunk st os idx sid line name v hcode hop hconst hpeek habs hline
    have hcode' : chunk.code.get? st.ip = some 9 := hcode
    obtain ⟨h1, h2⟩ := insertA_lookup_none st.globals name v habs
    have hrem : removeA (insertA st.globals name v).2 name = st.globals := by
      rw [h2]; exact removeA_append_single st.globals name v habs
    simp only [List.get?_eq_getElem?] at hcode' hop hline
    simp [vmStep, VMState.readByte, hcode', hop, Opcode.tryFrom, hconst, hpeek,
      h1, hrem, runtimeErr, hline]
  · intro chunk st os idx sid name v w hcode hop hconst hpeek hpres
    have hcode' : chunk.code.get? st.ip = some 9 := hcode
    obtain ⟨h1, h2⟩ := insertA_lookup_some st.globals name v w hpres
    refine ⟨?_, h2⟩
    simp only [List.get?_eq_getElem?] at hcode' hop
    simp [vmStep, VMState.readByte, hcode', hop, Opcode.tryFrom, hconst, hpeek, h1]

def c5Chunk : Chunk := ⟨[Opcode.setGlobal.toByte, 0], [Value.string 0 "x"], [1, 1, 1]⟩

def c5Stack : ValueStack :=
  ⟨some (Value.number 5) :: List.replicate 255 none, 1⟩

def c5StateAbs : VMState := ⟨0, c5Stack, StringInterns.new, []⟩

def c5StatePres : VMState := ⟨0, c5Stack, StringInterns.new, [("x", Value.nil)]⟩

/-- Witness for `C5_setGlobal`: the absent case errors with the globals
still empty; the present case replaces the stored value with the top. -/
theorem C5_setGlobal_witness :
    vmStep c5Chunk c5StateAbs emptyOut = some (.done (.error .runtimeError)
      { c5StateAbs with ip := 0 + 1 + 1 }
      { emptyOut with err := emptyOut.err ++ ("Undefined variable '" ++ "x" ++ "'.") ++
          "\n[line " ++ toString 1 ++ "] in script\n" }) ∧
    (vmStep c5Chunk c5StatePres emptyOut = some (.next { c5StatePres with
        ip := 0 + 1 + 1
        globals := (insertA c5StatePres.globals "x" (Value.number 5)).2 } emptyOut) ∧
      lookupA (insertA c5StatePres.globals "x" (Value.number 5)).2 "x" =
        some (Value.number 5)) :=
  ⟨C5_setGlobal.1 c5Chunk c5StateAbs emptyOut 0 0 1 "x" (Value.number 5)
      rfl rfl rfl rfl rfl rfl,
   C5_setGlobal.2 c5Chunk c5StatePres emptyOut 0 0 "x" (Value.number 5) Value.nil
      rfl rfl rfl rfl rfl⟩

/-! ## Claim C10: redefining an existing global -/

/-- C10 (confirmed): `DefineGlobal` with a name already present simply
overwrites the stored value (a hash-map insert), pops the defined value
and raises no error; and the compiler performs no duplicate check for
globals — `declare_variable` returns without registering anything at scope
depth 0 — so `var a = 1; var a = 2; print a;` compiles, runs successfully
and prints `2`. -/
theorem C10_redefineGlobal :
    (∀ (chunk : Chunk) (st : VMState) (os : OutState) (idx sid : Nat)
      (name : String) (v vs w : _),
      chunk.code.get? st.ip = some Opcode.defineGlobal.toByte →
      chunk.code.get? (st.ip + 1) = some idx →
      chunk.getConstant idx = some (Value.string sid name) →
      st.values.pop = some (v, vs) →
      lookupA st.globals name = some w →
      vmStep chunk st os = some (.next { st with
        ip := st.ip + 1 + 1
        values := vs
        globals := (insertA st.globals name v).2 } os) ∧
      lookupA (insertA st.globals name v).2 name = some v) ∧
    (∀ p : Parser, p.compiler.scopeDepth = 0 → p.declareVariable = p) ∧
    (interpret 1000 "var a = 1; var a = 2; print a;").map
      (fun r => (r.1, r.2.2)) = some (.ok (), ⟨"2\n", ""⟩) := by
  refine ⟨?_, ?_, rfl⟩
  · intro chunk st os idx sid name v vs w hcode hop hconst hpop hpres
    have hcode' : chunk.code.get? st.ip = some 7 := hcode
    obtain ⟨-, h2⟩ := insertA_lookup_some st.globals name v w hpres
    refine ⟨?_, h2⟩
    simp only [List.get?_eq_getElem?] at hcode' hop
    simp [vmStep, VMState.readByte, hcode', hop, Opcode.tryFrom, hconst, hpop]
  · intro p hp
    simp [Parser.declareVariable, hp]

def c10Chunk : Chunk := ⟨[Opcode.defineGlobal.toByte, 0], [Value.string 0 "x"], [1, 1]⟩

def c10State : VMState := ⟨0, c5Stack, StringInterns.new, [("x", Value.nil)]⟩

/-- A freshly constructed parser state at scope depth 0. -/
def c10Parser : Parser :=
  ⟨Scanner.mk' (""), Chunk.new, stubToken, stubToken, false, false,
    StringInterns.new, Compiler.mk', ""⟩

/-- Witness for `C10_redefineGlobal`. -/
theorem C10_redefineGlobal_witness :
    (vmStep c10Chunk c10State emptyOut = some (.next { c10State with
        ip := 0 + 1 + 1
        values := ⟨List.replicate 256 none, 0⟩
        globals := (insertA c10State.globals "x" (Value.number 5)).2 } emptyOut) ∧
      lookupA (insertA c10State.globals "x" (Value.number 5)).2 "x" =
        some (Value.number 5)) ∧
    Parser.declareVariable c10Parser = c10Parser := by
  constructor
  · have h := C10_redefineGlobal.1 c10Chunk c10State emptyOut 0 0 "x"
      (Value.number 5) (⟨List.replicate 256 none, 0⟩ : ValueStack) Value.nil
      rfl rfl rfl ?hpop rfl
    · exact h
    case hpop =>
      show c5Stack.pop = some (Value.number 5, (⟨List.replicate 256 none, 0⟩ : ValueStack))
      rfl
  · exact C10_redefineGlobal.2.1 _ rfl

/-! ## Claim C3: the `while` program -/

def c3Src : String := "var i=0; while (i<3) { print i; i = i+1; }"

/-- C3 (confirmed against the spec-modelled `while` lowering; the rule is
missing from the provided compiler.rs but exercised by the repository's
tests and interpreted by vm.rs): the program prints `0`, `1`, `2` and
succeeds.  The compiled chunk is, decoded: `Constant 1; DefineGlobal 0;`
then the condition at offset 4 (`GetGlobal 2; Constant 3; Less`), a
`JumpIfFalse 15` over the body (bytes `3, 0, 15`), `Pop`, the body, and at
offset 24 a `Loop` (bytes `24, 0, 20`) jumping `20 + 3` bytes back to the
condition at offset 4, then `Pop; Return`. -/
theorem C3_whileProgram :
    (interpretCF 2000 c3Src).map (fun r => (r.1, r.2.2)) =
      some (.ok (), ⟨"0\n1\n2\n", ""⟩) ∧
    (compileCF c3Src StringInterns.new).map (fun r => r.1.map Chunk.code) =
      some (some [6, 1, 7, 0, 8, 2, 6, 3, 19, 3, 0, 15, 5, 8, 4, 4, 8, 6, 6, 7,
        20, 9, 5, 5, 24, 0, 20, 5, 1]) := by
  constructor <;> rfl

/-! ## Claim C4: short-circuit `and` / `or` -/

def c4Src : String := "print nil or \"one\"; print nil and \"x\"; print true and 3;"

/-- C4 (confirmed against the spec-modelled `and`/`or` rules; they are
missing from the provided compiler.rs but exercised by the repository's
tests): the program prints `one`, `nil`, `3` and succeeds.  In the
compiled chunk each `or` lowers to `JumpIfFalse 3` over a `Jump` to the
end plus a `Pop` before the right operand, and each `and` lowers to
`JumpIfFalse 3` over `Pop` plus the right operand, so the appropriate
operand is left on the stack for `Print`. -/
theorem C4_andOrProgram :
    (interpretCF 2000 c4Src).map (fun r => (r.1, r.2.2)) =
      some (.ok (), ⟨"one\nnil\n3\n", ""⟩) ∧
    (compileCF c4Src StringInterns.new).map (fun r => r.1.map Chunk.code) =
      some (some [12, 3, 0, 3, 2, 0, 3, 5, 6, 0, 4, 12, 3, 0, 3, 5, 6, 1, 4, 13,
        3, 0, 3, 5, 6, 2, 4, 1]) := by
  constructor <;> rfl

/-! ## Claim C7: interning, reference identity and liveness
(src/src/value/string_intern.rs)

A trace model of `Rc`/`Weak` liveness: `texts` records the contents of
every allocation ever made, `live` the allocations that still carry at
least one strong reference (`Weak::upgrade` succeeds exactly on those),
and `map` is the weak-reference table.  Strong references being dropped
and `clean()` sweeps may happen at any time between interner calls, so
they are modelled as interleavable steps. -/

/-- `HashMap::insert` for the weak table (value type `Nat` = allocation
id); an existing key is replaced in place, a new key appended. -/
def insertW (m : List (String × Nat)) (k : String) (v : Nat) : List (String × Nat) :=
  match m with
  | [] => [(k, v)]
  | (k', v') :: rest => if k' = k then (k, v) :: rest else (k', v') :: insertW rest k v

/-- Lookup of an allocation's recorded text. -/
def lookupN (m : List (Nat × String)) (k : Nat) : Option String :=
  match m with
  | [] => none
  | (k', v) :: rest => if k' = k then some v else lookupN rest k

structure InternHeap where
  map : List (String × Nat)
  texts : List (Nat × String)
  live : List Nat
  nextId : Nat
  deriving Repr, DecidableEq

def InternHeap.empty : InternHeap := ⟨[], [], [], 0⟩

/-- Allocate a fresh shared string for `s` and store its weak reference
(the `unwrap_or_else` branch of `get_or_intern`); the returned strong
reference makes it live. -/
def InternHeap.alloc (h : InternHeap) (s : String) : Nat × InternHeap :=
  (h.nextId,
    ⟨insertW h.map s h.nextId, (h.nextId, s) :: h.texts, h.nextId :: h.live, h.nextId + 1⟩)

/-- `get_or_intern`: return the existing shared string if its weak
reference still upgrades, else allocate. -/
def InternHeap.getOrIntern (h : InternHeap) (s : String) : Nat × InternHeap :=
  match lookupA h.map s with
  | some id => if h.live.contains id then (id, h) else h.alloc s
  | none => h.alloc s

/-- Events between interner calls: another `get_or_intern`, the last
strong reference to some string being dropped, or a `clean()` sweep
(retaining exactly the entries whose weak reference upgrades). -/
inductive InternStep : InternHeap → InternHeap → Prop where
  | intern (s : String) (h : InternHeap) : InternStep h (h.getOrIntern s).2
  | drop (id : Nat) (h : InternHeap) : InternStep h { h with live := h.live.erase id }
  | clean (h : InternHeap) :
      InternStep h { h with map := h.map.filter (fun p => h.live.contains p.2) }

def InternReaches : InternHeap → InternHeap → Prop :=
  Relation.ReflTransGen InternStep

theorem lookupA_mem {α : Type} (m : List (String × α)) (k : String) (v : α)
    (h : lookupA m k = some v) : (k, v) ∈ m := by
  induction m with
  | nil => simp [lookupA] at h
  | cons p rest ih =>
    obtain ⟨k', v'⟩ := p
    by_cases hk : k' = k
    · rw [lookupA, if_pos hk] at h
      cases h
      subst hk
      exact List.mem_cons_self _ _
    · rw [lookupA, if_neg hk] at h
      exact List.mem_cons_of_mem _ (ih h)

theorem containsToMem {l : List Nat} {a : Nat} (h : l.contains a = true) : a ∈ l := by
  simpa using h

theorem memToContains {l : List Nat} {a : Nat} (h : a ∈ l) : l.contains a = true := by
  simpa using h

theorem lookupA_nil {α : Type} (k : String) : lookupA ([] : List (String × α)) k = none := rfl

theorem lookupA_cons {α : Type} (k' : String) (v : α) (rest : List (String × α)) (k : String) :
    lookupA ((k', v) :: rest) k = if k' = k then some v else lookupA rest k := rfl

theorem lookupN_cons (n : Nat) (s : String) (rest : List (Nat × String)) (k : Nat) :
    lookupN ((n, s) :: rest) k = if n = k then some s else lookupN rest k := rfl

theorem lookupN_nil (k : Nat) : lookupN [] k = none := rfl

theorem lookupA_insertW_self (m : List (String × Nat)) (k : String) (v : Nat) :
    lookupA (insertW m k v) k = some v := by
  induction m with
  | nil =>
    show lookupA [(k, v)] k = some v
    rw [lookupA_cons, if_pos rfl]
  | cons p rest ih =>
    obtain ⟨k', v'⟩ := p
    by_cases hk : k' = k
    · rw [insertW, if_pos hk]
      show lookupA ((k, v) :: rest) k = some v
      rw [lookupA_cons, if_pos rfl]
    · rw [insertW, if_neg hk]
      show lookupA ((k', v') :: insertW rest k v) k = some v
      rw [lookupA_cons, if_neg hk]
      exact ih

theorem lookupA_insertW_ne (m : List (String × Nat)) (k : String) (v : Nat)
    (k' : String) (h : k' ≠ k) :
    lookupA (insertW m k v) k' = lookupA m k' := by
  induction m with
  | nil =>
    show lookupA [(k, v)] k' = lookupA [] k'
    rw [lookupA_cons, if_neg (Ne.symm h), lookupA_nil]
  | cons p rest ih =>
    obtain ⟨k0, v0⟩ := p
    by_cases hk : k0 = k
    · rw [insertW, if_pos hk]
      show lookupA ((k, v) :: rest) k' = lookupA ((k0, v0) :: rest) k'
      rw [lookupA_cons, if_neg (Ne.symm h), lookupA_cons,
        if_neg (by rw [hk]; exact Ne.symm h)]
    · rw [insertW, if_neg hk]
      show lookupA ((k0, v0) :: insertW rest k v) k' = lookupA ((k0, v0) :: rest) k'
      rw [lookupA_cons, lookupA_cons]
      by_cases hk0 : k0 = k'
      · rw [if_pos hk0, if_pos hk0]
      · rw [if_neg hk0, if_neg hk0]
        exact ih

theorem mem_insertW (m : List (String × Nat)) (k : String) (v : Nat)
    (p : String × Nat) (h : p ∈ insertW m k v) : p = (k, v) ∨ p ∈ m := by
  induction m with
  | nil => simp [insertW] at h; simp [h]
  | cons q rest ih =>
    obtain ⟨k', v'⟩ := q
    by_cases hk : k' = k
    · rw [insertW, if_pos hk] at h
      rcases List.mem_cons.mp h with h | h
      · exact Or.inl h
      · exact Or.inr (List.mem_cons_of_mem _ h)
    · rw [insertW, if_neg hk] at h
      rcases List.mem_cons.mp h with h | h
      · exact Or.inr (h ▸ List.mem_cons_self _ _)
      · rcases ih h with h | h
        · exact Or.inl h
        · exact Or.inr (List.mem_cons_of_mem _ h)

theorem lookupA_filter_keep (m : List (String × Nat)) (pred : String × Nat → Bool)
    (k : String) (v : Nat) (h : lookupA m k = some v) (hp : pred (k, v) = true) :
    lookupA (m.filter pred) k = some v := by
  induction m with
  | nil => simp [lookupA] at h
  | cons p rest ih =>
    obtain ⟨k', v'⟩ := p
    by_cases hk : k' = k
    · rw [lookupA, if_pos hk] at h
      cases h
      subst hk
      rw [List.filter_cons, if_pos hp, lookupA, if_pos rfl]
    · rw [lookupA, if_neg hk] at h
      rw [List.filter_cons]
      by_cases hpp : pred (k', v') = true
      · rw [if_pos hpp, lookupA, if_neg hk]
        exact ih h
      · rw [if_neg hpp]
        exact ih h

/-- The state invariant of the interner heap. -/
structure InternInv (h : InternHeap) : Prop where
  mapText : ∀ p, p ∈ h.map → lookupN h.texts p.2 = some p.1
  liveMap : ∀ id, id ∈ h.live →
    ∃ s, lookupN h.texts id = some s ∧ lookupA h.map s = some id
  mapFresh : ∀ p, p ∈ h.map → p.2 < h.nextId
  liveFresh : ∀ id, id ∈ h.live → id < h.nextId
  textsFresh : ∀ q, q ∈ h.texts → q.1 < h.nextId

theorem internInv_empty : InternInv InternHeap.empty := by
  constructor <;> intro p hp <;> simp [InternHeap.empty] at hp

theorem lookupN_cons_ne (texts : List (Nat × String)) (n id : Nat) (s : String)
    (h : id ≠ n) : lookupN ((n, s) :: texts) id = lookupN texts id := by
  rw [lookupN, if_neg (fun hn => h hn.symm)]

theorem internInv_alloc (h : InternHeap) (s : String)
    (inv : InternInv h)
    (hnotlive : ∀ id, lookupA h.map s = some id → id ∉ h.live) :
    InternInv (h.alloc s).2 := by
  refine ⟨?_, ?_, ?_, ?_, ?_⟩
  · intro p hp
    replace hp : p ∈ insertW h.map s h.nextId := hp
    show lookupN ((h.nextId, s) :: h.texts) p.2 = some p.1
    rcases mem_insertW h.map s h.nextId p hp with hp | hp
    · subst hp
      rw [lookupN, if_pos rfl]
    · have hne : p.2 ≠ h.nextId := Nat.ne_of_lt (inv.mapFresh p hp)
      rw [lookupN_cons_ne _ _ _ _ hne]
      exact inv.mapText p hp
  · intro id hid
    replace hid : id ∈ h.nextId :: h.live := hid
    show ∃ t, lookupN ((h.nextId, s) :: h.texts) id = some t ∧
      lookupA (insertW h.map s h.nextId) t = some id
    rcases List.mem_cons.mp hid with hid | hid
    · subst hid
      exact ⟨s, by rw [lookupN, if_pos rfl], lookupA_insertW_self h.map s h.nextId⟩
    · obtain ⟨s', ht, hm⟩ := inv.liveMap id hid
      have hne : id ≠ h.nextId := Nat.ne_of_lt (inv.liveFresh id hid)
      have hss : s' ≠ s := fun hss => hnotlive id (hss ▸ hm) hid
      exact ⟨s', by rw [lookupN_cons_ne _ _ _ _ hne]; exact ht,
        by rw [lookupA_insertW_ne h.map s h.nextId s' hss]; exact hm⟩
  · intro p hp
    replace hp : p ∈ insertW h.map s h.nextId := hp
    show p.2 < h.nextId + 1
    rcases mem_insertW h.map s h.nextId p hp with hp | hp
    · subst hp; exact Nat.lt_succ_self _
    · exact Nat.lt_succ_of_lt (inv.mapFresh p hp)
  · intro id hid
    replace hid : id ∈ h.nextId :: h.live := hid
    show id < h.nextId + 1
    rcases List.mem_cons.mp hid with hid | hid
    · subst hid; exact Nat.lt_succ_self _
    · exact Nat.lt_succ_of_lt (inv.liveFresh id hid)
  · intro q hq
    replace hq : q ∈ (h.nextId, s) :: h.texts := hq
    show q.1 < h.nextId + 1
    rcases List.mem_cons.mp hq with hq | hq
    · subst hq; exact Nat.lt_succ_self _
    · exact Nat.lt_succ_of_lt (inv.textsFresh q hq)

/-- Reduction lemmas for the three branches of `get_or_intern`. -/
theorem getOrIntern_found (h : InternHeap) (s : String) (id : Nat)
    (hm : lookupA h.map s = some id) (hl : h.live.contains id = true) :
    h.getOrIntern s = (id, h) := by
  unfold InternHeap.getOrIntern
  rw [hm]
  show (if h.live.contains id = true then (id, h) else h.alloc s) = (id, h)
  rw [if_pos hl]

theorem getOrIntern_dead (h : InternHeap) (s : String) (id : Nat)
    (hm : lookupA h.map s = some id) (hl : ¬ h.live.contains id = true) :
    h.getOrIntern s = h.alloc s := by
  unfold InternHeap.getOrIntern
  rw [hm]
  show (if h.live.contains id = true then (id, h) else h.alloc s) = h.alloc s
  rw [if_neg hl]

theorem getOrIntern_absent (h : InternHeap) (s : String)
    (hm : lookupA h.map s = none) : h.getOrIntern s = h.alloc s := by
  unfold InternHeap.getOrIntern
  rw [hm]

theorem internInv_getOrIntern (h : InternHeap) (s : String) (inv : InternInv h) :
    InternInv (h.getOrIntern s).2 := by
  cases hl : lookupA h.map s with
  | none =>
    rw [getOrIntern_absent h s hl]
    exact internInv_alloc h s inv (fun id hid => by rw [hl] at hid; cases hid)
  | some id =>
    by_cases hlive : h.live.contains id = true
    · rw [getOrIntern_found h s id hl hlive]
      exact inv
    · rw [getOrIntern_dead h s id hl hlive]
      refine internInv_alloc h s inv ?_
      intro id' hid' hmem
      rw [hl] at hid'
      cases hid'
      exact hlive (memToContains hmem)

theorem internInv_step (h h' : InternHeap) (st : InternStep h h')
    (inv : InternInv h) : InternInv h' := by
  cases st with
  | intern s h => exact internInv_getOrIntern h s inv
  | drop id h =>
    constructor
    · exact inv.mapText
    · intro i hi
      exact inv.liveMap i (List.mem_of_mem_erase hi)
    · exact inv.mapFresh
    · intro i hi
      exact inv.liveFresh i (List.mem_of_mem_erase hi)
    · exact inv.textsFresh
  | clean h =>
    constructor
    · intro p hp
      exact inv.mapText p (List.mem_of_mem_filter hp)
    · intro id hid
      obtain ⟨s, ht, hm⟩ := inv.liveMap id hid
      refine ⟨s, ht, ?_⟩
      exact lookupA_filter_keep h.map _ s id hm (memToContains hid)
    · intro p hp
      exact inv.mapFresh p (List.mem_of_mem_filter hp)
    · exact inv.liveFresh
    · exact inv.textsFresh

/-- Along any trace, the invariant holds and the text recorded for an
existing allocation is stable. -/
theorem internInv_reaches (h h' : InternHeap) (hr : InternReaches h h')
    (inv : InternInv h) : InternInv h' := by
  induction hr with
  | refl => exact inv
  | tail _ st ih => exact internInv_step _ _ st ih

theorem lookupN_fresh (texts : List (Nat × String)) (bound : Nat)
    (hf : ∀ q, q ∈ texts → q.1 < bound) (id : Nat) (s : String)
    (ht : lookupN texts id = some s) : id < bound := by
  induction texts with
  | nil => rw [lookupN_nil] at ht; cases ht
  | cons q rest ih =>
    obtain ⟨n, t⟩ := q
    rw [lookupN_cons] at ht
    by_cases hn : n = id
    · subst hn
      exact hf (n, t) (List.mem_cons_self _ _)
    · rw [if_neg hn] at ht
      exact ih (fun q hq => hf q (List.mem_cons_of_mem _ hq)) ht

theorem texts_stable_step (h h' : InternHeap) (st : InternStep h h')
    (inv : InternInv h) (id : Nat) (s : String)
    (ht : lookupN h.texts id = some s) : lookupN h'.texts id = some s := by
  cases st with
  | intern s' h =>
    have hlt : id < h.nextId := lookupN_fresh h.texts h.nextId inv.textsFresh id s ht
    cases hl : lookupA h.map s' with
    | none =>
      rw [getOrIntern_absent h s' hl]
      show lookupN ((h.nextId, s') :: h.texts) id = some s
      rw [lookupN_cons_ne _ _ _ _ (Nat.ne_of_lt hlt)]
      exact ht
    | some i =>
      by_cases hlive : h.live.contains i = true
      · rw [getOrIntern_found h s' i hl hlive]
        exact ht
      · rw [getOrIntern_dead h s' i hl hlive]
        show lookupN ((h.nextId, s') :: h.texts) id = some s
        rw [lookupN_cons_ne _ _ _ _ (Nat.ne_of_lt hlt)]
        exact ht
  | drop i h => exact ht
  | clean h => exact ht

theorem texts_stable_reaches (h h' : InternHeap) (hr : InternReaches h h')
    (inv : InternInv h) (id : Nat) (s : String)
    (ht : lookupN h.texts id = some s) : lookupN h'.texts id = some s := by
  induction hr with
  | refl => exact ht
  | tail hr' st ih =>
    exact texts_stable_step _ _ st (internInv_reaches _ _ hr' inv) id s ih

/-- After a `get_or_intern` call, the returned allocation is live, its
text is recorded, and the weak table maps the text to it. -/
theorem getOrIntern_post (h : InternHeap) (s : String) (inv : InternInv h) :
    (h.getOrIntern s).1 ∈ (h.getOrIntern s).2.live ∧
    lookupN (h.getOrIntern s).2.texts (h.getOrIntern s).1 = some s := by
  cases hl : lookupA h.map s with
  | none =>
    rw [getOrIntern_absent h s hl]
    refine ⟨List.mem_cons_self _ _, ?_⟩
    show lookupN ((h.nextId, s) :: h.texts) h.nextId = some s
    rw [lookupN_cons, if_pos rfl]
  | some id =>
    by_cases hlive : h.live.contains id = true
    · rw [getOrIntern_found h s id hl hlive]
      exact ⟨containsToMem hlive, inv.mapText (s, id) (lookupA_mem h.map s id hl)⟩
    · rw [getOrIntern_dead h s id hl hlive]
      refine ⟨List.mem_cons_self _ _, ?_⟩
      show lookupN ((h.nextId, s) :: h.texts) h.nextId = some s
      rw [lookupN_cons, if_pos rfl]

/-- C7 (confirmed): (1) if a `get_or_intern` call returns shared string
`r1` and, after any interleaving of further interner calls, reference
drops and `clean()` sweeps, `r1` is still alive when `get_or_intern` is
called again with the same text, then the second call returns the
reference-identical `r1`, and the two `Value::String`s built from the two
results compare equal under `Value` equality (`Rc::ptr_eq`); (2) in any
reachable heap, at most one live shared string exists for a given text. -/
theorem C7_internIdentity :
    (∀ h : InternHeap, InternReaches InternHeap.empty h →
      ∀ s : String, ∀ h2 : InternHeap,
        InternReaches (h.getOrIntern s).2 h2 →
        (h.getOrIntern s).1 ∈ h2.live →
        (h2.getOrIntern s).1 = (h.getOrIntern s).1 ∧
        Value.beq (Value.string (h2.getOrIntern s).1 s)
          (Value.string (h.getOrIntern s).1 s) = true) ∧
    (∀ h : InternHeap, InternReaches InternHeap.empty h →
      ∀ id1 id2 : Nat, ∀ s : String, id1 ∈ h.live → id2 ∈ h.live →
        lookupN h.texts id1 = some s → lookupN h.texts id2 = some s →
        id1 = id2) := by
  have uniq : ∀ h : InternHeap, InternInv h →
      ∀ id1 id2 : Nat, ∀ s : String, id1 ∈ h.live → id2 ∈ h.live →
        lookupN h.texts id1 = some s → lookupN h.texts id2 = some s → id1 = id2 := by
    intro h inv id1 id2 s h1 h2 ht1 ht2
    obtain ⟨s1, hs1, hm1⟩ := inv.liveMap id1 h1
    obtain ⟨s2, hs2, hm2⟩ := inv.liveMap id2 h2
    rw [ht1] at hs1
    rw [ht2] at hs2
    cases hs1
    cases hs2
    rw [hm1] at hm2
    cases hm2
    rfl
  constructor
  · intro h hreach s h2 hreach2 hlive2
    have inv : InternInv h := internInv_reaches _ _ hreach internInv_empty
    have inv1 : InternInv (h.getOrIntern s).2 :=
      internInv_getOrIntern h s inv
    obtain ⟨hlive1, htext1⟩ := getOrIntern_post h s inv
    have inv2 : InternInv h2 := internInv_reaches _ _ hreach2 inv1
    have htext2 : lookupN h2.texts (h.getOrIntern s).1 = some s :=
      texts_stable_reaches _ _ hreach2 inv1 _ s htext1
    obtain ⟨s', hs', hm'⟩ := inv2.liveMap _ hlive2
    rw [htext2] at hs'
    cases hs'
    have heq : (h2.getOrIntern s).1 = (h.getOrIntern s).1 := by
      rw [getOrIntern_found h2 s _ hm' (memToContains hlive2)]
    refine ⟨heq, ?_⟩
    simp [Value.beq, heq]
  · intro h hreach
    exact uniq h (internInv_reaches _ _ hreach internInv_empty)

/-- Witness for `C7_internIdentity`: interning "foo" twice in a row from
the empty heap returns allocation 0 both times, and the uniqueness part
instantiated at that heap. -/
theorem C7_internIdentity_witness :
    ((InternHeap.empty.getOrIntern "foo").2.getOrIntern "foo").1 =
      (InternHeap.empty.getOrIntern "foo").1 ∧
    Value.beq
      (Value.string ((InternHeap.empty.getOrIntern "foo").2.getOrIntern "foo").1 "foo")
      (Value.string (InternHeap.empty.getOrIntern "foo").1 "foo") = true ∧
    (0 : Nat) = 0 :=
  have h1 := (C7_internIdentity.1 InternHeap.empty Relation.ReflTransGen.refl "foo"
    (InternHeap.empty.getOrIntern "foo").2 Relation.ReflTransGen.refl (by decide))
  have h2 := (C7_internIdentity.2 (InternHeap.empty.getOrIntern "foo").2
    (Relation.ReflTransGen.single (InternStep.intern "foo" InternHeap.empty))
    0 0 "foo" (by decide) (by decide) (by decide) (by decide))
  ⟨h1.1, h1.2, h2⟩

/-! ## Claim C9: successful runs of successfully compiled chunks end with
an empty value stack

Strategy: the parser of src/src/compiler.rs emits only straight-line
instructions (no jumps, and `Return` only once at the very end of
`compile`), each instruction has a fixed stack effect on success, and an
error-free parse emits code whose total effect balances the locals held on
the stack, which at top level is zero. -/

/-- The byte encoding `Chunk::write` produces for one instruction. -/
def encodeOp : Op → List Nat
  | .ret => [1]
  | .jump v => [2, v / 256 % 256, v % 256]
  | .jumpIfFalse v => [3, v / 256 % 256, v % 256]
  | .loop v => [24, v / 256 % 256, v % 256]
  | .print => [4]
  | .pop => [5]
  | .constant i => [6, i % 256]
  | .defineGlobal i => [7, i % 256]
  | .getGlobal i => [8, i % 256]
  | .setGlobal i => [9, i % 256]
  | .getLocal i => [10, i % 256]
  | .setLocal i => [11, i % 256]
  | .nil' => [12]
  | .true' => [13]
  | .false' => [14]
  | .not => [15]
  | .negate => [16]
  | .equal => [17]
  | .greater => [18]
  | .less => [19]
  | .add => [20]
  | .subtract => [21]
  | .multiply => [22]
  | .divide => [23]

def encodeOps : List Op → List Nat
  | [] => []
  | op :: rest => encodeOp op ++ encodeOps rest

/-- Net change of `stack_top` made by one successfully executed
instruction. -/
def opEffect : Op → Int
  | .ret => 0
  | .jump _ => 0
  | .jumpIfFalse _ => 0
  | .loop _ => 0
  | .print => -1
  | .pop => -1
  | .constant _ => 1
  | .defineGlobal _ => -1
  | .getGlobal _ => 1
  | .setGlobal _ => 0
  | .getLocal _ => 1
  | .setLocal _ => 0
  | .nil' => 1
  | .true' => 1
  | .false' => 1
  | .not => 0
  | .negate => 0
  | .equal => -1
  | .greater => -1
  | .less => -1
  | .add => -1
  | .subtract => -1
  | .multiply => -1
  | .divide => -1

def sumEffects : List Op → Int
  | [] => 0
  | op :: rest => opEffect op + sumEffects rest

/-- Instructions the statement compiler emits into the middle of a chunk:
everything except `Return` and the jump family. -/
def isStraight : Op → Bool
  | .ret => false
  | .jump _ => false
  | .jumpIfFalse _ => false
  | .loop _ => false
  | _ => true

def allStraight (l : List Op) : Bool := l.all isStraight

theorem write_code_eq (c : Chunk) (op : Op) (line : Nat) :
    (c.write op line).code = c.code ++ encodeOp op ∧
    (c.write op line).constants = c.constants := by
  cases op <;>
    simp [Chunk.write, Chunk.writeCode, Chunk.writeU16, encodeOp, Opcode.toByte]

theorem encodeOps_append (l1 l2 : List Op) :
    encodeOps (l1 ++ l2) = encodeOps l1 ++ encodeOps l2 := by
  induction l1 with
  | nil => rfl
  | cons op rest ih => simp [encodeOps, ih]

theorem sumEffects_append (l1 l2 : List Op) :
    sumEffects (l1 ++ l2) = sumEffects l1 + sumEffects l2 := by
  induction l1 with
  | nil => simp [sumEffects]
  | cons op rest ih => simp [sumEffects, ih]; ring

theorem allStraight_append (l1 l2 : List Op) :
    allStraight (l1 ++ l2) = (allStraight l1 && allStraight l2) := by
  simp [allStraight]

/-- Stack-shape facts about the primitive stack operations. -/
theorem push_stackTop (s : ValueStack) (v : Value) (vs : ValueStack)
    (h : s.push v = some vs) : vs.stackTop = s.stackTop + 1 := by
  unfold ValueStack.push at h
  split at h
  · cases h; rfl
  · cases h

theorem pop_stackTop (s : ValueStack) (v : Value) (vs : ValueStack)
    (h : s.pop = some (v, vs)) : s.stackTop = vs.stackTop + 1 := by
  unfold ValueStack.pop at h
  split at h
  · cases h
  · rename_i t heq
    split at h
    · cases h; rw [heq]
    · cases h

theorem setAt_stackTop (s : ValueStack) (i : Nat) (v : Value) (vs : ValueStack)
    (h : s.setAt i v = some vs) : vs.stackTop = s.stackTop := by
  unfold ValueStack.setAt at h
  split at h
  · cases h
  · split at h
    · cases h; rfl
    · cases h

theorem get?_append_at (pre l post : List Nat) (k : Nat) (hk : k < l.length) :
    (pre ++ l ++ post).get? (pre.length + k) = l.get? k := by
  rw [List.append_assoc]
  simp only [List.get?_eq_getElem?]
  rw [List.getElem?_append_right (Nat.le_add_right _ _)]
  rw [Nat.add_sub_cancel_left]
  rw [List.getElem?_append, if_pos hk]

theorem getElem?_append_at (pre l post : List Nat) (k : Nat) (hk : k < l.length) :
    (pre ++ l ++ post)[pre.length + k]? = l[k]? := by
  have := get?_append_at pre l post k hk
  simpa using this

/-- Executing one straight-line instruction either continues at the next
instruction with the instruction's stack effect applied, or stops with a
runtime error. -/
theorem vmStep_straight (op : Op) (pre post : List Nat) (cs : List Value)
    (lns : List Nat) (st : VMState) (os : OutState) (r : StepOut)
    (hstr : isStraight op = true)
    (hip : st.ip = pre.length)
    (hstep : vmStep ⟨pre ++ encodeOp op ++ post, cs, lns⟩ st os = some r) :
    (∃ st' os', r = .next st' os' ∧ st'.ip = pre.length + (encodeOp op).length ∧
      (st'.values.stackTop : Int) = (st.values.stackTop : Int) + opEffect op) ∨
    (∃ e st' os', r = .done (Except.error e) st' os') := by
  have hb0 : ∀ b, (encodeOp op)[0]? = some b →
      (pre ++ encodeOp op ++ post)[st.ip]? = some b := by
    intro b hb
    rw [hip]
    have := getElem?_append_at pre (encodeOp op) post 0
      (by cases op <;> simp [encodeOp])
    rw [Nat.add_zero] at this
    rw [this, hb]
  have hb1 : ∀ b, (encodeOp op)[1]? = some b →
      (pre ++ encodeOp op ++ post)[st.ip + 1]? = some b := by
    intro b hb
    have hlen : 1 < (encodeOp op).length := by
      by_contra hle
      rw [List.getElem?_eq_none (by omega)] at hb
      cases hb
    rw [hip, getElem?_append_at pre (encodeOp op) post 1 hlen]
    exact hb
  cases op with
  | ret => cases hstr
  | jump v => cases hstr
  | jumpIfFalse v => cases hstr
  | loop v => cases hstr
  | nil' =>
    have hb := hb0 12 rfl
    simp only [vmStep, VMState.readByte, List.get?_eq_getElem?, hb, Opcode.tryFrom] at hstep
    split at hstep
    · cases hstep
    · rename_i vs heq
      injection hstep with h2
      subst h2
      left
      refine ⟨_, _, rfl, ?_, ?_⟩
      · show st.ip + 1 = pre.length + 1
        omega
      · show ((vs.stackTop : Nat) : Int) = (st.values.stackTop : Int) + opEffect Op.nil'
        have h3 : vs.stackTop = st.values.stackTop + 1 := push_stackTop _ _ _ heq
        simp [opEffect, h3]
  | true' =>
    have hb := hb0 13 rfl
    simp only [vmStep, VMState.readByte, List.get?_eq_getElem?, hb, Opcode.tryFrom] at hstep
    split at hstep
    · cases hstep
    · rename_i vs heq
      injection hstep with h2
      subst h2
      left
      refine ⟨_, _, rfl, ?_, ?_⟩
      · show st.ip + 1 = pre.length + 1
        omega
      · show ((vs.stackTop : Nat) : Int) = (st.values.stackTop : Int) + opEffect Op.true'
        have h3 : vs.stackTop = st.values.stackTop + 1 := push_stackTop _ _ _ heq
        simp [opEffect, h3]
  | false' =>
    have hb := hb0 14 rfl
    simp only [vmStep, VMState.readByte, List.get?_eq_getElem?, hb, Opcode.tryFrom] at hstep
    split at hstep
    · cases hstep
    · rename_i vs heq
      injection hstep with h2
      subst h2
      left
      refine ⟨_, _, rfl, ?_, ?_⟩
      · show st.ip + 1 = pre.length + 1
        omega
      · show ((vs.stackTop : Nat) : Int) = (st.values.stackTop : Int) + opEffect Op.false'
        have h3 : vs.stackTop = st.values.stackTop + 1 := push_stackTop _ _ _ heq
        simp [opEffect, h3]
  | pop =>
    have hb := hb0 5 rfl
    simp only [vmStep, VMState.readByte, List.get?_eq_getElem?, hb, Opcode.tryFrom] at hstep
    split at hstep
    · cases hstep
    · rename_i v vs heq
      injection hstep with h2
      subst h2
      left
      refine ⟨_, _, rfl, ?_, ?_⟩
      · show st.ip + 1 = pre.length + 1
        omega
      · show ((vs.stackTop : Nat) : Int) = (st.values.stackTop : Int) + opEffect Op.pop
        have h3 : st.values.stackTop = vs.stackTop + 1 := pop_stackTop _ _ _ heq
        simp [opEffect, h3]
  | print =>
    have hb := hb0 4 rfl
    simp only [vmStep, VMState.readByte, List.get?_eq_getElem?, hb, Opcode.tryFrom] at hstep
    split at hstep
    · cases hstep
    · rename_i v vs heq
      injection hstep with h2
      subst h2
      left
      refine ⟨_, _, rfl, ?_, ?_⟩
      · show st.ip + 1 = pre.length + 1
        omega
      · show ((vs.stackTop : Nat) : Int) = (st.values.stackTop : Int) + opEffect Op.print
        have h3 : st.values.stackTop = vs.stackTop + 1 := pop_stackTop _ _ _ heq
        simp [opEffect, h3]
  | not =>
    have hb := hb0 15 rfl
    simp only [vmStep, VMState.readByte, List.get?_eq_getElem?, hb, Opcode.tryFrom] at hstep
    split at hstep
    · cases hstep
    · rename_i v vs heq
      split at hstep
      · cases hstep
      · rename_i vs2 heq2
        injection hstep with h2
        subst h2
        left
        refine ⟨_, _, rfl, ?_, ?_⟩
        · show st.ip + 1 = pre.length + 1
          omega
        · show ((vs2.stackTop : Nat) : Int) = (st.values.stackTop : Int) + opEffect Op.not
          have h3 : st.values.stackTop = vs.stackTop + 1 := pop_stackTop _ _ _ heq
          have h4 : vs2.stackTop = vs.stackTop + 1 := push_stackTop _ _ _ heq2
          simp [opEffect]
          omega
  | negate =>
    have hb := hb0 16 rfl
    simp only [vmStep, VMState.readByte, List.get?_eq_getElem?, hb, Opcode.tryFrom] at hstep
    split at hstep
    · cases hstep
    · rename_i v vs heq
      split at hstep
      · rename_i x
        split at hstep
        · cases hstep
        · rename_i vs2 heq2
          injection hstep with h2
          subst h2
          left
          refine ⟨_, _, rfl, ?_, ?_⟩
          · show st.ip + 1 = pre.length + 1
            omega
          · show ((vs2.stackTop : Nat) : Int) =
              (st.values.stackTop : Int) + opEffect Op.negate
            have h3 : st.values.stackTop = vs.stackTop + 1 := pop_stackTop _ _ _ heq
            have h4 : vs2.stackTop = vs.stackTop + 1 := push_stackTop _ _ _ heq2
            simp [opEffect]
            omega
      · split at hstep
        · cases hstep
        · injection hstep with h2
          subst h2
          right
          exact ⟨_, _, _, rfl⟩
  | equal =>
    have hb := hb0 17 rfl
    simp only [vmStep, VMState.readByte, List.get?_eq_getElem?, hb, Opcode.tryFrom] at hstep
    split at hstep
    · cases hstep
    · rename_i v2 vs heq
      split at hstep
      · cases hstep
      · rename_i v1 vs2 heq2
        split at hstep
        · cases hstep
        · rename_i vs3 heq3
          injection hstep with h2
          subst h2
          left
          refine ⟨_, _, rfl, ?_, ?_⟩
          · show st.ip + 1 = pre.length + 1
            omega
          · show ((vs3.stackTop : Nat) : Int) =
              (st.values.stackTop : Int) + opEffect Op.equal
            have h3 : st.values.stackTop = vs.stackTop + 1 := pop_stackTop _ _ _ heq
            have h4 : vs.stackTop = vs2.stackTop + 1 := pop_stackTop _ _ _ heq2
            have h5 : vs3.stackTop = vs2.stackTop + 1 := push_stackTop _ _ _ heq3
            simp [opEffect]
            omega
  | constant i =>
    have hb := hb0 6 rfl
    have hb1' := hb1 (i % 256) rfl
    simp only [vmStep, VMState.readByte, List.get?_eq_getElem?, hb, hb1',
      Opcode.tryFrom] at hstep
    split at hstep
    · cases hstep
    · rename_i v heq
      split at hstep
      · cases hstep
      · rename_i vs heq2
        injection hstep with h2
        subst h2
        left
        refine ⟨_, _, rfl, ?_, ?_⟩
        · show st.ip + 1 + 1 = pre.length + 2
          omega
        · show ((vs.stackTop : Nat) : Int) =
            (st.values.stackTop : Int) + opEffect (Op.constant i)
          have h3 : vs.stackTop = st.values.stackTop + 1 := push_stackTop _ _ _ heq2
          simp [opEffect, h3]
  | getLocal i =>
    have hb := hb0 10 rfl
    have hb1' := hb1 (i % 256) rfl
    simp only [vmStep, VMState.readByte, List.get?_eq_getElem?, hb, hb1',
      Opcode.tryFrom] at hstep
    split at hstep
    · cases hstep
    · rename_i v heq
      split at hstep
      · cases hstep
      · rename_i vs heq2
        injection hstep with h2
        subst h2
        left
        refine ⟨_, _, rfl, ?_, ?_⟩
        · show st.ip + 1 + 1 = pre.length + 2
          omega
        · show ((vs.stackTop : Nat) : Int) =
            (st.values.stackTop : Int) + opEffect (Op.getLocal i)
          have h3 : vs.stackTop = st.values.stackTop + 1 := push_stackTop _ _ _ heq2
          simp [opEffect, h3]
  | setLocal i =>
    have hb := hb0 11 rfl
    have hb1' := hb1 (i % 256) rfl
    simp only [vmStep, VMState.readByte, List.get?_eq_getElem?, hb, hb1',
      Opcode.tryFrom] at hstep
    split at hstep
    · cases hstep
    · rename_i v heq
      split at hstep
      · cases hstep
      · rename_i vs heq2
        injection hstep with h2
        subst h2
        left
        refine ⟨_, _, rfl, ?_, ?_⟩
        · show st.ip + 1 + 1 = pre.length + 2
          omega
        · show ((vs.stackTop : Nat) : Int) =
            (st.values.stackTop : Int) + opEffect (Op.setLocal i)
          have h3 : vs.stackTop = st.values.stackTop := setAt_stackTop _ _ _ _ heq2
          simp [opEffect, h3]
  | defineGlobal i =>
    have hb := hb0 7 rfl
    have hb1' := hb1 (i % 256) rfl
    simp only [vmStep, VMState.readByte, List.get?_eq_getElem?, hb, hb1',
      Opcode.tryFrom] at hstep
    split at hstep
    · rename_i sid name heq0
      split at hstep
      · cases hstep
      · rename_i v vs heq
        injection hstep with h2
        subst h2
        left
        refine ⟨_, _, rfl, ?_, ?_⟩
        · show st.ip + 1 + 1 = pre.length + 2
          omega
        · show ((vs.stackTop : Nat) : Int) =
            (st.values.stackTop : Int) + opEffect (Op.defineGlobal i)
          have h3 : st.values.stackTop = vs.stackTop + 1 := pop_stackTop _ _ _ heq
          simp [opEffect]
          omega
    · cases hstep
  | getGlobal i =>
    have hb := hb0 8 rfl
    have hb1' := hb1 (i % 256) rfl
    simp only [vmStep, VMState.readByte, List.get?_eq_getElem?, hb, hb1',
      Opcode.tryFrom] at hstep
    split at hstep
    · rename_i sid name heq0
      split at hstep
      · rename_i v heq
        split at hstep
        · cases hstep
        · rename_i vs heq2
          injection hstep with h2
          subst h2
          left
          refine ⟨_, _, rfl, ?_, ?_⟩
          · show st.ip + 1 + 1 = pre.length + 2
            omega
          · show ((vs.stackTop : Nat) : Int) =
              (st.values.stackTop : Int) + opEffect (Op.getGlobal i)
            have h3 : vs.stackTop = st.values.stackTop + 1 := push_stackTop _ _ _ heq2
            simp [opEffect, h3]
      · split at hstep
        · cases hstep
        · injection hstep with h2
          subst h2
          right
          exact ⟨_, _, _, rfl⟩
    · cases hstep
  | setGlobal i =>
    have hb := hb0 9 rfl
    have hb1' := hb1 (i % 256) rfl
    simp only [vmStep, VMState.readByte, List.get?_eq_getElem?, hb, hb1',
      Opcode.tryFrom] at hstep
    split at hstep
    · rename_i sid name heq0
      split at hstep
      · cases hstep
      · rename_i v heq
        split at hstep
        · split at hstep
          · cases hstep
          · injection hstep with h2
            subst h2
            right
            exact ⟨_, _, _, rfl⟩
        · injection hstep with h2
          subst h2
          left
          refine ⟨_, _, rfl, ?_, ?_⟩
          · show st.ip + 1 + 1 = pre.length + 2
            omega
          · show ((st.values.stackTop : Nat) : Int) =
              (st.values.stackTop : Int) + opEffect (Op.setGlobal i)
            simp [opEffect]
    · cases hstep
  | greater =>
    have hb := hb0 18 rfl
    simp only [vmStep, VMState.readByte, List.get?_eq_getElem?, hb, Opcode.tryFrom] at hstep
    split at hstep
    · cases hstep
    · rename_i bv vs heq
      split at hstep
      · cases hstep
      · rename_i av vs2 heq2
        split at hstep
        · rename_i a b
          split at hstep
          · cases hstep
          · rename_i vs3 heq3
            injection hstep with h2
            subst h2
            left
            refine ⟨_, _, rfl, ?_, ?_⟩
            · show st.ip + 1 = pre.length + 1
              omega
            · show ((vs3.stackTop : Nat) : Int) =
                (st.values.stackTop : Int) + opEffect Op.greater
              have h3 : st.values.stackTop = vs.stackTop + 1 := pop_stackTop _ _ _ heq
              have h4 : vs.stackTop = vs2.stackTop + 1 := pop_stackTop _ _ _ heq2
              have h5 : vs3.stackTop = vs2.stackTop + 1 := push_stackTop _ _ _ heq3
              simp [opEffect]
              omega
        · split at hstep
          · cases hstep
          · injection hstep with h2
            subst h2
            right
            exact ⟨_, _, _, rfl⟩
  | less =>
    have hb := hb0 19 rfl
    simp only [vmStep, VMState.readByte, List.get?_eq_getElem?, hb, Opcode.tryFrom] at hstep
    split at hstep
    · cases hstep
    · rename_i bv vs heq
      split at hstep
      · cases hstep
      · rename_i av vs2 heq2
        split at hstep
        · rename_i a b
          split at hstep
          · cases hstep
          · rename_i vs3 heq3
            injection hstep with h2
            subst h2
            left
            refine ⟨_, _, rfl, ?_, ?_⟩
            · show st.ip + 1 = pre.length + 1
              omega
            · show ((vs3.stackTop : Nat) : Int) =
                (st.values.stackTop : Int) + opEffect Op.less
              have h3 : st.values.stackTop = vs.stackTop + 1 := pop_stackTop _ _ _ heq
              have h4 : vs.stackTop = vs2.stackTop + 1 := pop_stackTop _ _ _ heq2
              have h5 : vs3.stackTop = vs2.stackTop + 1 := push_stackTop _ _ _ heq3
              simp [opEffect]
              omega
        · split at hstep
          · cases hstep
          · injection hstep with h2
            subst h2
            right
            exact ⟨_, _, _, rfl⟩
  | add =>
    have hb := hb0 20 rfl
    simp only [vmStep, VMState.readByte, List.get?_eq_getElem?, hb, Opcode.tryFrom] at hstep
    split at hstep
    · cases hstep
    · rename_i v2 vs heq
      split at hstep
      · cases hstep
      · rename_i v1 vs2 heq2
        split at hstep
        · rename_i a b
          split at hstep
          · cases hstep
          · rename_i vs3 heq3
            injection hstep with h2
            subst h2
            left
            refine ⟨_, _, rfl, ?_, ?_⟩
            · show st.ip + 1 = pre.length + 1
              omega
            · show ((vs3.stackTop : Nat) : Int) =
                (st.values.stackTop : Int) + opEffect Op.add
              have h3 : st.values.stackTop = vs.stackTop + 1 := pop_stackTop _ _ _ heq
              have h4 : vs.stackTop = vs2.stackTop + 1 := pop_stackTop _ _ _ heq2
              have h5 : vs3.stackTop = vs2.stackTop + 1 := push_stackTop _ _ _ heq3
              simp [opEffect]
              omega
        · rename_i i1 s1 i2 s2
          split at hstep
          · cases hstep
          · rename_i vs3 heq3
            injection hstep with h2
            subst h2
            left
            refine ⟨_, _, rfl, ?_, ?_⟩
            · show st.ip + 1 = pre.length + 1
              omega
            · show ((vs3.stackTop : Nat) : Int) =
                (st.values.stackTop : Int) + opEffect Op.add
              have h3 : st.values.stackTop = vs.stackTop + 1 := pop_stackTop _ _ _ heq
              have h4 : vs.stackTop = vs2.stackTop + 1 := pop_stackTop _ _ _ heq2
              have h5 : vs3.stackTop = vs2.stackTop + 1 := push_stackTop _ _ _ heq3
              simp [opEffect]
              omega
        · split at hstep
          · cases hstep
          · injection hstep with h2
            subst h2
            right
            exact ⟨_, _, _, rfl⟩
  | subtract =>
    have hb := hb0 21 rfl
    simp only [vmStep, VMState.readByte, List.get?_eq_getElem?, hb, Opcode.tryFrom] at hstep
    split at hstep
    · cases hstep
    · rename_i bv vs heq
      split at hstep
      · cases hstep
      · rename_i av vs2 heq2
        split at hstep
        · rename_i a b
          split at hstep
          · cases hstep
          · rename_i vs3 heq3
            injection hstep with h2
            subst h2
            left
            refine ⟨_, _, rfl, ?_, ?_⟩
            · show st.ip + 1 = pre.length + 1
              omega
            · show ((vs3.stackTop : Nat) : Int) =
                (st.values.stackTop : Int) + opEffect Op.subtract
              have h3 : st.values.stackTop = vs.stackTop + 1 := pop_stackTop _ _ _ heq
              have h4 : vs.stackTop = vs2.stackTop + 1 := pop_stackTop _ _ _ heq2
              have h5 : vs3.stackTop = vs2.stackTop + 1 := push_stackTop _ _ _ heq3
              simp [opEffect]
              omega
        · split at hstep
          · cases hstep
          · injection hstep with h2
            subst h2
            right
            exact ⟨_, _, _, rfl⟩
  | multiply =>
    have hb := hb0 22 rfl
    simp only [vmStep, VMState.readByte, List.get?_eq_getElem?, hb, Opcode.tryFrom] at hstep
    split at hstep
    · cases hstep
    · rename_i bv vs heq
      split at hstep
      · cases hstep
      · rename_i av vs2 heq2
        split at hstep
        · rename_i a b
          split at hstep
          · cases hstep
          · rename_i vs3 heq3
            injection hstep with h2
            subst h2
            left
            refine ⟨_, _, rfl, ?_, ?_⟩
            · show st.ip + 1 = pre.length + 1
              omega
            · show ((vs3.stackTop : Nat) : Int) =
                (st.values.stackTop : Int) + opEffect Op.multiply
              have h3 : st.values.stackTop = vs.stackTop + 1 := pop_stackTop _ _ _ heq
              have h4 : vs.stackTop = vs2.stackTop + 1 := pop_stackTop _ _ _ heq2
              have h5 : vs3.stackTop = vs2.stackTop + 1 := push_stackTop _ _ _ heq3
              simp [opEffect]
              omega
        · split at hstep
          · cases hstep
          · injection hstep with h2
            subst h2
            right
            exact ⟨_, _, _, rfl⟩
  | divide =>
    have hb := hb0 23 rfl
    simp only [vmStep, VMState.readByte, List.get?_eq_getElem?, hb, Opcode.tryFrom] at hstep
    split at hstep
    · cases hstep
    · rename_i bv vs heq
      split at hstep
      · cases hstep
      · rename_i av vs2 heq2
        split at hstep
        · rename_i a b
          split at hstep
          · cases hstep
          · rename_i vs3 heq3
            injection hstep with h2
            subst h2
            left
            refine ⟨_, _, rfl, ?_, ?_⟩
            · show st.ip + 1 = pre.length + 1
              omega
            · show ((vs3.stackTop : Nat) : Int) =
                (st.values.stackTop : Int) + opEffect Op.divide
              have h3 : st.values.stackTop = vs.stackTop + 1 := pop_stackTop _ _ _ heq
              have h4 : vs.stackTop = vs2.stackTop + 1 := pop_stackTop _ _ _ heq2
              have h5 : vs3.stackTop = vs2.stackTop + 1 := push_stackTop _ _ _ heq3
              simp [opEffect]
              omega
        · split at hstep
          · cases hstep
          · injection hstep with h2
            subst h2
            right
            exact ⟨_, _, _, rfl⟩

/-- Running a straight-line instruction sequence followed by `Return`:
if the run returns `Ok`, the final `stack_top` is the initial one plus the
sequence's total stack effect. -/
theorem vmRun_straight : ∀ (fuel : Nat) (ops : List Op) (pre : List Nat)
    (cs : List Value) (lns : List Nat) (st : VMState) (os : OutState)
    (st' : VMState) (os' : OutState),
    allStraight ops = true →
    st.ip = pre.length →
    vmRun fuel ⟨pre ++ encodeOps ops ++ [1], cs, lns⟩ st os =
      some (.ok (), st', os') →
    (st'.values.stackTop : Int) = (st.values.stackTop : Int) + sumEffects ops := by
  intro fuel
  induction fuel with
  | zero =>
    intro ops pre cs lns st os st' os' _ _ h
    cases h
  | succ fuel ih =>
    intro ops pre cs lns st os st' os' hall hip hrun
    cases ops with
    | nil =>
      have hb : (pre ++ encodeOps [] ++ [1])[st.ip]? = some 1 := by
        rw [hip]
        show (pre ++ [] ++ [1])[pre.length]? = some 1
        rw [List.append_nil, List.getElem?_append_right (le_refl pre.length)]
        simp
      simp only [vmRun, vmStep, VMState.readByte, List.get?_eq_getElem?, hb,
        Opcode.tryFrom] at hrun
      injection hrun with h
      injection h with h1 h2
      injection h2 with h3 h4
      subst h3
      simp [sumEffects]
    | cons op rest =>
      have hstr : isStraight op = true := by
        simp [allStraight] at hall
        exact hall.1
      have hall' : allStraight rest = true := by
        simp [allStraight] at hall ⊢
        exact hall.2
      have hcode : pre ++ encodeOps (op :: rest) ++ [1] =
          pre ++ encodeOp op ++ (encodeOps rest ++ [1]) := by
        simp [encodeOps]
      rw [hcode] at hrun
      simp only [vmRun] at hrun
      split at hrun
      · cases hrun
      · rename_i r st2 os2 heq
        rcases vmStep_straight op pre (encodeOps rest ++ [1]) cs lns st os _
            hstr hip heq with ⟨st3, os3, hr, _, _⟩ | ⟨e, st3, os3, hr⟩
        · cases hr
        · injection hr with h1 h2 h3
          subst h1
          injection hrun with h
          injection h with h1' h2'
          cases h1'
      · rename_i st2 os2 heq
        rcases vmStep_straight op pre (encodeOps rest ++ [1]) cs lns st os _
            hstr hip heq with ⟨st3, os3, hr, hip3, htop3⟩ | ⟨e, st3, os3, hr⟩
        · injection hr with hst3 hos3
          rw [← hst3] at hip3 htop3
          have hip2 : st2.ip = (pre ++ encodeOp op).length := by
            rw [List.length_append]
            exact hip3
          have hcode2 : pre ++ encodeOp op ++ (encodeOps rest ++ [1]) =
              (pre ++ encodeOp op) ++ encodeOps rest ++ [1] := by
            simp
          rw [hcode2] at hrun
          have hsum := ih rest (pre ++ encodeOp op) cs lns st2 os2 st' os' hall' hip2 hrun
          rw [hsum, htop3]
          simp [sumEffects]
          ring
        · cases hr

/-! ### Well-formedness of the locals table -/

def getLoc (c : Compiler) (j : Nat) : Option Local := (c.locals.get? j).bind id

/-- The occupied prefix of the locals table holds initialized locals whose
depths lie in `[1, bound]` and are non-decreasing bottom to top. -/
structure LocalsBound (c : Compiler) (bound : Nat) : Prop where
  len : c.locals.length = 256
  count : c.localCount ≤ 256
  occ : ∀ j, j < c.localCount → ∃ l d, getLoc c j = some l ∧ l.depth = some d ∧
    1 ≤ d ∧ d ≤ bound
  sorted : ∀ i j li lj di dj, i ≤ j → j < c.localCount →
    getLoc c i = some li → getLoc c j = some lj →
    li.depth = some di → lj.depth = some dj → di ≤ dj

def LocalsGood (c : Compiler) : Prop := LocalsBound c c.scopeDepth

theorem get?_set_self {α : Type} (l : List α) (i : Nat) (x : α) (h : i < l.length) :
    (l.set i x).get? i = some x := by
  induction l generalizing i with
  | nil => simp at h
  | cons a rest ih =>
    cases i with
    | zero => rfl
    | succ i =>
      simp only [List.set_cons_succ, List.get?_cons_succ]
      exact ih i (by simpa using h)

theorem get?_set_other {α : Type} (l : List α) (i j : Nat) (x : α) (h : i ≠ j) :
    (l.set i x).get? j = l.get? j := by
  induction l generalizing i j with
  | nil => simp
  | cons a rest ih =>
    cases i with
    | zero =>
      cases j with
      | zero => exact absurd rfl h
      | succ j => rfl
    | succ i =>
      cases j with
      | zero => rfl
      | succ j =>
        simp only [List.set_cons_succ, List.get?_cons_succ]
        exact ih i j (fun hh => h (by rw [hh]))

theorem localsGood_mk : LocalsGood Compiler.mk' := by
  refine ⟨by simp [Compiler.mk', UINT8_COUNT], by simp [Compiler.mk'], ?_, ?_⟩
  · intro j hj
    simp [Compiler.mk'] at hj
  · intro i j li lj di dj _ hj
    simp [Compiler.mk'] at hj

theorem localsBound_mono (c : Compiler) (b b' : Nat) (h : LocalsBound c b)
    (hb : b ≤ b') : LocalsBound c b' := by
  refine ⟨h.len, h.count, ?_, h.sorted⟩
  intro j hj
  obtain ⟨l, d, h1, h2, h3, h4⟩ := h.occ j hj
  exact ⟨l, d, h1, h2, h3, le_trans h4 hb⟩

theorem localsGood_beginScope (c : Compiler) (h : LocalsGood c) :
    LocalsGood c.beginScope := by
  have : LocalsBound c (c.scopeDepth + 1) := localsBound_mono c _ _ h (Nat.le_succ _)
  exact ⟨this.len, this.count, this.occ, this.sorted⟩

theorem localsGood_depth0_empty (c : Compiler) (h : LocalsGood c)
    (hd : c.scopeDepth = 0) : c.localCount = 0 := by
  by_contra hc
  obtain ⟨l, d, _, _, h3, h4⟩ := h.occ 0 (Nat.pos_of_ne_zero hc)
  rw [hd] at h4
  omega

/-- `add_local` followed (after the initializer) by `mark_initialized`
extends a well-formed table by one local at the current depth. -/
theorem local_declare_good (c c1 c' : Compiler) (name : Token)
    (hg : LocalsGood c) (hd : 1 ≤ c.scopeDepth)
    (ha : c.addLocal name = .ok c1) (hm : c1.markInitialized = some c') :
    LocalsGood c' ∧ c'.scopeDepth = c.scopeDepth ∧
    c'.localCount = c.localCount + 1 := by
  have hcount : c.localCount ≠ UINT8_COUNT ∧
      c1 = { c with locals := c.locals.set c.localCount (some ⟨none, name⟩),
                    localCount := c.localCount + 1 } := by
    unfold Compiler.addLocal at ha
    split at ha
    · cases ha
    · split at ha
      · cases ha
      · rename_i h1 h2
        injection ha with ha
        exact ⟨h1, ha.symm⟩
  obtain ⟨hne, hc1⟩ := hcount
  have hlt : c.localCount < 256 := by
    have := hg.count
    unfold UINT8_COUNT at hne
    omega
  have hsc : (c.locals.set c.localCount (some (⟨none, name⟩ : Local))).get? c.localCount
      = some (some ⟨none, name⟩) :=
    get?_set_self c.locals c.localCount _ (by rw [hg.len]; exact hlt)
  have hc' : c' = ⟨c.scopeDepth, c.localCount + 1,
      (c.locals.set c.localCount (some ⟨none, name⟩)).set c.localCount
        (some ⟨some c.scopeDepth, name⟩)⟩ := by
    unfold Compiler.markInitialized at hm
    rw [hc1] at hm
    simp only [safeDecr] at hm
    rw [if_neg (by omega)] at hm
    simp only [Nat.add_sub_cancel] at hm
    simp only [hsc] at hm
    injection hm with hm
    exact hm.symm
  have hdep : c'.scopeDepth = c.scopeDepth := by rw [hc']
  have hcnt : c'.localCount = c.localCount + 1 := by rw [hc']
  have hgetTop : getLoc c' c.localCount = some ⟨some c.scopeDepth, name⟩ := by
    unfold getLoc
    rw [hc']
    show (((c.locals.set c.localCount (some ⟨none, name⟩)).set c.localCount
        (some ⟨some c.scopeDepth, name⟩)).get? c.localCount).bind id = _
    rw [get?_set_self _ _ _ (by simpa [hg.len] using hlt)]
    rfl
  have hgetOld : ∀ j, j ≠ c.localCount → getLoc c' j = getLoc c j := by
    intro j hj
    unfold getLoc
    rw [hc']
    show (((c.locals.set c.localCount (some ⟨none, name⟩)).set c.localCount
        (some ⟨some c.scopeDepth, name⟩)).get? j).bind id = _
    rw [get?_set_other _ _ _ _ (fun hh => hj hh.symm)]
    rw [get?_set_other _ _ _ _ (fun hh => hj hh.symm)]
  refine ⟨⟨?_, ?_, ?_, ?_⟩, hdep, hcnt⟩
  · rw [hc']
    simp [hg.len]
  · rw [hcnt]
    omega
  · intro j hj
    rw [hcnt] at hj
    rcases Nat.lt_succ_iff_lt_or_eq.mp hj with hj | hj
    · obtain ⟨l, d, h1, h2, h3, h4⟩ := hg.occ j hj
      refine ⟨l, d, ?_, h2, h3, ?_⟩
      · rw [hgetOld j (by omega)]
        exact h1
      · rw [hdep]
        exact h4
    · subst hj
      exact ⟨⟨some c.scopeDepth, name⟩, c.scopeDepth, hgetTop, rfl, hd, by rw [hdep]⟩
  · intro i j li lj di dj hij hj h1 h2 h3 h4
    rw [hcnt] at hj
    rcases Nat.lt_succ_iff_lt_or_eq.mp hj with hj | hj
    · have hi : i ≠ c.localCount := by omega
      have hjj : j ≠ c.localCount := by omega
      rw [hgetOld i hi] at h1
      rw [hgetOld j hjj] at h2
      exact hg.sorted i j li lj di dj hij hj h1 h2 h3 h4
    · subst hj
      rw [hgetTop] at h2
      injection h2 with h2
      subst h2
      simp at h4
      subst h4
      by_cases hi : i = c.localCount
      · subst hi
        rw [hgetTop] at h1
        injection h1 with h1
        subst h1
        simp at h3
        omega
      · rw [hgetOld i hi] at h1
        obtain ⟨l, d, hh1, hh2, hh3, hh4⟩ := hg.occ i (by omega)
        rw [h1] at hh1
        injection hh1 with hh1
        subst hh1
        rw [h3] at hh2
        injection hh2 with hh2
        omega

theorem peekLocal_eq (c : Compiler) :
    c.peekLocal = if c.localCount = 0 then none else getLoc c (c.localCount - 1) := by
  by_cases h : c.localCount = 0 <;>
    simp [Compiler.peekLocal, safeDecr, h, getLoc]

theorem popLocal_eq (c : Compiler) (n : Nat) (h : c.localCount = n + 1) :
    c.popLocal = { c with localCount := n, locals := c.locals.set n none } := by
  simp [Compiler.popLocal, h]

theorem localsBound_popLocal (c : Compiler) (n : Nat) (hn : c.localCount = n + 1)
    (hb : LocalsBound c (c.scopeDepth + 1)) :
    LocalsBound c.popLocal (c.popLocal.scopeDepth + 1) := by
  rw [popLocal_eq c n hn]
  show LocalsBound ⟨c.scopeDepth, n, c.locals.set n none⟩ (c.scopeDepth + 1)
  refine ⟨?_, ?_, ?_, ?_⟩
  · show (c.locals.set n none).length = 256
    simp [hb.len]
  · show n ≤ 256
    have := hb.count
    omega
  · intro j hj
    have hj' : j < n := hj
    obtain ⟨l, d, h1, h2, h3, h4⟩ := hb.occ j (by omega)
    refine ⟨l, d, ?_, h2, h3, h4⟩
    show ((c.locals.set n none).get? j).bind id = some l
    rw [get?_set_other _ _ _ _ (by omega)]
    exact h1
  · intro i j li lj di dj hij hj h1 h2 h3 h4
    have hj' : j < n := hj
    replace h1 : ((c.locals.set n none).get? i).bind id = some li := h1
    replace h2 : ((c.locals.set n none).get? j).bind id = some lj := h2
    rw [get?_set_other _ _ _ _ (by omega)] at h1
    rw [get?_set_other _ _ _ _ (by omega)] at h2
    exact hb.sorted i j li lj di dj hij (by omega) h1 h2 h3 h4

theorem endScopeGo_spec : ∀ (fuel : Nat) (c : Compiler) (k : Nat) (c' : Compiler)
    (k' : Nat),
    LocalsBound c (c.scopeDepth + 1) →
    Compiler.endScopeGo fuel c k = some (c', k') →
    LocalsGood c' ∧ c'.scopeDepth = c.scopeDepth ∧
    c'.localCount + k' = c.localCount + k := by
  intro fuel
  induction fuel with
  | zero =>
    intro c k c' k' _ h
    cases h
  | succ fuel ih =>
    intro c k c' k' hb h
    rw [Compiler.endScopeGo] at h
    split at h
    · rename_i hpeek
      have hcnt : c.localCount = 0 := by
        by_contra hc0
        obtain ⟨l, d, h1, _, _, _⟩ := hb.occ (c.localCount - 1) (by omega)
        rw [peekLocal_eq, if_neg hc0, h1] at hpeek
        cases hpeek
      injection h with h
      injection h with h1 h2
      subst h1
      subst h2
      refine ⟨⟨hb.len, hb.count, ?_, ?_⟩, rfl, rfl⟩
      · intro j hj
        rw [hcnt] at hj
        omega
      · intro i j li lj di dj hij hj
        rw [hcnt] at hj
        omega
    · rename_i l hpeek
      have hc0 : c.localCount ≠ 0 := by
        intro hc0
        rw [peekLocal_eq, if_pos hc0] at hpeek
        cases hpeek
      have hgetl : getLoc c (c.localCount - 1) = some l := by
        rw [peekLocal_eq, if_neg hc0] at hpeek
        exact hpeek
      split at h
      · cases h
      · rename_i d hdep
        split at h
        · rename_i hle
          injection h with h
          injection h with h1 h2
          subst h1
          subst h2
          refine ⟨⟨hb.len, hb.count, ?_, hb.sorted⟩, rfl, rfl⟩
          intro j hj
          obtain ⟨lj, dj, h1, h2, h3, h4⟩ := hb.occ j hj
          refine ⟨lj, dj, h1, h2, h3, ?_⟩
          have := hb.sorted j (c.localCount - 1) lj l dj d (by omega) (by omega)
            h1 hgetl h2 hdep
          omega
        · rename_i hgt
          obtain ⟨n, hn⟩ : ∃ n, c.localCount = n + 1 :=
            ⟨c.localCount - 1, by omega⟩
          have hpop := localsBound_popLocal c n hn hb
          obtain ⟨hg', hd', hc'⟩ := ih c.popLocal (k + 1) c' k' hpop h
          have hps : c.popLocal.scopeDepth = c.scopeDepth := by
            rw [popLocal_eq c n hn]
          have hpc : c.popLocal.localCount = n := by
            rw [popLocal_eq c n hn]
          rw [hps] at hd'
          rw [hpc] at hc'
          exact ⟨hg', hd', by omega⟩

theorem endScope_spec (c c' : Compiler) (removed : Nat)
    (hg : LocalsGood c) (hd : 1 ≤ c.scopeDepth)
    (h : c.endScope = some (c', removed)) :
    LocalsGood c' ∧ c'.scopeDepth = c.scopeDepth - 1 ∧
    c'.localCount + removed = c.localCount := by
  unfold Compiler.endScope at h
  obtain ⟨d, hdd⟩ : ∃ d, c.scopeDepth = d + 1 := ⟨c.scopeDepth - 1, by omega⟩
  rw [hdd] at h
  have hb : LocalsBound { c with scopeDepth := d }
      ({ c with scopeDepth := d }.scopeDepth + 1) := by
    refine ⟨hg.len, hg.count, ?_, hg.sorted⟩
    intro j hj
    obtain ⟨l, dd, h1, h2, h3, h4⟩ := hg.occ j hj
    rw [hdd] at h4
    exact ⟨l, dd, h1, h2, h3, h4⟩
  obtain ⟨h1, h2, h3⟩ := endScopeGo_spec _ _ _ _ _ hb h
  exact ⟨h1, by rw [h2, hdd]; rfl, by simpa using h3⟩

/-! ### Bookkeeping facts about the parser helpers -/

/-- Panic mode implies the error flag: `print_err` sets both together and
`synchronize` only clears panic mode. -/
def ErrOk (p : Parser) : Prop := p.panicMode = true → p.hadError = true

theorem printErr_spec (p : Parser) (msg : String) (line : Nat) (at? : Option String)
    (hE : ErrOk p) :
    ErrOk (p.printErr msg line at?) ∧
    (p.printErr msg line at?).chunk = p.chunk ∧
    (p.printErr msg line at?).compiler = p.compiler ∧
    ((p.printErr msg line at?).hadError = false → p.hadError = false) := by
  unfold Parser.printErr
  split
  · exact ⟨hE, rfl, rfl, fun h => h⟩
  · exact ⟨fun _ => rfl, rfl, rfl, fun h => by cases h⟩

theorem errorAtTok_spec (p : Parser) (msg : String) (tok : Token) (hE : ErrOk p) :
    ErrOk (p.errorAtTok msg tok) ∧
    (p.errorAtTok msg tok).chunk = p.chunk ∧
    (p.errorAtTok msg tok).compiler = p.compiler ∧
    ((p.errorAtTok msg tok).hadError = false → p.hadError = false) :=
  printErr_spec p msg tok.line _ hE

/-- With the panic invariant, a reported error never leaves the error flag
clear. -/
theorem errorAtTok_hadError (p : Parser) (msg : String) (tok : Token) (hE : ErrOk p)
    (h : (p.errorAtTok msg tok).hadError = false) : False := by
  cases hp : p.panicMode with
  | true =>
    have he : p.errorAtTok msg tok = p := by
      simp [Parser.errorAtTok, Parser.printErr, hp]
    rw [he, hE hp] at h
    cases h
  | false =>
    simp [Parser.errorAtTok, Parser.printErr, hp] at h

theorem advanceGo_spec : ∀ (fuel : Nat) (p p' : Parser), ErrOk p →
    Parser.advanceGo fuel p = some p' →
    ErrOk p' ∧ p'.chunk = p.chunk ∧ p'.compiler = p.compiler ∧
    (p'.hadError = false → p.hadError = false) := by
  intro fuel
  induction fuel with
  | zero =>
    intro p p' _ h
    cases h
  | succ fuel ih =>
    intro p p' hE h
    rw [Parser.advanceGo] at h
    split at h
    · cases h
    · rename_i tok sc heq
      injection h with h
      subst h
      exact ⟨hE, rfl, rfl, fun h => h⟩
    · rename_i e sc heq
      obtain ⟨h1, h2, h3, h4⟩ :=
        printErr_spec { p with scanner := sc } e.msg e.line none hE
      obtain ⟨g1, g2, g3, g4⟩ := ih _ p' h1 h
      exact ⟨g1, by rw [g2, h2], by rw [g3, h3], fun hh => h4 (g4 hh)⟩

theorem advance_spec (p p' : Parser) (hE : ErrOk p) (h : p.advance = some p') :
    ErrOk p' ∧ p'.chunk = p.chunk ∧ p'.compiler = p.compiler ∧
    (p'.hadError = false → p.hadError = false) :=
  advanceGo_spec _ p p' hE h

theorem consume_spec (p p' : Parser) (k : TokenKind) (msg : String) (hE : ErrOk p)
    (h : p.consume k msg = some p') :
    ErrOk p' ∧ p'.chunk = p.chunk ∧ p'.compiler = p.compiler ∧
    (p'.hadError = false → p.hadError = false) := by
  unfold Parser.consume at h
  split at h
  · exact advance_spec p p' hE h
  · injection h with h
    subst h
    exact errorAtTok_spec p msg p.current hE

theorem matchT_spec (p p' : Parser) (k : TokenKind) (b : Bool) (hE : ErrOk p)
    (h : p.matchT k = some (b, p')) :
    ErrOk p' ∧ p'.chunk = p.chunk ∧ p'.compiler = p.compiler ∧
    (p'.hadError = false → p.hadError = false) := by
  unfold Parser.matchT at h
  split at h
  · cases hadv : p.advance with
    | none => rw [hadv] at h; cases h
    | some p2 =>
      rw [hadv] at h
      simp only [Option.map_some'] at h
      injection h with h
      injection h with h1 h2
      exact h2 ▸ advance_spec p p2 hE hadv
  · injection h with h
    injection h with h1 h2
    exact h2 ▸ ⟨hE, rfl, rfl, fun h => h⟩

theorem synchronizeGo_spec : ∀ (fuel : Nat) (p p' : Parser), ErrOk p →
    Parser.synchronizeGo fuel p = some p' →
    ErrOk p' ∧ p'.chunk = p.chunk ∧ p'.compiler = p.compiler ∧
    (p'.hadError = false → p.hadError = false) := by
  intro fuel
  induction fuel with
  | zero =>
    intro p p' _ h
    cases h
  | succ fuel ih =>
    intro p p' hE h
    rw [Parser.synchronizeGo] at h
    split at h
    · cases h
    · rename_i p2 heq
      injection h with h
      exact h ▸ matchT_spec p p2 .eof true hE heq
    · rename_i p2 heq
      obtain ⟨h1, h2, h3, h4⟩ := matchT_spec p p2 .eof false hE heq
      split at h
      · injection h with h
        subst h
        exact ⟨h1, h2, h3, h4⟩
      · split at h
        all_goals try
          (injection h with h
           subst h
           exact ⟨h1, h2, h3, h4⟩)
        · split at h
          · cases h
          · rename_i p3 heq3
            obtain ⟨g1, g2, g3, g4⟩ := advance_spec p2 p3 h1 heq3
            obtain ⟨f1, f2, f3, f4⟩ := ih p3 p' g1 h
            exact ⟨f1, by rw [f2, g2, h2], by rw [f3, g3, h3],
              fun hh => h4 (g4 (f4 hh))⟩

theorem synchronize_spec (p p' : Parser) (hE : ErrOk p)
    (h : p.synchronize = some p') :
    ErrOk p' ∧ p'.chunk = p.chunk ∧ p'.compiler = p.compiler ∧
    (p'.hadError = false → p.hadError = false) := by
  unfold Parser.synchronize at h
  have hE2 : ErrOk { p with panicMode := false } := fun h => by cases h
  obtain ⟨h1, h2, h3, h4⟩ := synchronizeGo_spec _ _ p' hE2 h
  exact ⟨h1, h2, h3, h4⟩

theorem emitIns_spec (p : Parser) (op : Op) :
    (p.emitIns op).chunk.code = p.chunk.code ++ encodeOp op ∧
    (p.emitIns op).compiler = p.compiler ∧
    (p.emitIns op).hadError = p.hadError ∧
    (p.emitIns op).panicMode = p.panicMode := by
  unfold Parser.emitIns
  exact ⟨(write_code_eq p.chunk op p.previous.line).1, rfl, rfl, rfl⟩

theorem emitIns_errOk (p : Parser) (op : Op) (hE : ErrOk p) : ErrOk (p.emitIns op) := hE

theorem makeConstant_spec (p : Parser) (v : Value) (hE : ErrOk p) :
    ErrOk (p.makeConstant v).2 ∧
    (p.makeConstant v).2.chunk.code = p.chunk.code ∧
    (p.makeConstant v).2.compiler = p.compiler ∧
    ((p.makeConstant v).2.hadError = false → p.hadError = false) ∧
    ((p.makeConstant v).2.hadError = false → (p.makeConstant v).1.isSome) := by
  cases hr : (p.chunk.addConstant v).1 with
  | some i =>
    have hm : p.makeConstant v = (some i, { p with chunk := (p.chunk.addConstant v).2 }) := by
      simp only [Parser.makeConstant, hr]
    rw [hm]
    refine ⟨hE, ?_, rfl, fun h => h, fun _ => rfl⟩
    show (p.chunk.addConstant v).2.code = p.chunk.code
    exact (C6_addConstant p.chunk v).2.2.1
  | none =>
    have hm : p.makeConstant v = (none, Parser.error { p with chunk := (p.chunk.addConstant v).2 }
        ("Too many constants in one chunk.")) := by
      simp only [Parser.makeConstant, hr]
    rw [hm]
    have hE2 : ErrOk { p with chunk := (p.chunk.addConstant v).2 } := hE
    obtain ⟨h1, h2, h3, h4⟩ := errorAtTok_spec { p with chunk := (p.chunk.addConstant v).2 }
      ("Too many constants in one chunk.") p.previous hE2
    refine ⟨h1, ?_, h3, h4, ?_⟩
    · show (Parser.error _ _).chunk.code = p.chunk.code
      unfold Parser.error
      rw [h2]
      exact (C6_addConstant p.chunk v).2.2.1
    · intro hh
      exact absurd hh (fun hh => errorAtTok_hadError _ _ _ hE2 hh)

/-- "This much straight-line code, with this net stack effect, was appended
between the two parser states." -/
def EmitBal (p p' : Parser) (k : Int) : Prop :=
  ∃ L, p'.chunk.code = p.chunk.code ++ encodeOps L ∧ allStraight L = true ∧ sumEffects L = k

theorem EmitBal_code_eq (p p' : Parser) (h : p'.chunk.code = p.chunk.code) :
    EmitBal p p' 0 :=
  ⟨[], by simpa [encodeOps] using h, rfl, rfl⟩

theorem EmitBal_trans {p q r : Parser} {k1 k2 : Int}
    (h1 : EmitBal p q k1) (h2 : EmitBal q r k2) : EmitBal p r (k1 + k2) := by
  obtain ⟨L1, hc1, hs1, he1⟩ := h1
  obtain ⟨L2, hc2, hs2, he2⟩ := h2
  refine ⟨L1 ++ L2, ?_, ?_, ?_⟩
  · rw [hc2, hc1, encodeOps_append, List.append_assoc]
  · rw [allStraight_append, hs1, hs2]; rfl
  · rw [sumEffects_append, he1, he2]

theorem EmitBal_emitIns (p : Parser) (op : Op) (h : isStraight op = true) :
    EmitBal p (p.emitIns op) (opEffect op) :=
  ⟨[op], by
    rw [(emitIns_spec p op).1]
    simp [encodeOps], by simp [allStraight, h], by simp [sumEffects]⟩

theorem EmitBal_cast {p p' : Parser} {k k' : Int} (h : EmitBal p p' k) (he : k = k') :
    EmitBal p p' k' := he ▸ h

theorem emitConstant_spec (p : Parser) (v : Value) (hE : ErrOk p) :
    ErrOk (p.emitConstant v) ∧
    (p.emitConstant v).compiler = p.compiler ∧
    ((p.emitConstant v).hadError = false → p.hadError = false) ∧
    ((p.emitConstant v).hadError = false → EmitBal p (p.emitConstant v) 1) := by
  obtain ⟨m1, m2, m3, m4, m5⟩ := makeConstant_spec p v hE
  cases hr : (p.makeConstant v).1 with
  | some i =>
    have hm : p.emitConstant v = (p.makeConstant v).2.emitIns (.constant i) := by
      simp only [Parser.emitConstant, hr]
    rw [hm]
    obtain ⟨e1, e2, e3, e4⟩ := emitIns_spec (p.makeConstant v).2 (.constant i)
    refine ⟨fun h => m1 (e4 ▸ h), by rw [e2, m3], fun h => m4 (e3 ▸ h), fun _ => ?_⟩
    exact ⟨[.constant i], by rw [e1, m2]; simp [encodeOps], rfl, rfl⟩
  | none =>
    have hm : p.emitConstant v = (p.makeConstant v).2 := by
      simp only [Parser.emitConstant, hr]
    rw [hm]
    refine ⟨m1, m3, m4, fun h => absurd (m5 h) ?_⟩
    rw [hr]
    simp

theorem identifierConstant_spec (p : Parser) (hE : ErrOk p) :
    ErrOk (p.identifierConstant).2 ∧
    (p.identifierConstant).2.chunk.code = p.chunk.code ∧
    (p.identifierConstant).2.compiler = p.compiler ∧
    ((p.identifierConstant).2.hadError = false → p.hadError = false) ∧
    ((p.identifierConstant).2.hadError = false → (p.identifierConstant).1.isSome) := by
  unfold Parser.identifierConstant
  exact makeConstant_spec { p with strings := (p.strings.buildStringValue p.previous.lexeme).2 }
    (p.strings.buildStringValue p.previous.lexeme).1 hE

theorem namedVariableOps_spec (p : Parser) (hE : ErrOk p) :
    ErrOk (p.namedVariableOps).2 ∧
    (p.namedVariableOps).2.chunk.code = p.chunk.code ∧
    (p.namedVariableOps).2.compiler = p.compiler ∧
    ((p.namedVariableOps).2.hadError = false → p.hadError = false) ∧
    ((p.namedVariableOps).2.hadError = false →
      isStraight (p.namedVariableOps).1.1 = true ∧
      isStraight (p.namedVariableOps).1.2 = true ∧
      opEffect (p.namedVariableOps).1.1 = 0 ∧
      opEffect (p.namedVariableOps).1.2 = 1) := by
  cases hres : p.compiler.resolveLocal p.previous with
  | some r =>
    obtain ⟨idx, initialized⟩ := r
    cases initialized with
    | true =>
      have hm : p.namedVariableOps = ((Op.setLocal idx, Op.getLocal idx), p) := by
        simp only [Parser.namedVariableOps, hres]
        rfl
      rw [hm]
      exact ⟨hE, rfl, rfl, fun h => h, fun _ => ⟨rfl, rfl, rfl, rfl⟩⟩
    | false =>
      have hm : p.namedVariableOps = ((Op.setLocal idx, Op.getLocal idx),
          p.errorAtTok ("Can't read local variable in its own initializer.") p.previous) := by
        simp only [Parser.namedVariableOps, hres]
        rfl
      rw [hm]
      obtain ⟨h1, h2, h3, h4⟩ := errorAtTok_spec p
        ("Can't read local variable in its own initializer.") p.previous hE
      exact ⟨h1, by rw [h2], h3, h4, fun _ => ⟨rfl, rfl, rfl, rfl⟩⟩
  | none =>
    obtain ⟨i1, i2, i3, i4, i5⟩ := identifierConstant_spec p hE
    cases hr : (p.identifierConstant).1 with
    | some idx =>
      have hm : p.namedVariableOps = ((Op.setGlobal idx, Op.getGlobal idx),
          (p.identifierConstant).2) := by
        simp only [Parser.namedVariableOps, hres, hr]
      rw [hm]
      exact ⟨i1, i2, i3, i4, fun _ => ⟨rfl, rfl, rfl, rfl⟩⟩
    | none =>
      have hm : p.namedVariableOps = ((Op.pop, Op.nil'), (p.identifierConstant).2) := by
        simp only [Parser.namedVariableOps, hres, hr]
      rw [hm]
      refine ⟨i1, i2, i3, i4, fun h => absurd (i5 h) ?_⟩
      rw [hr]
      simp

theorem emitPops_spec : ∀ (n : Nat) (p : Parser),
    (emitPops n p).chunk.code = p.chunk.code ++ encodeOps (List.replicate n .pop) ∧
    (emitPops n p).compiler = p.compiler ∧
    (emitPops n p).hadError = p.hadError ∧
    (emitPops n p).panicMode = p.panicMode := by
  intro n
  induction n with
  | zero => intro p; simp [emitPops, encodeOps]
  | succ n ih =>
    intro p
    obtain ⟨h1, h2, h3, h4⟩ := ih (p.emitIns .pop)
    obtain ⟨e1, e2, e3, e4⟩ := emitIns_spec p .pop
    refine ⟨?_, by rw [show emitPops (n+1) p = emitPops n (p.emitIns .pop) from rfl, h2, e2],
      by rw [show emitPops (n+1) p = emitPops n (p.emitIns .pop) from rfl, h3, e3],
      by rw [show emitPops (n+1) p = emitPops n (p.emitIns .pop) from rfl, h4, e4]⟩
    rw [show emitPops (n+1) p = emitPops n (p.emitIns .pop) from rfl, h1, e1]
    have : Op.pop :: List.replicate n Op.pop = List.replicate (n+1) Op.pop := by
      simp [List.replicate_succ]
    rw [← this]
    simp [encodeOps, encodeOp]

theorem sumEffects_replicate_pop (n : Nat) :
    sumEffects (List.replicate n .pop) = -(n : Int) := by
  induction n with
  | zero => rfl
  | succ n ih =>
    rw [List.replicate_succ]
    show opEffect .pop + sumEffects (List.replicate n .pop) = _
    rw [ih]
    show (-1 : Int) + -(n : Int) = -((n : Int) + 1)
    ring

theorem allStraight_replicate_pop (n : Nat) :
    allStraight (List.replicate n .pop) = true := by
  simp [allStraight, isStraight]

theorem EmitBal_emitPops (n : Nat) (p : Parser) :
    EmitBal p (emitPops n p) (-(n : Int)) :=
  ⟨List.replicate n .pop, (emitPops_spec n p).1, allStraight_replicate_pop n,
    sumEffects_replicate_pop n⟩

/-- Net stack effect of each parse handler when it succeeds without a
recorded error. -/
def handlerNet : HandlerId → Int
  | .binary => 0
  | _ => 1

theorem getRule_prefix_net (k : TokenKind) (h : HandlerId)
    (hh : (getRule k).prefixFn = some h) : handlerNet h = 1 := by
  cases k <;> simp_all [getRule] <;> subst hh <;> rfl

theorem getRule_infix_net (k : TokenKind) (h : HandlerId)
    (hh : (getRule k).infixFn = some h) : handlerNet h = 0 := by
  cases k <;> simp_all [getRule] <;> subst hh <;> rfl

theorem binOpFor_effect (k : TokenKind) (op : Op) (h : binOpFor k = some op) :
    isStraight op = true ∧ opEffect op = -1 := by
  cases k <;> simp_all [binOpFor] <;> subst h <;> exact ⟨rfl, rfl⟩

theorem addLocal_ok (c c1 : Compiler) (name : Token) (h : c.addLocal name = .ok c1) :
    c1.scopeDepth = c.scopeDepth ∧ c1.localCount = c.localCount + 1 := by
  unfold Compiler.addLocal at h
  split at h
  · cases h
  · split at h
    · cases h
    · injection h with h
      subst h
      exact ⟨rfl, rfl⟩

/-- `parse_variable`: at depth 0 the compiler is untouched and a constant
index is produced; at depth ≥ 1 exactly one `add_local` happened. -/
theorem parseVariable_spec (p : Parser) (err : String) (res : Option Nat) (p' : Parser)
    (hE : ErrOk p) (h : p.parseVariable err = some (res, p')) :
    ErrOk p' ∧ p'.chunk.code = p.chunk.code ∧
    (p'.hadError = false → p.hadError = false) ∧
    (p'.hadError = false →
      (p.compiler.scopeDepth = 0 → p'.compiler = p.compiler ∧ res.isSome) ∧
      (1 ≤ p.compiler.scopeDepth →
        ∃ name, p.compiler.addLocal name = .ok p'.compiler)) := by
  unfold Parser.parseVariable at h
  cases hcon : p.consume .identifier err with
  | none => rw [hcon] at h; cases h
  | some pc =>
    rw [hcon] at h
    obtain ⟨c1, c2, c3, c4⟩ := consume_spec p pc .identifier err hE hcon
    replace h : (if pc.declareVariable.compiler.scopeDepth > 0
        then some (none, pc.declareVariable)
        else some pc.declareVariable.identifierConstant) = some (res, p') := h
    by_cases hd0 : pc.compiler.scopeDepth = 0
    · have hdv : pc.declareVariable = pc := by
        unfold Parser.declareVariable
        rw [if_pos hd0]
      rw [hdv, if_neg (by omega : ¬ pc.compiler.scopeDepth > 0)] at h
      injection h with h
      have h1 : pc.identifierConstant.1 = res := by rw [h]
      have h2 : pc.identifierConstant.2 = p' := by rw [h]
      obtain ⟨i1, i2, i3, i4, i5⟩ := identifierConstant_spec pc c1
      rw [h1, h2] at i5
      rw [h2] at i1 i2 i3 i4
      refine ⟨i1, by rw [i2, c2], fun hh => c4 (i4 hh), fun hpe => ⟨fun _ => ?_, fun hge => ?_⟩⟩
      · exact ⟨by rw [i3, c3], i5 hpe⟩
      · rw [c3] at hd0
        omega
    · cases ha : pc.compiler.addLocal pc.previous with
      | ok cnew =>
        have hdv : pc.declareVariable = { pc with compiler := cnew } := by
          unfold Parser.declareVariable
          rw [if_neg hd0, ha]
        have hdep : cnew.scopeDepth = pc.compiler.scopeDepth := (addLocal_ok _ _ _ ha).1
        rw [hdv] at h
        rw [if_pos (show ({ pc with compiler := cnew } : Parser).compiler.scopeDepth > 0 by
          show cnew.scopeDepth > 0; omega)] at h
        injection h with h
        injection h with hres hp'
        subst hp'
        refine ⟨c1, by show pc.chunk.code = p.chunk.code; rw [c2], c4,
          fun hpe => ⟨fun hz => ?_, fun _ => ⟨pc.previous, ?_⟩⟩⟩
        · rw [c3] at hd0
          exact absurd hz hd0
        · show p.compiler.addLocal pc.previous = .ok cnew
          rw [← c3]
          exact ha
      | error msg =>
        have hdv : pc.declareVariable = pc.errorAtTok msg pc.previous := by
          unfold Parser.declareVariable
          rw [if_neg hd0, ha]
          rfl
        rw [hdv] at h
        obtain ⟨e1, e2, e3, e4⟩ := errorAtTok_spec pc msg pc.previous c1
        rw [if_pos (show (pc.errorAtTok msg pc.previous).compiler.scopeDepth > 0 by
          rw [e3]; omega)] at h
        injection h with h
        injection h with hres hp'
        subst hp'
        refine ⟨e1, by rw [e2, c2], fun hh => c4 (e4 hh), fun hpe => ?_⟩
        exact absurd hpe (fun hpe => errorAtTok_hadError pc msg pc.previous c1 hpe)

/-- What a statement-level parse guarantees: a well-formed local table stays
well-formed, the scope depth is restored, and the emitted straight-line
code's net stack effect equals the change in the number of locals. -/
def stmtFact (p p' : Parser) : Prop :=
  LocalsGood p.compiler → LocalsGood p'.compiler ∧
    p'.compiler.scopeDepth = p.compiler.scopeDepth ∧
    EmitBal p p' ((p'.compiler.localCount : Int) - (p.compiler.localCount : Int))

/-- The per-call-site guarantee of each parse function, used as the motive
of the induction over `parserGo`. -/
def tagFact : PTag → Parser → Parser → Prop
  | .expression, p, p' => p'.compiler = p.compiler ∧ EmitBal p p' 1
  | .parsePrecedence _, p, p' => p'.compiler = p.compiler ∧ EmitBal p p' 1
  | .infixLoop _ _, p, p' => p'.compiler = p.compiler ∧ EmitBal p p' 0
  | .handler hid _, p, p' => p'.compiler = p.compiler ∧ EmitBal p p' (handlerNet hid)
  | _, p, p' => stmtFact p p'

theorem stmtFact_pure_left {p q p' : Parser} (hc : q.chunk.code = p.chunk.code)
    (hcc : q.compiler = p.compiler) (h : stmtFact q p') : stmtFact p p' := by
  intro hg
  obtain ⟨g1, g2, g3⟩ := h (by rw [hcc]; exact hg)
  refine ⟨g1, by rw [g2, hcc], ?_⟩
  have t := EmitBal_trans (EmitBal_code_eq p q hc) g3
  exact EmitBal_cast t (by rw [hcc]; omega)

theorem stmtFact_trans {p q r : Parser} (h1 : stmtFact p q) (h2 : stmtFact q r) :
    stmtFact p r := by
  intro hg
  obtain ⟨a1, a2, a3⟩ := h1 hg
  obtain ⟨b1, b2, b3⟩ := h2 a1
  exact ⟨b1, by rw [b2, a2], EmitBal_cast (EmitBal_trans a3 b3) (by omega)⟩

/-- Main parser induction: every successful parse call preserves the panic
invariant, never clears the error flag, and (when no error was recorded)
satisfies its tag's statement/expression guarantee. -/
theorem parserGo_spec : ∀ (fuel : Nat) (tag : PTag) (p p' : Parser), ErrOk p →
    parserGo fuel tag p = some p' →
    ErrOk p' ∧ (p'.hadError = false → p.hadError = false) ∧
    (p'.hadError = false → tagFact tag p p') := by
  intro fuel
  induction fuel with
  | zero =>
    intro tag p p' _ h
    cases h
  | succ fuel ih =>
    intro tag p p' hE h
    cases tag with
    | declaration =>
      simp only [parserGo] at h
      split at h
      · cases h
      · rename_i matched p1 hm
        obtain ⟨m1, m2, m3, m4⟩ := matchT_spec p p1 .var matched hE hm
        split at h
        · cases h
        · rename_i p2 hg
          obtain ⟨r1, r2, r3⟩ := ih _ p1 p2 m1 hg
          have r3' : p2.hadError = false → stmtFact p1 p2 := by
            cases matched
            · exact r3
            · exact r3
          split at h
          · rename_i hpm
            obtain ⟨s1, s2, s3, s4⟩ := synchronize_spec p2 p' r1 h
            refine ⟨s1, fun hh => m4 (r2 (s4 hh)), fun hh => ?_⟩
            exact absurd (s4 hh) (by rw [r1 hpm]; simp)
          · injection h with h
            subst h
            exact ⟨r1, fun hh => m4 (r2 hh), fun hh =>
              stmtFact_pure_left (by rw [m2]) m3 (r3' hh)⟩
    | statement =>
      simp only [parserGo] at h
      split at h
      · cases h
      · rename_i p1 hm
        obtain ⟨m1, m2, m3, m4⟩ := matchT_spec p p1 .print true hE hm
        obtain ⟨r1, r2, r3⟩ := ih .printStatement p1 p' m1 h
        exact ⟨r1, fun hh => m4 (r2 hh), fun hh =>
          stmtFact_pure_left (by rw [m2]) m3 (r3 hh)⟩
      · rename_i p1 hm
        obtain ⟨m1, m2, m3, m4⟩ := matchT_spec p p1 .print false hE hm
        split at h
        · cases h
        · rename_i p2 hm2
          obtain ⟨n1, n2, n3, n4⟩ := matchT_spec p1 p2 .leftBrace true m1 hm2
          split at h
          · cases h
          · rename_i p3 hg
            have hEb : ErrOk { p2 with compiler := p2.compiler.beginScope } := n1
            obtain ⟨r1, r2, r3⟩ := ih .block _ p3 hEb hg
            split at h
            · cases h
            · rename_i c4 removed hes
              injection h with h
              subst h
              obtain ⟨ep1, ep2, ep3, ep4⟩ := emitPops_spec removed { p3 with compiler := c4 }
              refine ⟨fun hpm => ?_, fun hh => ?_, fun hh => ?_⟩
              · rw [ep3]
                exact r1 (by rw [← ep4]; exact hpm)
              · exact m4 (n4 (r2 (by rw [← ep3]; exact hh)))
              · intro hg0
                have hc2g : LocalsGood p2.compiler := by rw [n3, m3]; exact hg0
                have h3f : p3.hadError = false := by rw [← ep3]; exact hh
                obtain ⟨b1, b2, b3⟩ := r3 h3f (localsGood_beginScope _ hc2g)
                have hdep3 : p3.compiler.scopeDepth = p2.compiler.scopeDepth + 1 := b2
                obtain ⟨e1, e2, e3⟩ := endScope_spec p3.compiler c4 removed b1 (by omega) hes
                have hdp2 : p2.compiler.scopeDepth = p.compiler.scopeDepth := by rw [n3, m3]
                have hct2 : p2.compiler.localCount = p.compiler.localCount := by rw [n3, m3]
                refine ⟨by rw [ep2]; exact e1,
                  by rw [ep2]; show c4.scopeDepth = p.compiler.scopeDepth; omega, ?_⟩
                have t2 : EmitBal p { p2 with compiler := p2.compiler.beginScope } 0 :=
                  EmitBal_code_eq _ _ (by
                    show p2.chunk.code = p.chunk.code
                    rw [n2, m2])
                have t4 : EmitBal p3 (emitPops removed { p3 with compiler := c4 })
                    (-(removed : Int)) :=
                  EmitBal_cast (EmitBal_trans
                    (EmitBal_code_eq p3 { p3 with compiler := c4 } rfl)
                    (EmitBal_emitPops removed { p3 with compiler := c4 })) (by omega)
                refine EmitBal_cast (EmitBal_trans (EmitBal_trans t2 b3) t4) ?_
                rw [ep2]
                show (0 : Int) + ((p3.compiler.localCount : Int) -
                    (p2.compiler.localCount : Int)) + -(removed : Int) =
                  (c4.localCount : Int) - (p.compiler.localCount : Int)
                omega
        · rename_i p2 hm2
          obtain ⟨n1, n2, n3, n4⟩ := matchT_spec p1 p2 .leftBrace false m1 hm2
          obtain ⟨r1, r2, r3⟩ := ih .expressionStatement p2 p' n1 h
          exact ⟨r1, fun hh => m4 (n4 (r2 hh)), fun hh =>
            stmtFact_pure_left (by rw [n2, m2]) (by rw [n3, m3]) (r3 hh)⟩
    | block =>
      simp only [parserGo] at h
      split at h
      · split at h
        · cases h
        · rename_i p1 hg
          obtain ⟨r1, r2, r3⟩ := ih .declaration p p1 hE hg
          obtain ⟨s1, s2, s3⟩ := ih .block p1 p' r1 h
          exact ⟨s1, fun hh => r2 (s2 hh), fun hh =>
            stmtFact_trans (r3 (s2 hh)) (s3 hh)⟩
      · obtain ⟨c1, c2, c3, c4⟩ := consume_spec p p' .rightBrace _ hE h
        refine ⟨c1, c4, fun hh hg => ?_⟩
        exact ⟨by rw [c3]; exact hg, by rw [c3],
          EmitBal_cast (EmitBal_code_eq _ _ (by rw [c2])) (by rw [c3]; omega)⟩
    | printStatement =>
      simp only [parserGo] at h
      split at h
      · cases h
      · rename_i p1 hg
        obtain ⟨r1, r2, r3⟩ := ih .expression p p1 hE hg
        split at h
        · cases h
        · rename_i p2 hcon
          injection h with h
          subst h
          obtain ⟨c1, c2, c3, c4⟩ := consume_spec p1 p2 .semicolon _ r1 hcon
          obtain ⟨e1, e2, e3, e4⟩ := emitIns_spec p2 .print
          refine ⟨fun hpm => by rw [e3]; exact c1 (by rw [← e4]; exact hpm),
            fun hh => r2 (c4 (by rw [← e3]; exact hh)), fun hh hg0 => ?_⟩
          have h2f : p2.hadError = false := by rw [← e3]; exact hh
          obtain ⟨a2, a3⟩ := r3 (c4 h2f)
          have hcomp : (p2.emitIns .print).compiler = p.compiler := by rw [e2, c3, a2]
          refine ⟨by rw [hcomp]; exact hg0, by rw [hcomp], ?_⟩
          have chain := EmitBal_trans
            (EmitBal_trans a3 (EmitBal_code_eq p1 p2 (by rw [c2])))
            (EmitBal_emitIns p2 .print rfl)
          exact EmitBal_cast chain (by rw [hcomp]; simp only [opEffect]; omega)
    | expressionStatement =>
      simp only [parserGo] at h
      split at h
      · cases h
      · rename_i p1 hg
        obtain ⟨r1, r2, r3⟩ := ih .expression p p1 hE hg
        split at h
        · cases h
        · rename_i p2 hcon
          injection h with h
          subst h
          obtain ⟨c1, c2, c3, c4⟩ := consume_spec p1 p2 .semicolon _ r1 hcon
          obtain ⟨e1, e2, e3, e4⟩ := emitIns_spec p2 .pop
          refine ⟨fun hpm => by rw [e3]; exact c1 (by rw [← e4]; exact hpm),
            fun hh => r2 (c4 (by rw [← e3]; exact hh)), fun hh hg0 => ?_⟩
          have h2f : p2.hadError = false := by rw [← e3]; exact hh
          obtain ⟨a2, a3⟩ := r3 (c4 h2f)
          have hcomp : (p2.emitIns .pop).compiler = p.compiler := by rw [e2, c3, a2]
          refine ⟨by rw [hcomp]; exact hg0, by rw [hcomp], ?_⟩
          have chain := EmitBal_trans
            (EmitBal_trans a3 (EmitBal_code_eq p1 p2 (by rw [c2])))
            (EmitBal_emitIns p2 .pop rfl)
          exact EmitBal_cast chain (by rw [hcomp]; simp only [opEffect]; omega)
    | expression =>
      simp only [parserGo] at h
      obtain ⟨r1, r2, r3⟩ := ih (.parsePrecedence .assignment) p p' hE h
      exact ⟨r1, r2, r3⟩
    | variableDeclaration =>
      simp only [parserGo] at h
      split at h
      · cases h
      · rename_i res p1 hpv
        obtain ⟨v1, v2, v3, v4⟩ := parseVariable_spec p _ res p1 hE hpv
        split at h
        · cases h
        · rename_i meq p2 hm
          obtain ⟨m1, m2, m3, m4⟩ := matchT_spec p1 p2 .equal meq v1 hm
          have hinit : ∀ p3, (if meq then parserGo fuel .expression p2
              else some (p2.emitIns .nil')) = some p3 →
              ErrOk p3 ∧ (p3.hadError = false → p2.hadError = false) ∧
              (p3.hadError = false → p3.compiler = p2.compiler ∧ EmitBal p2 p3 1) := by
            intro p3 hi
            cases meq with
            | true =>
              rw [if_pos rfl] at hi
              obtain ⟨a1, a2, a3⟩ := ih .expression p2 p3 m1 hi
              exact ⟨a1, a2, a3⟩
            | false =>
              rw [if_neg (by simp)] at hi
              injection hi with hi
              subst hi
              obtain ⟨e1, e2, e3, e4⟩ := emitIns_spec p2 .nil'
              refine ⟨fun hpm => by rw [e3]; exact m1 (by rw [← e4]; exact hpm),
                fun hh => by rw [← e3]; exact hh, fun _ => ⟨e2, ?_⟩⟩
              exact EmitBal_cast (EmitBal_emitIns p2 .nil' rfl) (by simp [opEffect])
          split at h
          · cases h
          · rename_i p3 hi
            obtain ⟨i1, i2, i3⟩ := hinit p3 hi
            split at h
            · cases h
            · rename_i p4 hcon
              obtain ⟨c1, c2, c3, c4⟩ := consume_spec p3 p4 .semicolon _ i1 hcon
              unfold Parser.defineVariable at h
              split at h
              · rename_i hd4
                split at h
                · cases h
                · rename_i cI hmi
                  injection h with h
                  subst h
                  refine ⟨c1, fun hh => v3 (m4 (i2 (c4 hh))), fun hh hg0 => ?_⟩
                  have h4f : p4.hadError = false := hh
                  have h3f : p3.hadError = false := c4 h4f
                  have h1f : p1.hadError = false := m4 (i2 h3f)
                  obtain ⟨hi3c, hi3b⟩ := i3 h3f
                  obtain ⟨hv0, hv1⟩ := v4 h1f
                  have hc41 : p4.compiler = p1.compiler := by rw [c3, hi3c, m3]
                  by_cases hpd : p.compiler.scopeDepth = 0
                  · obtain ⟨hcc, _⟩ := hv0 hpd
                    rw [hc41, hcc, hpd] at hd4
                    exact absurd hd4 (by omega)
                  · obtain ⟨name, ha⟩ := hv1 (by omega)
                    have hmi' : p1.compiler.markInitialized = some cI := by
                      rw [← hc41]
                      exact hmi
                    obtain ⟨g1, g2, g3⟩ := local_declare_good p.compiler p1.compiler cI
                      name hg0 (by omega) ha hmi'
                    refine ⟨g1, g2, ?_⟩
                    have chain := EmitBal_trans (EmitBal_trans (EmitBal_trans
                      (EmitBal_code_eq p p1 v2)
                      (EmitBal_code_eq p1 p2 (by rw [m2]))) hi3b)
                      (EmitBal_trans (EmitBal_code_eq p3 p4 (by rw [c2]))
                        (EmitBal_code_eq p4 { p4 with compiler := cI } rfl))
                    refine EmitBal_cast chain ?_
                    show (0 : Int) + 0 + 1 + (0 + 0) =
                      (cI.localCount : Int) - (p.compiler.localCount : Int)
                    omega
              · rename_i hd4
                injection h with h
                subst h
                cases res with
                | some i0 =>
                  obtain ⟨e1, e2, e3, e4⟩ := emitIns_spec p4 (Op.defineGlobal i0)
                  refine ⟨fun hpm => by rw [e3]; exact c1 (by rw [← e4]; exact hpm),
                    fun hh => v3 (m4 (i2 (c4 (by rw [← e3]; exact hh)))), fun hh hg0 => ?_⟩
                  have h4f : p4.hadError = false := by rw [← e3]; exact hh
                  have h3f : p3.hadError = false := c4 h4f
                  have h1f : p1.hadError = false := m4 (i2 h3f)
                  obtain ⟨hi3c, hi3b⟩ := i3 h3f
                  obtain ⟨hv0, hv1⟩ := v4 h1f
                  have hc41 : p4.compiler = p1.compiler := by rw [c3, hi3c, m3]
                  by_cases hpd : p.compiler.scopeDepth = 0
                  · obtain ⟨hcc, hsome⟩ := hv0 hpd
                    have hcp : (p4.emitIns (Op.defineGlobal i0)).compiler = p.compiler := by
                      rw [(emitIns_spec p4 (Op.defineGlobal i0)).2.1, hc41, hcc]
                    refine ⟨by rw [hcp]; exact hg0, by rw [hcp], ?_⟩
                    have chain := EmitBal_trans (EmitBal_trans (EmitBal_trans
                      (EmitBal_code_eq p p1 v2)
                      (EmitBal_code_eq p1 p2 (by rw [m2]))) hi3b)
                      (EmitBal_trans (EmitBal_code_eq p3 p4 (by rw [c2]))
                        (EmitBal_emitIns p4 (Op.defineGlobal i0) rfl))
                    refine EmitBal_cast chain ?_
                    rw [hcp]
                    show (0 : Int) + 0 + 1 + (0 + -1) =
                      (p.compiler.localCount : Int) - (p.compiler.localCount : Int)
                    omega
                  · obtain ⟨name, ha⟩ := hv1 (by omega)
                    have hda := (addLocal_ok _ _ _ ha).1
                    rw [hc41] at hd4
                    rw [hda] at hd4
                    exact absurd hd4 (by omega)
                | none =>
                  obtain ⟨e1, e2, e3, e4⟩ := emitIns_spec p4 Op.pop
                  refine ⟨fun hpm => by rw [e3]; exact c1 (by rw [← e4]; exact hpm),
                    fun hh => v3 (m4 (i2 (c4 (by rw [← e3]; exact hh)))), fun hh hg0 => ?_⟩
                  have h4f : p4.hadError = false := by rw [← e3]; exact hh
                  have h3f : p3.hadError = false := c4 h4f
                  have h1f : p1.hadError = false := m4 (i2 h3f)
                  obtain ⟨hi3c, hi3b⟩ := i3 h3f
                  obtain ⟨hv0, hv1⟩ := v4 h1f
                  have hc41 : p4.compiler = p1.compiler := by rw [c3, hi3c, m3]
                  by_cases hpd : p.compiler.scopeDepth = 0
                  · obtain ⟨hcc, hsome⟩ := hv0 hpd
                    simp at hsome
                  · obtain ⟨name, ha⟩ := hv1 (by omega)
                    have hda := (addLocal_ok _ _ _ ha).1
                    rw [hc41] at hd4
                    rw [hda] at hd4
                    exact absurd hd4 (by omega)
    | parsePrecedence prec =>
      simp only [parserGo] at h
      split at h
      · cases h
      · rename_i p1 hadv
        obtain ⟨a1, a2, a3, a4⟩ := advance_spec p p1 hE hadv
        split at h
        · rename_i hpre
          injection h with h
          subst h
          refine ⟨(errorAtTok_spec p1 _ p1.previous a1).1,
            fun hh => a4 ((errorAtTok_spec p1 _ p1.previous a1).2.2.2 hh),
            fun hh => absurd hh (fun hh => errorAtTok_hadError p1 _ p1.previous a1 hh)⟩
        · rename_i hid hpre
          split at h
          · cases h
          · rename_i p2 hg1
            obtain ⟨r1, r2, r3⟩ := ih _ p1 p2 a1 hg1
            split at h
            · cases h
            · rename_i p3 hg2
              obtain ⟨s1, s2, s3⟩ := ih _ p2 p3 r1 hg2
              have hnet := getRule_prefix_net p1.previous.kind hid hpre
              have main : p3.hadError = false →
                  p3.compiler = p.compiler ∧ EmitBal p p3 1 := by
                intro h3f
                obtain ⟨rc, rb⟩ := r3 (s2 h3f)
                obtain ⟨sc, sb⟩ := s3 h3f
                refine ⟨by rw [sc, rc, a3], ?_⟩
                have chain := EmitBal_trans (EmitBal_trans
                  (EmitBal_code_eq p p1 (by rw [a2])) rb) sb
                exact EmitBal_cast chain (by rw [hnet]; omega)
              split at h
              · split at h
                · cases h
                · rename_i p4 hm
                  injection h with h
                  subst h
                  obtain ⟨m1, m2, m3, m4⟩ := matchT_spec p3 p4 .equal true s1 hm
                  refine ⟨fun hpm => ?_, fun hh => ?_, fun hh => ?_⟩
                  · exact (errorAtTok_spec p4 _ p4.previous m1).1 hpm
                  · exact a4 (r2 (s2 (m4 ((errorAtTok_spec p4 _ p4.previous m1).2.2.2 hh))))
                  · exact absurd hh (fun hh => errorAtTok_hadError p4 _ p4.previous m1 hh)
                · rename_i p4 hm
                  injection h with h
                  subst h
                  obtain ⟨m1, m2, m3, m4⟩ := matchT_spec p3 p4 .equal false s1 hm
                  refine ⟨m1, fun hh => a4 (r2 (s2 (m4 hh))), fun hh => ?_⟩
                  obtain ⟨mc, mb⟩ := main (m4 hh)
                  exact ⟨by rw [m3, mc],
                    EmitBal_cast (EmitBal_trans mb
                      (EmitBal_code_eq p3 p4 (by rw [m2]))) (by omega)⟩
              · injection h with h
                subst h
                refine ⟨s1, fun hh => a4 (r2 (s2 hh)), fun hh => ?_⟩
                exact main hh
    | infixLoop prec ca =>
      simp only [parserGo] at h
      split at h
      · rename_i rulePrec hrp
        split at h
        · split at h
          · cases h
          · rename_i p1 hadv
            obtain ⟨a1, a2, a3, a4⟩ := advance_spec p p1 hE hadv
            split at h
            · cases h
            · rename_i hid hinf
              split at h
              · cases h
              · rename_i p2 hg1
                obtain ⟨r1, r2, r3⟩ := ih _ p1 p2 a1 hg1
                obtain ⟨s1, s2, s3⟩ := ih _ p2 p' r1 h
                have hnet := getRule_infix_net p1.previous.kind hid hinf
                refine ⟨s1, fun hh => a4 (r2 (s2 hh)), fun hh => ?_⟩
                obtain ⟨rc, rb⟩ := r3 (s2 hh)
                obtain ⟨sc, sb⟩ := s3 hh
                refine ⟨by rw [sc, rc, a3], ?_⟩
                have chain := EmitBal_trans (EmitBal_trans
                  (EmitBal_code_eq p p1 (by rw [a2])) rb) sb
                exact EmitBal_cast chain (by rw [hnet]; omega)
        · injection h with h
          subst h
          exact ⟨hE, fun hh => hh, fun hh =>
            ⟨rfl, EmitBal_code_eq p p rfl⟩⟩
      · injection h with h
        subst h
        exact ⟨hE, fun hh => hh, fun hh =>
          ⟨rfl, EmitBal_code_eq p p rfl⟩⟩
    | handler hid ca =>
      cases hid with
      | number =>
        simp only [parserGo] at h
        split at h
        · cases h
        · rename_i v hnum
          injection h with h
          subst h
          obtain ⟨e1, e2, e3, e4⟩ := emitConstant_spec p (Value.number v) hE
          exact ⟨e1, e3, fun hh => ⟨e2, e4 hh⟩⟩
      | stringLit =>
        simp only [parserGo] at h
        injection h with h
        subst h
        obtain ⟨e1, e2, e3, e4⟩ := emitConstant_spec
          { p with strings := (p.strings.buildStringValue (String.mk
              ((p.previous.lexeme.toList.drop 1).take
                (p.previous.lexeme.toList.length - 2)))).2 }
          (p.strings.buildStringValue (String.mk
              ((p.previous.lexeme.toList.drop 1).take
                (p.previous.lexeme.toList.length - 2)))).1 hE
        exact ⟨e1, e3, fun hh => ⟨e2, e4 hh⟩⟩
      | grouping =>
        simp only [parserGo] at h
        split at h
        · cases h
        · rename_i p1 hg
          obtain ⟨r1, r2, r3⟩ := ih .expression p p1 hE hg
          obtain ⟨c1, c2, c3, c4⟩ := consume_spec p1 p' .rightParen _ r1 h
          refine ⟨c1, fun hh => r2 (c4 hh), fun hh => ?_⟩
          obtain ⟨rc, rb⟩ := r3 (c4 hh)
          refine ⟨by rw [c3, rc], ?_⟩
          exact EmitBal_cast (EmitBal_trans rb (EmitBal_code_eq p1 p' (by rw [c2])))
            (by show (1 : Int) + 0 = 1; omega)
      | unary =>
        simp only [parserGo] at h
        split at h
        · split at h
          · cases h
          · rename_i p1 hg
            injection h with h
            subst h
            obtain ⟨r1, r2, r3⟩ := ih (.parsePrecedence .unary) p p1 hE hg
            obtain ⟨e1, e2, e3, e4⟩ := emitIns_spec p1 .negate
            refine ⟨fun hpm => by rw [e3]; exact r1 (by rw [← e4]; exact hpm),
              fun hh => r2 (by rw [← e3]; exact hh), fun hh => ?_⟩
            obtain ⟨rc, rb⟩ := r3 (by rw [← e3]; exact hh)
            refine ⟨by rw [e2, rc], ?_⟩
            exact EmitBal_cast (EmitBal_trans rb (EmitBal_emitIns p1 .negate rfl))
              (by show (1 : Int) + 0 = 1; omega)
        · split at h
          · cases h
          · rename_i p1 hg
            injection h with h
            subst h
            obtain ⟨r1, r2, r3⟩ := ih (.parsePrecedence .unary) p p1 hE hg
            obtain ⟨e1, e2, e3, e4⟩ := emitIns_spec p1 .not
            refine ⟨fun hpm => by rw [e3]; exact r1 (by rw [← e4]; exact hpm),
              fun hh => r2 (by rw [← e3]; exact hh), fun hh => ?_⟩
            obtain ⟨rc, rb⟩ := r3 (by rw [← e3]; exact hh)
            refine ⟨by rw [e2, rc], ?_⟩
            exact EmitBal_cast (EmitBal_trans rb (EmitBal_emitIns p1 .not rfl))
              (by show (1 : Int) + 0 = 1; omega)
        · injection h with h
          subst h
          refine ⟨(errorAtTok_spec p _ p.previous hE).1,
            fun hh => (errorAtTok_spec p _ p.previous hE).2.2.2 hh,
            fun hh => absurd hh (fun hh => errorAtTok_hadError p _ p.previous hE hh)⟩
      | binary =>
        simp only [parserGo] at h
        split at h
        · cases h
        · rename_i rulePrec hrp
          split at h
          · cases h
          · rename_i p1 hg
            obtain ⟨r1, r2, r3⟩ := ih _ p p1 hE hg
            split at h
            · cases h
            · rename_i op hop
              obtain ⟨hstraight, heff⟩ := binOpFor_effect _ op hop
              split at h
              · injection h with h
                subst h
                obtain ⟨e1, e2, e3, e4⟩ := emitIns_spec p1 op
                obtain ⟨f1, f2, f3, f4⟩ := emitIns_spec (p1.emitIns op) .not
                refine ⟨fun hpm => ?_, fun hh => ?_, fun hh => ?_⟩
                · rw [f3, e3]
                  exact r1 (by rw [← e4, ← f4]; exact hpm)
                · exact r2 (by rw [← e3, ← f3]; exact hh)
                · obtain ⟨rc, rb⟩ := r3 (by rw [← e3, ← f3]; exact hh)
                  refine ⟨by rw [f2, e2, rc], ?_⟩
                  have chain := EmitBal_trans
                    (EmitBal_trans rb (EmitBal_emitIns p1 op hstraight))
                    (EmitBal_emitIns (p1.emitIns op) .not rfl)
                  refine EmitBal_cast chain ?_
                  rw [heff]
                  show (1 : Int) + -1 + 0 = 0
                  omega
              · injection h with h
                subst h
                obtain ⟨e1, e2, e3, e4⟩ := emitIns_spec p1 op
                refine ⟨fun hpm => by rw [e3]; exact r1 (by rw [← e4]; exact hpm),
                  fun hh => r2 (by rw [← e3]; exact hh), fun hh => ?_⟩
                obtain ⟨rc, rb⟩ := r3 (by rw [← e3]; exact hh)
                refine ⟨by rw [e2, rc], ?_⟩
                refine EmitBal_cast (EmitBal_trans rb (EmitBal_emitIns p1 op hstraight)) ?_
                rw [heff]
                show (1 : Int) + -1 = 0
                omega
      | literal =>
        simp only [parserGo] at h
        split at h
        · injection h with h
          subst h
          obtain ⟨e1, e2, e3, e4⟩ := emitIns_spec p .true'
          exact ⟨fun hpm => by rw [e3]; exact hE (by rw [← e4]; exact hpm),
            fun hh => by rw [← e3]; exact hh,
            fun hh => ⟨e2, EmitBal_emitIns p .true' rfl⟩⟩
        · injection h with h
          subst h
          obtain ⟨e1, e2, e3, e4⟩ := emitIns_spec p .false'
          exact ⟨fun hpm => by rw [e3]; exact hE (by rw [← e4]; exact hpm),
            fun hh => by rw [← e3]; exact hh,
            fun hh => ⟨e2, EmitBal_emitIns p .false' rfl⟩⟩
        · injection h with h
          subst h
          obtain ⟨e1, e2, e3, e4⟩ := emitIns_spec p .nil'
          exact ⟨fun hpm => by rw [e3]; exact hE (by rw [← e4]; exact hpm),
            fun hh => by rw [← e3]; exact hh,
            fun hh => ⟨e2, EmitBal_emitIns p .nil' rfl⟩⟩
        · cases h
      | varRef =>
        simp only [parserGo] at h
        rcases hno : p.namedVariableOps with ⟨⟨setOp, getOp⟩, p1⟩
        simp only [hno] at h
        obtain ⟨n1, n2, n3, n4, n5⟩ := namedVariableOps_spec p hE
        simp only [hno] at n1 n2 n3 n4 n5
        split at h
        · split at h
          · cases h
          · rename_i p2 hm
            split at h
            · cases h
            · rename_i p3 hg
              injection h with h
              subst h
              obtain ⟨m1, m2, m3, m4⟩ := matchT_spec p1 p2 .equal true n1 hm
              obtain ⟨r1, r2, r3⟩ := ih .expression p2 p3 m1 hg
              obtain ⟨e1, e2, e3, e4⟩ := emitIns_spec p3 setOp
              refine ⟨fun hpm => by rw [e3]; exact r1 (by rw [← e4]; exact hpm),
                fun hh => n4 (m4 (r2 (by rw [← e3]; exact hh))), fun hh => ?_⟩
              have h3f : p3.hadError = false := by rw [← e3]; exact hh
              have h1f : p1.hadError = false := m4 (r2 h3f)
              obtain ⟨w1, w2, w3, w4⟩ := n5 h1f
              obtain ⟨rc, rb⟩ := r3 h3f
              refine ⟨by rw [e2, rc, m3, n3], ?_⟩
              have chain := EmitBal_trans (EmitBal_trans (EmitBal_trans
                (EmitBal_code_eq p p1 n2) (EmitBal_code_eq p1 p2 (by rw [m2]))) rb)
                (EmitBal_emitIns p3 setOp w1)
              refine EmitBal_cast chain ?_
              rw [w3]
              show (0 : Int) + 0 + 1 + 0 = 1
              omega
          · rename_i p2 hm
            injection h with h
            subst h
            obtain ⟨m1, m2, m3, m4⟩ := matchT_spec p1 p2 .equal false n1 hm
            obtain ⟨e1, e2, e3, e4⟩ := emitIns_spec p2 getOp
            refine ⟨fun hpm => by rw [e3]; exact m1 (by rw [← e4]; exact hpm),
              fun hh => n4 (m4 (by rw [← e3]; exact hh)), fun hh => ?_⟩
            have h2f : p2.hadError = false := by rw [← e3]; exact hh
            have h1f : p1.hadError = false := m4 h2f
            obtain ⟨w1, w2, w3, w4⟩ := n5 h1f
            refine ⟨by rw [e2, m3, n3], ?_⟩
            have chain := EmitBal_trans (EmitBal_trans
              (EmitBal_code_eq p p1 n2) (EmitBal_code_eq p1 p2 (by rw [m2])))
              (EmitBal_emitIns p2 getOp w2)
            refine EmitBal_cast chain ?_
            rw [w4]
            show (0 : Int) + 0 + 1 = 1
            omega
        · injection h with h
          subst h
          obtain ⟨e1, e2, e3, e4⟩ := emitIns_spec p1 getOp
          refine ⟨fun hpm => by rw [e3]; exact n1 (by rw [← e4]; exact hpm),
            fun hh => n4 (by rw [← e3]; exact hh), fun hh => ?_⟩
          have h1f : p1.hadError = false := by rw [← e3]; exact hh
          obtain ⟨w1, w2, w3, w4⟩ := n5 h1f
          refine ⟨by rw [e2, n3], ?_⟩
          refine EmitBal_cast (EmitBal_trans (EmitBal_code_eq p p1 n2)
            (EmitBal_emitIns p1 getOp w2)) ?_
          rw [w4]
          show (0 : Int) + 1 = 1
          omega

/-- The declaration loop of `compile` keeps the statement-level guarantee. -/
theorem compileGo_spec : ∀ (fuel pfuel : Nat) (p p' : Parser), ErrOk p →
    compileGo fuel pfuel p = some p' →
    ErrOk p' ∧ (p'.hadError = false → p.hadError = false) ∧
    (p'.hadError = false → stmtFact p p') := by
  intro fuel
  induction fuel with
  | zero =>
    intro pfuel p p' _ h
    cases h
  | succ fuel ih =>
    intro pfuel p p' hE h
    simp only [compileGo] at h
    split at h
    · cases h
    · rename_i p1 hm
      injection h with h
      subst h
      obtain ⟨m1, m2, m3, m4⟩ := matchT_spec p p1 .eof true hE hm
      exact ⟨m1, m4, fun hh hg => ⟨by rw [m3]; exact hg, by rw [m3],
        EmitBal_cast (EmitBal_code_eq p p1 (by rw [m2])) (by rw [m3]; omega)⟩⟩
    · rename_i p1 hm
      obtain ⟨m1, m2, m3, m4⟩ := matchT_spec p p1 .eof false hE hm
      split at h
      · cases h
      · rename_i p2 hg
        obtain ⟨r1, r2, r3⟩ := parserGo_spec pfuel .declaration p1 p2 m1 hg
        obtain ⟨s1, s2, s3⟩ := ih pfuel p2 p' r1 h
        exact ⟨s1, fun hh => m4 (r2 (s2 hh)), fun hh =>
          stmtFact_pure_left (by rw [m2]) m3 (stmtFact_trans (r3 (s2 hh)) (s3 hh))⟩

/-- A successfully compiled chunk is straight-line code with total stack
effect 0, followed by a single `Return`. -/
theorem compile_balanced (source : String) (strings : StringInterns)
    (c : Chunk) (si : StringInterns) (eo : String)
    (h : compile source strings = some (some c, si, eo)) :
    ∃ L, c.code = encodeOps L ++ [1] ∧ allStraight L = true ∧ sumEffects L = 0 := by
  unfold compile at h
  cases hmk : Parser.mk' (Scanner.mk' source) strings with
  | none => rw [hmk] at h; cases h
  | some p0 =>
    rw [hmk] at h
    replace h : (match compileGo (source.length + 2) (compileFuel source) p0 with
      | none => none
      | some p =>
        some (if (p.emitIns .ret).hadError then none
          else some (p.emitIns .ret).chunk,
          (p.emitIns .ret).strings, (p.emitIns .ret).errOut)) =
        some (some c, si, eo) := h
    unfold Parser.mk' at hmk
    obtain ⟨a1, a2, a3, a4⟩ := advance_spec _ p0
      (fun hpm => absurd hpm Bool.false_ne_true) hmk
    cases hcg : compileGo (source.length + 2) (compileFuel source) p0 with
    | none => rw [hcg] at h; cases h
    | some p1 =>
      rw [hcg] at h
      obtain ⟨g1, g2, g3⟩ := compileGo_spec _ _ p0 p1 a1 hcg
      injection h with h
      obtain ⟨e1, e2, e3, e4⟩ := emitIns_spec p1 .ret
      cases hhe : p1.hadError with
      | true =>
        rw [if_pos (by rw [e3, hhe])] at h
        injection h with h1 h2
        cases h1
      | false =>
        rw [if_neg (by rw [e3, hhe]; exact Bool.false_ne_true)] at h
        injection h with h1 h2
        injection h1 with h1
        have hg0 : LocalsGood p0.compiler := by rw [a3]; exact localsGood_mk
        obtain ⟨s1, s2, s3⟩ := g3 hhe hg0
        have hd1 : p1.compiler.scopeDepth = 0 := by rw [s2, a3]; rfl
        have hc1 : p1.compiler.localCount = 0 := localsGood_depth0_empty _ s1 hd1
        have hc0 : p0.compiler.localCount = 0 := by rw [a3]; rfl
        obtain ⟨L, hLc, hLs, hLe⟩ := s3
        refine ⟨L, ?_, hLs, by rw [hc1, hc0] at hLe; simpa using hLe⟩
        rw [← h1]
        show (p1.emitIns .ret).chunk.code = encodeOps L ++ [1]
        rw [e1, hLc]
        have hnc : p0.chunk.code = [] := by rw [a2]; rfl
        rw [hnc]
        rfl

/-- C9: every chunk produced by a successful compile (no compile error)
leaves the value stack empty again (`stack_top = 0`) whenever the VM runs
it from an empty value stack and `run` returns `Ok` via `Return`. -/
theorem C9_stackBalanced (source : String) (strings : StringInterns)
    (c : Chunk) (si : StringInterns) (eo : String) (fuel : Nat)
    (st : VMState) (os : OutState) (st' : VMState) (os' : OutState)
    (hc : compile source strings = some (some c, si, eo))
    (hip : st.ip = 0) (hstk : st.values.stackTop = 0)
    (hr : vmRun fuel c st os = some (.ok (), st', os')) :
    st'.values.stackTop = 0 := by
  obtain ⟨L, hLc, hLs, hLe⟩ := compile_balanced source strings c si eo hc
  obtain ⟨code, csts, lns⟩ := c
  replace hLc : code = encodeOps L ++ [1] := hLc
  subst hLc
  have hres := vmRun_straight fuel L [] csts lns st os st' os' hLs hip hr
  omega

/-- C9 witness: compiling and running `print 1;` ends with `stack_top = 0`. -/
theorem C9_stackBalanced_witness :
    ({ ip := 4, values := ⟨List.replicate 256 none, 0⟩, strings := ⟨[], 0⟩,
       globals := [] } : VMState).values.stackTop = 0 :=
  C9_stackBalanced ("print 1;") StringInterns.new
    ⟨[6, 0, 4, 1], [Value.number ⟨1, 1⟩], [1, 1, 1, 1]⟩ ⟨[], 0⟩ "" 30
    ⟨0, ValueStack.new, ⟨[], 0⟩, []⟩ ⟨"", ""⟩
    ⟨4, ⟨List.replicate 256 none, 0⟩, ⟨[], 0⟩, []⟩ ⟨"1\n", ""⟩
    (by rfl) rfl rfl (by rfl)

end RLox
